import Mathlib

/-!
# ClickPlayer: interval store, shuffler, density estimator, sampler, playback loop, recorder

A shallow embedding of `src/ClickPlayer.cpp`.

Conventions of the embedding.

* A `float` or `double` value is the rational number it denotes.  Every arithmetic operation
  and every conversion rounds its exact result to the format of the type that C++ gives the
  expression (`toFloat` for binary32, `toDouble` for binary64): to the nearest value, ties to
  the even significand, with gradual underflow.  Expressions are evaluated in their own type,
  without excess precision and without fused operations.
* Infinities and NaN are not represented: the exponent of the formats is unbounded above.
  Statements carry range hypotheses wherever the program could overflow.
* `sqrt` is correctly rounded, as IEEE 754 requires, and `exp` is taken as correctly rounded
  too.  `pow(float, int)` has the `double` result of C++11.
* Text is a `List Char`.
* Everything the program reads from its environment (random engine, key states, signals,
  performance counter, file contents, dialog results, console input) is an explicit argument.
* What the program does to its environment is collected in a list of `Action`s.
* Time is not represented: `wait` (lines 53-61) has no counterpart, and the interval that a
  click cycle draws shows only as the call of `sampleFromKDE`.
-/

namespace ClickPlayer

/-! ## Shuffler (lines 26-30) -/

/-- Exchange of the elements at positions `i` and `j` of a vector, as `std::swap` on two of its
iterators; a position outside the vector leaves it as it is. -/
def swapAt {α : Type} (vec : List α) (i j : Nat) : List α :=
  match vec[i]?, vec[j]? with
  | some a, some b => (vec.set i b).set j a
  | _, _ => vec

/-- The exchange loop that `std::shuffle` runs over `[first, last)`: for every target index from
`1` on, the element there is exchanged with the one at an offset drawn in `[0, target]`.
`gen target` is the engine's draw for that target, `remaining` the number of targets left. -/
def shuffleLoop {α : Type} (gen : Nat → Nat) : Nat → Nat → List α → List α
  | 0, _, vec => vec
  | remaining + 1, target, vec =>
    shuffleLoop gen remaining (target + 1) (swapAt vec target (gen target % (target + 1)))

/-- `shuffle(vec)`, line 29: `std::shuffle(vec.begin(), vec.end(), gen)`. -/
def shuffle {α : Type} (gen : Nat → Nat) (vec : List α) : List α :=
  shuffleLoop gen (vec.length - 1) 1 vec

/-! ## Binary floating point -/

/-- Rounding to the nearest integer, ties to the even one. -/
def roundHalfEven {K : Type} [LinearOrderedField K] [FloorRing K] (q : K) : Int :=
  let f := ⌊q⌋
  if q - f < 1 / 2 then f
  else if 1 / 2 < q - f then f + 1
  else if f % 2 = 0 then f else f + 1

/-- The exponent of the unit in the last place of `x` in a binary format with `p` significant
bits whose least such exponent is `emin`. -/
def ulpExponent {K : Type} [LinearOrderedField K] [FloorRing K] (p : Nat) (emin : Int)
    (x : K) : Int :=
  max (Int.log 2 |x| - ((p : Int) - 1)) emin

/-- Rounding to the nearest value of the binary format, ties to the even significand. -/
def roundBinary {K : Type} [LinearOrderedField K] [FloorRing K] (p : Nat) (emin : Int)
    (x : K) : ℚ :=
  (roundHalfEven (x / 2 ^ ulpExponent p emin x) : ℚ) * 2 ^ ulpExponent p emin x

/-- A value of the binary format: a significand of fewer than `p` bits times a power of two
not below `emin`. -/
def Representable (p : Nat) (emin : Int) (f : ℚ) : Prop :=
  ∃ M k : Int, emin ≤ k ∧ |M| < 2 ^ p ∧ f = (M : ℚ) * 2 ^ k

/-- The number of binary digits of `n`, by halving at most `fuel` times. -/
def bitLength : Nat → Nat → Nat
  | 0, _ => 0
  | fuel + 1, n => if n = 0 then 0 else bitLength fuel (n / 2) + 1

/-- The binary exponent of a positive rational: the `e` with `2^e ≤ x < 2^(e+1)`. -/
def floorLog2 (x : ℚ) : Int :=
  if 1 ≤ x then (bitLength ⌊x⌋₊ ⌊x⌋₊ : Int) - 1
  else -(bitLength ⌈x⁻¹⌉₊ (⌈x⁻¹⌉₊ - 1) : Int)

/-- Rounding of a rational to the binary format, computed. -/
def roundRat (p : Nat) (emin : Int) (x : ℚ) : ℚ :=
  (roundHalfEven (x / 2 ^ max (floorLog2 |x| - ((p : Int) - 1)) emin) : ℚ)
    * 2 ^ max (floorLog2 |x| - ((p : Int) - 1)) emin

/-- Conversion to `float` (binary32). -/
def toFloat (x : ℚ) : ℚ := roundRat 24 (-149) x

/-- Conversion to `double` (binary64). -/
def toDouble (x : ℚ) : ℚ := roundRat 53 (-1074) x

/-- The greatest finite `float`, `FLT_MAX`. -/
def maxFloat : ℚ := (2 ^ 24 - 1) * 2 ^ 104

/-- A finite value of type `float`: a number that the conversion to `float` leaves as it is, of
magnitude at most `FLT_MAX`. -/
def isFloat (v : ℚ) : Prop := toFloat v = v ∧ |v| ≤ maxFloat

/-! ## Density estimator and sampler (lines 32-51) -/

/-- The library's `exp` on `double`, taken as correctly rounded. -/
noncomputable def expDouble (t : ℚ) : ℚ := roundBinary 53 (-1074) (Real.exp (t : ℝ))

/-- The library's `sqrt` on `double`, which is correctly rounded. -/
noncomputable def sqrtDouble (t : ℚ) : ℚ := roundBinary 53 (-1074) (Real.sqrt (t : ℝ))

/-- `sqrt(2 * 3.14159265359)` of line 37, in `double`. -/
noncomputable def sqrtTwoPi : ℚ := sqrtDouble (toDouble (2 * toDouble 3.14159265359))

/-- The argument `-0.5 * pow((x - sample) / bandwidth, 2)` of line 35: difference and quotient
in `float`, square and product in `double`. -/
def kernelArgument (x sample bandwidth : ℚ) : ℚ :=
  toDouble (-(1 / 2) * toDouble (toFloat (toFloat (x - sample) / bandwidth) ^ 2))

/-- The statement `sum += exp(...)` of line 35: the sum in `double`, stored to the `float`
accumulator. -/
def accumulate (sum term : ℚ) : ℚ := toFloat (toDouble (sum + term))

/-- The divisor `samples.size() * sqrt(2 * 3.14159265359) * bandwidth` of line 37, in
`double`. -/
noncomputable def kernelDivisor (size : Nat) (bandwidth : ℚ) : ℚ :=
  toDouble (toDouble (toDouble (size : ℚ) * sqrtTwoPi) * bandwidth)

/-- `kernelDensityEstimation(samples, x, bandwidth)`, lines 32-38, on `float` arguments: the
`float` accumulator `sum` starts at 0 and takes one kernel term for every sample, the quotient
of line 37 is formed in `double`, and the value returned is its conversion to `float`. -/
noncomputable def kernelDensityEstimation (samples : List ℚ) (x bandwidth : ℚ) : ℚ :=
  toFloat (toDouble
    (samples.foldl
        (fun sum sample => accumulate sum (expDouble (kernelArgument x sample bandwidth))) 0
      / kernelDivisor samples.length bandwidth))

/-- The candidate of line 45, `dis(gen) * (samples.back() - samples.front()) +
samples.front()`: the difference in `float`, product and sum in `double`, and the conversion to
`float` at the call of `kernelDensityEstimation` and at `return x`. -/
def kdeCandidate (front back u : ℚ) : ℚ :=
  toFloat (toDouble (toDouble (u * toFloat (back - front)) + front))

/-- `sampleFromKDE(samples, bandwidth)`, lines 40-51.  Each pass of the `while (true)` loop
consumes one pair `(u, y)` of draws of `dis(gen)`; the candidate is returned when
`y < kernelDensityEstimation(samples, x, bandwidth)`.  The result is `none` when the listed draws
are used up before a candidate is accepted, and for an empty vector, where `front()` and `back()`
have no value. -/
noncomputable def sampleFromKDE (samples : List ℚ) (bandwidth : ℚ) : List (ℚ × ℚ) → Option ℚ
  | [] => none
  | (u, y) :: rest =>
    match samples.head?, samples.getLast? with
    | some front, some back =>
      if y < kernelDensityEstimation samples (kdeCandidate front back u) bandwidth then
        some (kdeCandidate front back u)
      else sampleFromKDE samples bandwidth rest
    | _, _ => none

/-- The density of section 4.3 of the specification, in its words:
`(1 / (n · bandwidth · sqrt(2π))) · Σᵢ exp(−0.5 · ((x − sampleᵢ)/bandwidth)²)`, in exact real
arithmetic. -/
noncomputable def specDensity (samples : List ℚ) (x bandwidth : ℚ) : ℝ :=
  (1 / ((samples.length : ℝ) * (bandwidth : ℝ) * Real.sqrt (2 * Real.pi)))
    * (samples.map
        (fun (s : ℚ) => Real.exp (-0.5 * (((x : ℝ) - (s : ℝ)) / (bandwidth : ℝ)) ^ 2))).sum

/-! ## Text of a number: `operator<<` for `float` and `std::stod`

Both are library routines; they are modelled after the C and C++ standards for the default
stream state (precision 6, no float-field flag, "C" locale).  The digits written are those of
the exact value of the `float`, and the value read is the `double` nearest to the number that
the text denotes. -/

/-- The decimal exponent of a positive value: the `e` with `10^e ≤ a < 10^(e+1)`. -/
def decimalExponent (a : ℚ) : Int :=
  if 1 ≤ a then (Nat.log 10 ⌊a⌋₊ : Int) else -(Nat.clog 10 ⌈a⁻¹⌉₊ : Int)

/-- The six significant digits of a positive value, as a number `m` with `10^5 ≤ m < 10^6`,
and the exponent `X` that a conversion of style `e` would print: the value is rounded to
`m · 10^(X-5)`. -/
def significand (a : ℚ) : Nat × Int :=
  let e := decimalExponent a
  let m := (roundHalfEven (a * 10 ^ (5 - e))).toNat
  if m = 10 ^ 6 then (10 ^ 5, e + 1) else (m, e)

/-- The `k` low decimal digits of `n`, most significant first. -/
def digitsN : Nat → Nat → List Nat
  | 0, _ => []
  | k + 1, n => digitsN k (n / 10) ++ [n % 10]

/-- The number that a list of decimal digits denotes, most significant first. -/
def natOfDigits (ds : List Nat) : Nat := ds.foldl (fun acc d => acc * 10 + d) 0

/-- The character of a decimal digit. -/
def digitChar (d : Nat) : Char := Char.ofNat (48 + d)

/-- The digit that a character stands for. -/
def digitValue (c : Char) : Nat := c.toNat - 48

/-- The test `isdigit`. -/
def isDigit (c : Char) : Bool := 48 ≤ c.toNat && c.toNat ≤ 57

/-- The test `isspace` in the "C" locale. -/
def isSpace (c : Char) : Bool :=
  c = ' ' || c = '\t' || c = '\n' || c = '\x0b' || c = '\x0c' || c = '\r'

/-- Removal of the trailing zeros of a fraction. -/
def stripZeros : List Nat → List Nat
  | [] => []
  | d :: ds =>
    match stripZeros ds with
    | [] => if d = 0 then [] else [d]
    | r :: rs => d :: r :: rs

/-- The digits of an exponent: at least two, and as many more as it needs. -/
def exponentDigits (n : Nat) : List Nat := digitsN (max 2 (Nat.log 10 n + 1)) n

/-- The exponent part of a conversion of style `e`; nothing for style `f`. -/
def exponentText : Option Int → List Char
  | none => []
  | some X => 'e' :: (if X < 0 then '-' else '+') :: (exponentDigits X.natAbs).map digitChar

/-- Sign, integer digits, fraction digits behind a point when there are any, exponent part. -/
def decimalText (negative : Bool) (ip frac : List Nat) (exponent : Option Int) : List Char :=
  (if negative then ['-'] else []) ++ (ip.map digitChar
    ++ ((if frac = [] then [] else '.' :: frac.map digitChar) ++ exponentText exponent))

/-- The characters that `outputFile << value` writes for a `float` (lines 112 and 173): the
conversion `%g` with precision 6.  With `X` the exponent of the value rounded to six significant
digits, style `f` with `5 - X` fraction digits is used when `-4 ≤ X < 6` and style `e` with five
fraction digits otherwise; trailing zeros of the fraction are removed, and the point with them
when no fraction digit is left. -/
def formatFloat (v : ℚ) : List Char :=
  if v = 0 then ['0']
  else
    let (m, X) := significand |v|
    let ds := digitsN 6 m
    if 0 ≤ X ∧ X < 6 then
      decimalText (decide (v < 0)) (ds.take (X.toNat + 1)) (stripZeros (ds.drop (X.toNat + 1))) none
    else if -4 ≤ X ∧ X < 0 then
      decimalText (decide (v < 0)) [0] (stripZeros (List.replicate ((-X).toNat - 1) 0 ++ ds)) none
    else
      decimalText (decide (v < 0)) (ds.take 1) (stripZeros (ds.drop 1)) (some X)

/-- The value that the six printed digits denote: `v` rounded to six significant decimal
digits. -/
def roundSix (v : ℚ) : ℚ :=
  if v = 0 then 0
  else (if v < 0 then -1 else 1) * ((significand |v|).1 : ℚ) * 10 ^ ((significand |v|).2 - 5)

/-- What becomes of a value that is written by `operator<<` and read back by line 20: its six
digits, converted to `double` by `stod` and to `float` by `push_back`. -/
def reload (v : ℚ) : ℚ := toFloat (toDouble (roundSix v))

/-- An optional sign in front of a number. -/
def readSign : List Char → Bool × List Char
  | '-' :: t => (true, t)
  | '+' :: t => (false, t)
  | s => (false, s)

/-- An optional point followed by fraction digits: the digits and what follows them. -/
def readFraction : List Char → List Char × List Char
  | '.' :: t => (t.takeWhile isDigit, t.dropWhile isDigit)
  | s => ([], s)

/-- An optional exponent part: `e` or `E`, an optional sign, digits.  Without digits it counts
as absent. -/
def readExponent : List Char → Int
  | [] => 0
  | c :: t =>
    if c = 'e' ∨ c = 'E' then
      let n : Int := natOfDigits (((readSign t).2.takeWhile isDigit).map digitValue)
      if (readSign t).1 then -n else n
    else 0

/-- The number that the text of a decimal floating constant denotes, as `strtod` reads it:
leading white space is skipped, the longest initial part of the form sign, digits with an
optional point, optional exponent is taken, and what follows is ignored.  `none` when no digit
is found. -/
def decimalValue (str : List Char) : Option ℚ :=
  let signed := readSign (str.dropWhile isSpace)
  let ip := signed.2.takeWhile isDigit
  let fraction := readFraction (signed.2.dropWhile isDigit)
  if ip = [] ∧ fraction.1 = [] then none
  else
    let mantissa : ℚ :=
      (natOfDigits ((ip ++ fraction.1).map digitValue) : ℚ) / 10 ^ fraction.1.length
    some ((if signed.1 then -1 else 1) * mantissa * 10 ^ readExponent fraction.2)

/-- `std::stod(str)` (line 20) on decimal input: the `double` nearest to the number that the
text denotes.  `none` stands for the exception `std::invalid_argument`, thrown when no digit is
found.  Hexadecimal, `inf` and `nan` forms and the range check are left out. -/
def stod (str : List Char) : Option ℚ := (decimalValue str).map toDouble

/-! ## Interval store (lines 11-24 and 105-118) -/

/-- `std::getline(stream, interval, delim)`: the characters up to the next delimiter, which is
consumed too, and the rest of the stream.  `none` when nothing at all could be extracted, which
ends the loop of line 19. -/
def getline (stream : List Char) (delim : Char) : Option (List Char × List Char) :=
  match stream with
  | [] => none
  | _ =>
    some (stream.takeWhile (fun c => c != delim), (stream.dropWhile (fun c => c != delim)).tail)

/-- The loop of lines 19-21: `intervals.push_back(std::stod(interval))` for every token that
`getline` delivers; `push_back` converts the `double` to the `float` of the vector.  `none`
stands for the exception of `stod`, which nothing catches.  Every pass consumes at least one
character, so `fuel` above the length of the stream lets the loop run to its end. -/
def readLoop : Nat → List Char → List ℚ → Option (List ℚ)
  | 0, _, intervals => some intervals
  | fuel + 1, stream, intervals =>
    match getline stream ',' with
    | none => some intervals
    | some (interval, rest) =>
      match stod interval with
      | none => none
      | some v => readLoop fuel rest (intervals ++ [toFloat v])

/-- `readIntervalsFromFile(filePath)`, lines 11-24.  The argument is the content of the file
that the path names, `none` when it cannot be opened; the vector is then returned empty
(lines 14-17). -/
def readIntervalsFromFile (file : Option (List Char)) : Option (List ℚ) :=
  match file with
  | none => some []
  | some content => readLoop (content.length + 1) content []

/-- The loop of lines 111-116, from index `i` on for `n` more passes: the value at `i`, then a
comma when `i < clickDelays.size() - 1`. -/
def writeFrom (clickDelays : List ℚ) : Nat → Nat → List Char
  | 0, _ => []
  | n + 1, i =>
    formatFloat (clickDelays.getD i 0)
      ++ (if i < clickDelays.length - 1 then [','] else [])
      ++ writeFrom clickDelays n (i + 1)

/-- `saveClickDelaysToFile(filePath)`, lines 105-118, for a file that opens: the text written
for the vector `clickDelays`. -/
def saveClickDelaysToFile (clickDelays : List ℚ) : List Char :=
  writeFrom clickDelays clickDelays.length 0

/-! ## Recorder (lines 121-194) -/

/-- The variables of `clickRecorder` that its loop changes, with the global vector
`clickDelays` of line 9. -/
structure RecorderState where
  recording : Bool
  firstClickTime : Int
  clickDelays : List ℚ
deriving DecidableEq

/-- Line 139: `static_cast<float>((secondClickTime - firstClickTime) * 1000.0 / frequency)`,
in milliseconds: the difference of the two counters and the frequency are converted to
`double`, product and quotient are formed in `double`, and the quotient is converted to
`float`. -/
def delayMs (frequency firstClickTime secondClickTime : Int) : ℚ :=
  toFloat (toDouble (toDouble (toDouble ((secondClickTime - firstClickTime : Int) : ℚ) * 1000)
    / toDouble (frequency : ℚ)))

/-- Lines 132-148: what the loop does at a detected press, `counter` being the value that
`QueryPerformanceCounter` delivers. -/
def recordPress (frequency : Int) (s : RecorderState) (counter : Int) : RecorderState :=
  if !s.recording then
    { s with firstClickTime := counter, recording := true }
  else
    let delay := delayMs frequency s.firstClickTime counter
    if delay ≤ 150 then
      { s with clickDelays := s.clickDelays ++ [delay], firstClickTime := counter }
    else
      { s with firstClickTime := counter }

/-- The loop of lines 129-154 over the presses detected until left shift ends it, started on
the global vector as it stands. -/
def recordLoop (frequency : Int) (clickDelays : List ℚ) (presses : List Int) : RecorderState :=
  presses.foldl (recordPress frequency)
    { recording := false, firstClickTime := 0, clickDelays := clickDelays }

/-- The loop of lines 172-177, from index `i` on for `n` more passes: the value at `i`, then a
comma when `i != clickDelays.size() - 1`. -/
def writeRecordingFrom (clickDelays : List ℚ) : Nat → Nat → List Char
  | 0, _ => []
  | n + 1, i =>
    formatFloat (clickDelays.getD i 0)
      ++ (if i ≠ clickDelays.length - 1 then [','] else [])
      ++ writeRecordingFrom clickDelays n (i + 1)

/-- The text that lines 172-177 write for the vector `clickDelays`. -/
def writeRecording (clickDelays : List ℚ) : List Char :=
  writeRecordingFrom clickDelays clickDelays.length 0

/-! ## Playback loop (lines 63-103) -/

/-- What the program does to its environment: the calls of `shuffle` and `sampleFromKDE` with
their arguments, the button messages sent to the window, the file written, and of the console
output the messages that tell why nothing is played or what became of the recording (the file
name inside the two messages of lines 179 and 182 is left out). -/
inductive Action where
  | shuffle (vec : List ℚ)
  | sampleFromKDE (samples : List ℚ) (bandwidth : ℚ)
  | buttonDown
  | buttonUp
  | cout (text : String)
  | cerr (text : String)
  | fileWrite (text : List Char)
deriving DecidableEq

/-- What reaches `playClicks` from outside while it runs: a signal delivered to the process, or
the states that one evaluation of the condition of line 90 and of the test of line 92 reads. -/
inductive Event where
  | signal (signal : Int)
  | poll (lbutton lshift cursorVisible foreground : Bool)
deriving DecidableEq

/-- The signal number of `SIGINT`. -/
def SIGINT : Int := 2

/-- `signalHandler(signal)`, lines 65-69, on the global flag `stopPlaying`. -/
def signalHandler (stopPlaying : Bool) (signal : Int) : Bool :=
  if signal = SIGINT then true else stopPlaying

/-- The state of a run of `playClicks`: the global flag, the actions so far, and whether the
outer loop has been left. -/
structure PlayState where
  stopPlaying : Bool
  trace : List Action
  returned : Bool
deriving DecidableEq

/-- The number of click cycles in a list of actions. -/
def cycles (trace : List Action) : Nat := trace.count Action.buttonDown

/-- Lines 93-97: one click cycle with the hard-coded bandwidth of line 82. -/
def clickCycle (intervals : List ℚ) (s : PlayState) : PlayState :=
  { s with trace := s.trace ++ [Action.sampleFromKDE intervals 20, Action.buttonDown,
      Action.buttonUp] }

/-- The loops of lines 89-101.  `atOuter` tells that control is at the test `!stopPlaying` of
line 89, which it is on entry and after every evaluation of the condition of line 90 that fails;
otherwise control is at line 90.  The flag is read at line 89 only.  When the listed events are
used up the state reached is returned with `returned` still `false`, unless line 89 ends the
loop then. -/
def playLoop (intervals : List ℚ) : Bool → PlayState → List Event → PlayState
  | atOuter, s, [] => if atOuter && s.stopPlaying then { s with returned := true } else s
  | atOuter, s, Event.signal sig :: es =>
    playLoop intervals atOuter { s with stopPlaying := signalHandler s.stopPlaying sig } es
  | atOuter, s, Event.poll lbutton lshift cursorVisible foreground :: es =>
    if atOuter && s.stopPlaying then { s with returned := true }
    else if lbutton && !lshift && !cursorVisible then
      playLoop intervals false (if foreground then clickCycle intervals s else s) es
    else playLoop intervals true s es

/-- `playClicks(intervals)`, lines 81-103, started with the global flag as it stands. -/
def playClicks (gen : Nat → Nat) (intervals : List ℚ) (stopPlaying : Bool)
    (events : List Event) : PlayState :=
  playLoop (shuffle gen intervals) true
    { stopPlaying := stopPlaying, trace := [Action.shuffle intervals], returned := false } events

/-- Whether an event lets the inner loop of line 90 go on: a signal, or an evaluation of its
condition that holds. -/
def Event.keepsInner : Event → Bool
  | Event.signal _ => true
  | Event.poll lbutton lshift cursorVisible _ => lbutton && !lshift && !cursorVisible

/-- Whether an event starts a click cycle when control is at line 90. -/
def Event.startsCycle : Event → Bool
  | Event.signal _ => false
  | Event.poll lbutton lshift cursorVisible foreground =>
    lbutton && !lshift && !cursorVisible && foreground

/-! ## Menu (lines 225-287) -/

/-- The global variables: `clickDelays` (line 9) and `stopPlaying` (line 63). -/
structure Globals where
  clickDelays : List ℚ
  stopPlaying : Bool
deriving DecidableEq

/-- What one pass of the menu loop reads: the choice typed, and for the branch taken the file
behind the path chosen (`none` when it cannot be opened, as for the empty path of a cancelled
dialog), the answer typed, the engine and the events of the playback, the counter frequency and
the presses of the recording, whether the save dialog delivers a path, whether that file opens,
and the value of `CommDlgExtendedError()` when the dialog delivers none. -/
structure Round where
  choice : Int
  file : Option (List Char)
  answer : Char
  gen : Nat → Nat
  events : List Event
  frequency : Int
  presses : List Int
  saveDialog : Bool
  saveOpens : Bool
  dialogError : Nat

/-- Where the program stands: in the menu loop, left through choice 3, ended by the exception
of `stod`, or inside `playClicks` with the listed events used up. -/
inductive Status where
  | running
  | exited
  | terminated
  | playing
deriving DecidableEq

/-- The globals, the actions so far, and the status. -/
structure Program where
  globals : Globals
  trace : List Action
  status : Status
deriving DecidableEq

/-- `clickRecorder()`, lines 121-194, on the globals. -/
def clickRecorder (g : Globals) (frequency : Int) (presses : List Int)
    (saveDialog saveOpens : Bool) (dialogError : Nat) : Program :=
  let s := recordLoop frequency g.clickDelays presses
  { globals := { g with clickDelays := s.clickDelays }
    trace :=
      if saveDialog then
        if saveOpens then [Action.fileWrite (writeRecording s.clickDelays),
          Action.cout "Recording saved."]
        else [Action.cerr "Unable to open file for writing."]
      else if dialogError ≠ 0 then
        [Action.cerr ("Error in save file dialog: " ++ toString dialogError ++ "\n")]
      else [Action.cerr "Save file dialog canceled.\n"]
    status := Status.running }

/-- One pass of the loop of `main`, lines 230-284. -/
def menuRound (g : Globals) (r : Round) : Program :=
  if r.choice = 1 then
    match readIntervalsFromFile r.file with
    | none => { globals := g, trace := [], status := Status.terminated }
    | some intervals =>
      if !intervals.isEmpty then
        if r.answer = 'Y' ∨ r.answer = 'y' then
          let p := playClicks r.gen intervals g.stopPlaying r.events
          { globals := { g with stopPlaying := p.stopPlaying }
            trace := p.trace
            status := if p.returned then Status.running else Status.playing }
        else
          { globals := g, trace := [Action.cout "File not selected for playback.\n"],
            status := Status.running }
      else
        { globals := g, trace := [Action.cerr "No intervals found in file.\n"],
          status := Status.running }
  else if r.choice = 2 then
    clickRecorder g r.frequency r.presses r.saveDialog r.saveOpens r.dialogError
  else if r.choice = 3 then
    { globals := g, trace := [], status := Status.exited }
  else
    { globals := g, trace := [Action.cout "Invalid choice.\n"], status := Status.running }

/-- The loop of `main` over the passes listed. -/
def main : Program → List Round → Program
  | p, [] => p
  | p, r :: rs =>
    if p.status = Status.running then
      let q := menuRound p.globals r
      main { globals := q.globals, trace := p.trace ++ q.trace, status := q.status } rs
    else p

/-- The program at its start: both globals as initialised at lines 9 and 63. -/
def start : Program :=
  { globals := { clickDelays := [], stopPlaying := false }, trace := [], status := Status.running }

/-- A pass that chooses the player (1) for the file given and confirms it. -/
def playerRound (file : Option (List Char)) (events : List Event) : Round :=
  { choice := 1, file := file, answer := 'y', gen := fun _ => 0, events := events,
    frequency := 1000, presses := [], saveDialog := false, saveOpens := false, dialogError := 0 }

/-- A pass that chooses the recorder (2) with a counter of 1000 ticks a second and saves. -/
def recorderRound (presses : List Int) : Round :=
  { choice := 2, file := none, answer := 'n', gen := fun _ => 0, events := [],
    frequency := 1000, presses := presses, saveDialog := true, saveOpens := true,
    dialogError := 0 }

/-! ## Lemmas: binary rounding -/

section Rounding

variable {K : Type} [LinearOrderedField K] [FloorRing K]

theorem roundHalfEven_floor_or (q : K) :
    roundHalfEven q = ⌊q⌋ ∨ roundHalfEven q = ⌊q⌋ + 1 := by
  unfold roundHalfEven
  simp only
  split_ifs <;> simp

theorem roundHalfEven_spec (q : K) : |((roundHalfEven q : Int) : K) - q| ≤ 1 / 2 := by
  have h1 : ((⌊q⌋ : Int) : K) ≤ q := Int.floor_le q
  have h2 : q < ((⌊q⌋ : Int) : K) + 1 := Int.lt_floor_add_one q
  unfold roundHalfEven
  simp only
  split_ifs with ha hb hc
  · rw [abs_le]; constructor <;> linarith
  · push_cast; rw [abs_le]; constructor <;> linarith
  · rw [abs_le]; constructor <;> linarith
  · push_cast; rw [abs_le]; constructor <;> linarith

theorem roundHalfEven_intCast (n : Int) : roundHalfEven ((n : Int) : K) = n := by
  unfold roundHalfEven
  simp

theorem roundHalfEven_nearest (q : K) (n : Int) :
    |((roundHalfEven q : Int) : K) - q| ≤ |((n : Int) : K) - q| := by
  have h1 : ((⌊q⌋ : Int) : K) ≤ q := Int.floor_le q
  have h2 : q < ((⌊q⌋ : Int) : K) + 1 := Int.lt_floor_add_one q
  have hn : n ≤ ⌊q⌋ ∨ ⌊q⌋ + 1 ≤ n := by omega
  have hfar : q - ((⌊q⌋ : Int) : K) ≤ |((n : Int) : K) - q|
      ∨ ((⌊q⌋ : Int) : K) + 1 - q ≤ |((n : Int) : K) - q| := by
    rcases hn with hn | hn
    · left
      have : ((n : Int) : K) ≤ ((⌊q⌋ : Int) : K) := by exact_mod_cast hn
      rw [abs_sub_comm, abs_of_nonneg (by linarith)]
      linarith
    · right
      have : ((⌊q⌋ : Int) : K) + 1 ≤ ((n : Int) : K) := by exact_mod_cast hn
      rw [abs_of_nonneg (by linarith)]
      linarith
  unfold roundHalfEven
  simp only
  split_ifs with ha hb hc
  · rw [abs_sub_comm, abs_of_nonneg (by linarith)]
    rcases hfar with h | h <;> linarith
  · push_cast
    rw [abs_of_nonneg (by linarith)]
    rcases hfar with h | h <;> linarith
  · rw [abs_sub_comm, abs_of_nonneg (by linarith)]
    have : q - ((⌊q⌋ : Int) : K) = 1 / 2 := le_antisymm (not_lt.mp hb) (not_lt.mp ha)
    rcases hfar with h | h <;> linarith
  · push_cast
    rw [abs_of_nonneg (by linarith)]
    have : q - ((⌊q⌋ : Int) : K) = 1 / 2 := le_antisymm (not_lt.mp hb) (not_lt.mp ha)
    rcases hfar with h | h <;> linarith

theorem roundHalfEven_le_of_le_int (q : K) (n : Int) (h : q ≤ ((n : Int) : K)) :
    roundHalfEven q ≤ n := by
  by_cases hq : q = ((n : Int) : K)
  · rw [hq, roundHalfEven_intCast]
  · have hlt : q < ((n : Int) : K) := lt_of_le_of_ne h hq
    have hf : ⌊q⌋ < n := Int.floor_lt.mpr hlt
    rcases roundHalfEven_floor_or q with h1 | h1 <;> omega

theorem roundHalfEven_ge_of_int_le (q : K) (n : Int) (h : ((n : Int) : K) ≤ q) :
    n ≤ roundHalfEven q := by
  have hf : n ≤ ⌊q⌋ := Int.le_floor.mpr h
  rcases roundHalfEven_floor_or q with h1 | h1 <;> omega

end Rounding
theorem zpow_two_pos {K : Type} [LinearOrderedField K] (e : Int) : (0 : K) < (2 : K) ^ e := by
  positivity

theorem zpow_two_le {K : Type} [LinearOrderedField K] (a b : Int) (h : a ≤ b) :
    (2 : K) ^ a ≤ (2 : K) ^ b :=
  zpow_le_zpow_right₀ (by norm_num) h

theorem ratCast_mul_zpow {K : Type} [LinearOrderedField K] (M k : Int) :
    (((M : ℚ) * 2 ^ k : ℚ) : K) = ((M : Int) : K) * 2 ^ k := by
  push_cast
  rfl

section RoundingBinary

variable {K : Type} [LinearOrderedField K] [FloorRing K]

theorem two_zpow_log_le (x : K) (hx : x ≠ 0) : (2 : K) ^ Int.log 2 |x| ≤ |x| := by
  have := Int.zpow_log_le_self (b := 2) (r := |x|) (by norm_num) (abs_pos.mpr hx)
  simpa using this

theorem lt_two_zpow_log_succ (x : K) : |x| < (2 : K) ^ (Int.log 2 |x| + 1) := by
  have := Int.lt_zpow_succ_log_self (b := 2) (R := K) (by norm_num) |x|
  simpa using this

theorem ulpExponent_ge_emin (p : Nat) (emin : Int) (x : K) : emin ≤ ulpExponent p emin x :=
  le_max_right _ _

theorem ulpExponent_ge_log (p : Nat) (emin : Int) (x : K) :
    Int.log 2 |x| - ((p : Int) - 1) ≤ ulpExponent p emin x :=
  le_max_left _ _

theorem ulpExponent_mono (p : Nat) (emin : Int) (x y : K) (hx : x ≠ 0) (h : |x| ≤ |y|) :
    ulpExponent p emin x ≤ ulpExponent p emin y := by
  unfold ulpExponent
  have := Int.log_mono_right (b := 2) (abs_pos.mpr hx) h
  exact max_le_max (by omega) (le_refl _)

/-- A value of the format is either a multiple of the unit in the last place of `x`, or it lies
below the binade of `x`, which is then a normal one. -/
theorem representable_cases (p : Nat) (emin : Int) (f : ℚ) (x : K)
    (hf : Representable p emin f) :
    (∃ F : Int, f = (F : ℚ) * 2 ^ ulpExponent p emin x)
      ∨ (|(f : K)| < (2 : K) ^ Int.log 2 |x|
          ∧ ulpExponent p emin x = Int.log 2 |x| - ((p : Int) - 1)) := by
  obtain ⟨M, k, hk, hM, rfl⟩ := hf
  by_cases hke : ulpExponent p emin x ≤ k
  · left
    obtain ⟨d, hd⟩ : ∃ d : Nat, k = ulpExponent p emin x + d :=
      ⟨(k - ulpExponent p emin x).toNat, by omega⟩
    refine ⟨M * 2 ^ d, ?_⟩
    rw [hd, zpow_add₀ (by norm_num), zpow_natCast]
    push_cast
    ring
  · right
    have hke : k < ulpExponent p emin x := not_le.mp hke
    have he : ulpExponent p emin x = Int.log 2 |x| - ((p : Int) - 1) := by
      unfold ulpExponent at hke ⊢
      rcases max_cases (Int.log 2 |x| - ((p : Int) - 1)) emin with ⟨h1, _⟩ | ⟨h1, _⟩
      · exact h1
      · rw [h1] at hke; omega
    refine ⟨?_, he⟩
    rw [ratCast_mul_zpow, abs_mul, abs_of_pos (show (0 : K) < 2 ^ k from zpow_two_pos k)]
    have hMK : |((M : Int) : K)| < (2 : K) ^ (p : Int) := by
      have : ((|M| : Int) : K) < (((2 : Int) ^ p : Int) : K) := by exact_mod_cast hM
      rw [zpow_natCast]
      push_cast at this
      exact this
    calc |((M : Int) : K)| * 2 ^ k < (2 : K) ^ (p : Int) * 2 ^ k :=
          mul_lt_mul_of_pos_right hMK (zpow_two_pos k)
      _ = (2 : K) ^ ((p : Int) + k) := by rw [zpow_add₀ (by norm_num)]
      _ ≤ (2 : K) ^ Int.log 2 |x| := zpow_two_le _ _ (by omega)

theorem roundBinary_cast (p : Nat) (emin : Int) (x : K) :
    ((roundBinary p emin x : ℚ) : K)
      = ((roundHalfEven (x / 2 ^ ulpExponent p emin x) : Int) : K)
        * 2 ^ ulpExponent p emin x := by
  unfold roundBinary
  exact ratCast_mul_zpow _ _

theorem roundBinary_zero (p : Nat) (emin : Int) : roundBinary p emin (0 : K) = 0 := by
  unfold roundBinary
  have : roundHalfEven ((0 : K) / 2 ^ ulpExponent p emin (0 : K)) = 0 := by
    rw [zero_div]
    exact_mod_cast roundHalfEven_intCast (K := K) 0
  rw [this]
  simp

theorem roundBinary_of_representable (p : Nat) (emin : Int) (f : ℚ)
    (hf : Representable p emin f) : roundBinary p emin (f : K) = f := by
  by_cases h0 : f = 0
  · subst h0
    simpa using roundBinary_zero (K := K) p emin
  · have hfK : (f : K) ≠ 0 := by exact_mod_cast h0
    rcases representable_cases p emin f (f : K) hf with ⟨F, hF⟩ | ⟨hlt, _⟩
    · unfold roundBinary
      have : (f : K) / 2 ^ ulpExponent p emin (f : K) = ((F : Int) : K) := by
        have h2 : (f : K) = ((F : Int) : K) * 2 ^ ulpExponent p emin (f : K) := by
          conv_lhs => rw [hF]
          exact ratCast_mul_zpow _ _
        rw [div_eq_iff (zpow_two_pos _).ne']
        exact h2
      rw [this, roundHalfEven_intCast]
      exact hF.symm
    · exact absurd (two_zpow_log_le (f : K) hfK) (not_le.mpr hlt)

end RoundingBinary
section RoundingOrder

variable {K : Type} [LinearOrderedField K] [FloorRing K]

theorem binade_eq (p : Nat) (emin : Int) (x : K) (hp : 1 ≤ p)
    (he : ulpExponent p emin x = Int.log 2 |x| - ((p : Int) - 1)) :
    (2 : K) ^ Int.log 2 |x|
      = (((2 ^ (p - 1) : Int) : Int) : K) * 2 ^ ulpExponent p emin x := by
  rw [he]
  push_cast
  rw [← zpow_natCast, ← zpow_add₀ (by norm_num)]
  congr 1
  have : ((p - 1 : Nat) : Int) = (p : Int) - 1 := by omega
  rw [this]
  ring

theorem roundBinary_le_of_le (p : Nat) (emin : Int) (hp : 1 ≤ p) (x : K) (f : ℚ)
    (hf : Representable p emin f) (h : x ≤ (f : K)) : roundBinary p emin x ≤ f := by
  have hgoal : ((roundBinary p emin x : ℚ) : K) ≤ (f : K) := by
    by_cases hx : x = 0
    · subst hx
      rw [roundBinary_zero]
      simpa using h
    · rw [roundBinary_cast]
      have hpos := zpow_two_pos (K := K) (ulpExponent p emin x)
      rcases representable_cases p emin f x hf with ⟨F, hF⟩ | ⟨hlt, he⟩
      · have hfK : (f : K) = ((F : Int) : K) * 2 ^ ulpExponent p emin x := by
          conv_lhs => rw [hF]
          exact ratCast_mul_zpow _ _
        rw [hfK] at h ⊢
        have hq : x / 2 ^ ulpExponent p emin x ≤ ((F : Int) : K) := by
          rw [div_le_iff₀ hpos]; exact h
        have := roundHalfEven_le_of_le_int _ F hq
        have hc : ((roundHalfEven (x / 2 ^ ulpExponent p emin x) : Int) : K) ≤ ((F : Int) : K) := by
          exact_mod_cast this
        exact mul_le_mul_of_nonneg_right hc hpos.le
      · have hlog := two_zpow_log_le x hx
        have hxneg : x < 0 := by
          by_contra hnn
          have hx0 : 0 ≤ x := not_lt.mp hnn
          rw [abs_of_nonneg hx0] at hlog hlt
          have : (f : K) ≤ |(f : K)| := le_abs_self _
          linarith
        rw [abs_of_neg hxneg] at hlog
        have hb := binade_eq p emin x hp he
        rw [abs_of_neg hxneg] at hb hlt
        have hq : x / 2 ^ ulpExponent p emin x ≤ (((-(2 ^ (p - 1)) : Int) : Int) : K) := by
          rw [div_le_iff₀ hpos]
          push_cast
          push_cast at hb
          rw [neg_mul, ← hb]
          linarith
        have := roundHalfEven_le_of_le_int _ _ hq
        have hc : ((roundHalfEven (x / 2 ^ ulpExponent p emin x) : Int) : K)
            ≤ (((-(2 ^ (p - 1)) : Int) : Int) : K) := by exact_mod_cast this
        have h1 := mul_le_mul_of_nonneg_right hc hpos.le
        push_cast at h1 hb
        rw [neg_mul, ← hb] at h1
        have : -|(f : K)| ≤ (f : K) := neg_abs_le _
        linarith
  exact_mod_cast hgoal

theorem le_roundBinary_of_le (p : Nat) (emin : Int) (hp : 1 ≤ p) (x : K) (f : ℚ)
    (hf : Representable p emin f) (h : (f : K) ≤ x) : f ≤ roundBinary p emin x := by
  have hgoal : (f : K) ≤ ((roundBinary p emin x : ℚ) : K) := by
    by_cases hx : x = 0
    · subst hx
      rw [roundBinary_zero]
      simpa using h
    · rw [roundBinary_cast]
      have hpos := zpow_two_pos (K := K) (ulpExponent p emin x)
      rcases representable_cases p emin f x hf with ⟨F, hF⟩ | ⟨hlt, he⟩
      · have hfK : (f : K) = ((F : Int) : K) * 2 ^ ulpExponent p emin x := by
          conv_lhs => rw [hF]
          exact ratCast_mul_zpow _ _
        rw [hfK] at h ⊢
        have hq : ((F : Int) : K) ≤ x / 2 ^ ulpExponent p emin x := by
          rw [le_div_iff₀ hpos]; exact h
        have := roundHalfEven_ge_of_int_le _ F hq
        have hc : ((F : Int) : K) ≤ ((roundHalfEven (x / 2 ^ ulpExponent p emin x) : Int) : K) := by
          exact_mod_cast this
        exact mul_le_mul_of_nonneg_right hc hpos.le
      · have hlog := two_zpow_log_le x hx
        have hxpos : 0 < x := by
          by_contra hnn
          have hx0 : x ≤ 0 := not_lt.mp hnn
          rw [abs_of_nonpos hx0] at hlog hlt
          have : -|(f : K)| ≤ (f : K) := neg_abs_le _
          linarith
        rw [abs_of_pos hxpos] at hlog
        have hb := binade_eq p emin x hp he
        rw [abs_of_pos hxpos] at hb hlt
        have hq : ((((2 ^ (p - 1)) : Int) : Int) : K) ≤ x / 2 ^ ulpExponent p emin x := by
          rw [le_div_iff₀ hpos, ← hb]
          exact hlog
        have := roundHalfEven_ge_of_int_le _ _ hq
        have hc : ((((2 ^ (p - 1)) : Int) : Int) : K)
            ≤ ((roundHalfEven (x / 2 ^ ulpExponent p emin x) : Int) : K) := by exact_mod_cast this
        have h1 := mul_le_mul_of_nonneg_right hc hpos.le
        rw [← hb] at h1
        have : (f : K) ≤ |(f : K)| := le_abs_self _
        linarith
  exact_mod_cast hgoal

end RoundingOrder
section RoundingNearest

variable {K : Type} [LinearOrderedField K] [FloorRing K]

theorem scaled_abs_lt (p : Nat) (emin : Int) (x : K) :
    |x / 2 ^ ulpExponent p emin x| < (2 : K) ^ (p : Int) := by
  have hpos := zpow_two_pos (K := K) (ulpExponent p emin x)
  rw [abs_div, abs_of_pos hpos, div_lt_iff₀ hpos, ← zpow_add₀ (by norm_num)]
  refine lt_of_lt_of_le (lt_two_zpow_log_succ x) (zpow_two_le _ _ ?_)
  have := ulpExponent_ge_log p emin x
  omega

theorem roundBinary_representable (p : Nat) (emin : Int) (hp : 1 ≤ p) (x : K) :
    Representable p emin (roundBinary p emin x) := by
  have hlt := scaled_abs_lt p emin x
  rw [abs_lt] at hlt
  have h1 : roundHalfEven (x / 2 ^ ulpExponent p emin x) ≤ 2 ^ p := by
    apply roundHalfEven_le_of_le_int
    have := hlt.2
    rw [zpow_natCast] at this
    push_cast
    exact this.le
  have h2 : -(2 ^ p) ≤ roundHalfEven (x / 2 ^ ulpExponent p emin x) := by
    apply roundHalfEven_ge_of_int_le
    have := hlt.1
    rw [zpow_natCast] at this
    push_cast
    exact this.le
  have hmin := ulpExponent_ge_emin p emin x
  have hpow : (2 : Int) ^ p = 2 * 2 ^ (p - 1) := by
    rw [← pow_succ']
    congr 1
    omega
  have hpos : (0 : Int) < 2 ^ (p - 1) := by positivity
  unfold roundBinary
  generalize roundHalfEven (x / 2 ^ ulpExponent p emin x) = m at h1 h2
  by_cases hm : |m| < 2 ^ p
  · exact ⟨m, ulpExponent p emin x, hmin, hm, rfl⟩
  · have hm' : m = 2 ^ p ∨ m = -(2 ^ p) := by
      rw [abs_lt] at hm
      omega
    rcases hm' with hm' | hm'
    · refine ⟨2 ^ (p - 1), ulpExponent p emin x + 1, by omega, ?_, ?_⟩
      · rw [abs_of_pos hpos]; omega
      · rw [hm', hpow, zpow_add_one₀ (by norm_num)]
        push_cast
        ring
    · refine ⟨-(2 ^ (p - 1)), ulpExponent p emin x + 1, by omega, ?_, ?_⟩
      · rw [abs_neg, abs_of_pos hpos]; omega
      · rw [hm', hpow, zpow_add_one₀ (by norm_num)]
        push_cast
        ring

theorem roundBinary_nearest (p : Nat) (emin : Int) (hp : 1 ≤ p) (x : K) (f : ℚ)
    (hf : Representable p emin f) :
    |((roundBinary p emin x : ℚ) : K) - x| ≤ |(f : K) - x| := by
  by_cases hx : x = 0
  · subst hx
    rw [roundBinary_zero]
    simp
  · have hpos := zpow_two_pos (K := K) (ulpExponent p emin x)
    have key : ∀ G : Int, |((roundBinary p emin x : ℚ) : K) - x|
        ≤ |((G : Int) : K) * 2 ^ ulpExponent p emin x - x| := by
      intro G
      have h1 := roundHalfEven_nearest (x / 2 ^ ulpExponent p emin x) G
      have e1 : ∀ n : Int, ((n : Int) : K) * 2 ^ ulpExponent p emin x - x
          = (((n : Int) : K) - x / 2 ^ ulpExponent p emin x) * 2 ^ ulpExponent p emin x := by
        intro n
        field_simp
      rw [roundBinary_cast, e1, e1, abs_mul, abs_mul, abs_of_pos hpos]
      exact mul_le_mul_of_nonneg_right h1 hpos.le
    rcases representable_cases p emin f x hf with ⟨F, hF⟩ | ⟨hlt, he⟩
    · have hfK : (f : K) = ((F : Int) : K) * 2 ^ ulpExponent p emin x := by
        conv_lhs => rw [hF]
        exact ratCast_mul_zpow _ _
      rw [hfK]
      exact key F
    · have hlog := two_zpow_log_le x hx
      have hb := binade_eq p emin x hp he
      have hrev : |x| - |(f : K)| ≤ |(f : K) - x| := by
        rw [abs_sub_comm]
        exact abs_sub_abs_le_abs_sub x (f : K)
      rcases lt_or_gt_of_ne hx with hneg | hpos'
      · refine le_trans (key (-(2 ^ (p - 1)))) ?_
        rw [abs_of_neg hneg] at hlog hb hlt hrev
        push_cast at hb ⊢
        rw [neg_mul, ← hb, abs_of_nonneg (by linarith)]
        linarith
      · refine le_trans (key (2 ^ (p - 1))) ?_
        rw [abs_of_pos hpos'] at hlog hb hlt hrev
        push_cast at hb ⊢
        rw [← hb, abs_sub_comm, abs_of_nonneg (by linarith)]
        linarith

theorem roundBinary_mono (p : Nat) (emin : Int) (hp : 1 ≤ p) (x y : K) (h : x ≤ y) :
    roundBinary p emin x ≤ roundBinary p emin y := by
  have hrx := roundBinary_representable p emin hp x
  have hry := roundBinary_representable p emin hp y
  by_cases h1 : x ≤ ((roundBinary p emin y : ℚ) : K)
  · exact roundBinary_le_of_le p emin hp x _ hry h1
  · by_cases h2 : ((roundBinary p emin x : ℚ) : K) ≤ y
    · exact le_roundBinary_of_le p emin hp y _ hrx h2
    · have h1 : ((roundBinary p emin y : ℚ) : K) < x := not_le.mp h1
      have h2 : y < ((roundBinary p emin x : ℚ) : K) := not_le.mp h2
      have n1 := roundBinary_nearest p emin hp x _ hry
      have n2 := roundBinary_nearest p emin hp y _ hrx
      rw [abs_of_nonneg (by linarith), abs_sub_comm, abs_of_nonneg (by linarith)] at n1
      rw [abs_sub_comm, abs_of_nonneg (by linarith), abs_of_nonneg (by linarith)] at n2
      have hxy : x = y := le_antisymm h (by linarith)
      rw [hxy]

theorem roundBinary_error (p : Nat) (emin : Int) (x : K) :
    |((roundBinary p emin x : ℚ) : K) - x| ≤ (2 : K) ^ ulpExponent p emin x / 2 := by
  have hpos := zpow_two_pos (K := K) (ulpExponent p emin x)
  have h1 := roundHalfEven_spec (x / 2 ^ ulpExponent p emin x)
  have e1 : ((roundHalfEven (x / 2 ^ ulpExponent p emin x) : Int) : K)
        * 2 ^ ulpExponent p emin x - x
      = (((roundHalfEven (x / 2 ^ ulpExponent p emin x) : Int) : K)
          - x / 2 ^ ulpExponent p emin x) * 2 ^ ulpExponent p emin x := by
    field_simp
  rw [roundBinary_cast, e1, abs_mul, abs_of_pos hpos]
  calc _ ≤ 1 / 2 * (2 : K) ^ ulpExponent p emin x := mul_le_mul_of_nonneg_right h1 hpos.le
    _ = (2 : K) ^ ulpExponent p emin x / 2 := by ring

theorem roundBinary_rel_error (p : Nat) (emin : Int) (x : K)
    (hn : (2 : K) ^ (emin + (p : Int) - 1) ≤ |x|) :
    |((roundBinary p emin x : ℚ) : K) - x| ≤ |x| / 2 ^ p := by
  have hx : x ≠ 0 := by
    intro h
    rw [h, abs_zero] at hn
    exact absurd hn (not_le.mpr (zpow_two_pos _))
  have hL : emin + (p : Int) - 1 ≤ Int.log 2 |x| := by
    have := (Int.zpow_le_iff_le_log (b := 2) (by norm_num) (abs_pos.mpr hx)).mp
      (by simpa using hn)
    exact this
  have he : ulpExponent p emin x = Int.log 2 |x| - ((p : Int) - 1) := by
    unfold ulpExponent
    exact max_eq_left (by omega)
  refine le_trans (roundBinary_error p emin x) ?_
  have hlog := two_zpow_log_le x hx
  rw [he, zpow_sub₀ (by norm_num), zpow_sub₀ (by norm_num), zpow_natCast, zpow_one]
  have hp2 : (0 : K) < 2 ^ p := by positivity
  rw [div_div, div_le_div_iff₀ (by positivity) hp2]
  have : (2 : K) ^ Int.log 2 |x| * 2 ^ p ≤ |x| * 2 ^ p :=
    mul_le_mul_of_nonneg_right hlog hp2.le
  calc (2 : K) ^ Int.log 2 |x| * 2 ^ p ≤ |x| * 2 ^ p := this
    _ = |x| * (2 ^ p / 2 * 2) := by ring

end RoundingNearest
theorem bitLength_eq (n : Nat) :
    ∀ fuel, n ≤ fuel → bitLength fuel n = if n = 0 then 0 else Nat.log 2 n + 1 := by
  induction n using Nat.strong_induction_on with
  | _ n ih =>
    intro fuel hf
    cases fuel with
    | zero =>
      have : n = 0 := by omega
      simp [bitLength, this]
    | succ fuel =>
      by_cases hn : n = 0
      · simp [bitLength, hn]
      · have h2 : n / 2 < n := Nat.div_lt_self (by omega) (by norm_num)
        rw [bitLength, if_neg hn, if_neg hn, ih (n / 2) h2 fuel (by omega)]
        by_cases h1 : n / 2 = 0
        · have : n = 1 := by omega
          simp [this]
        · rw [if_neg h1, Nat.log_of_one_lt_of_le (by norm_num) (by omega : 2 ≤ n)]

theorem bitLength_pred_eq_clog (n : Nat) :
    ∀ fuel, n ≤ fuel → bitLength fuel (n - 1) = Nat.clog 2 n := by
  induction n using Nat.strong_induction_on with
  | _ n ih =>
    intro fuel hf
    by_cases hn : n ≤ 1
    · rw [Nat.clog_of_right_le_one hn]
      have : n - 1 = 0 := by omega
      rw [this]
      cases fuel <;> simp [bitLength]
    · have hn2 : 2 ≤ n := by omega
      cases fuel with
      | zero => omega
      | succ fuel =>
        rw [bitLength, if_neg (by omega), Nat.clog_of_two_le (by norm_num) hn2]
        have e : (n - 1) / 2 = (n + 2 - 1) / 2 - 1 := by omega
        rw [e, ih ((n + 2 - 1) / 2) (by omega) fuel (by omega)]

theorem floorLog2_eq (x : ℚ) : floorLog2 x = Int.log 2 x := by
  unfold floorLog2 Int.log
  split_ifs with h
  · have h1 : 1 ≤ ⌊x⌋₊ := Nat.le_floor (by simpa using h)
    rw [bitLength_eq _ _ (le_refl _), if_neg (by omega)]
    push_cast
    ring
  · rw [bitLength_pred_eq_clog _ _ (le_refl _)]

theorem roundRat_eq (p : Nat) (emin : Int) (x : ℚ) :
    roundRat p emin x = roundBinary p emin x := by
  unfold roundRat roundBinary ulpExponent
  rw [floorLog2_eq]

theorem toFloat_eq (x : ℚ) : toFloat x = roundBinary 24 (-149) x := roundRat_eq _ _ x

theorem toDouble_eq (x : ℚ) : toDouble x = roundBinary 53 (-1074) x := roundRat_eq _ _ x
theorem representable_float_double (f : ℚ) (h : Representable 24 (-149) f) :
    Representable 53 (-1074) f := by
  obtain ⟨M, k, hk, hM, rfl⟩ := h
  exact ⟨M, k, by omega, lt_trans hM (by norm_num), rfl⟩

theorem representable_int (p : Nat) (emin : Int) (n : Int) (he : emin ≤ 0) (hn : |n| < 2 ^ p) :
    Representable p emin (n : ℚ) :=
  ⟨n, 0, he, hn, by simp⟩

theorem representable_zpow (p : Nat) (emin : Int) (k : Int) (hp : 1 ≤ p) (hk : emin ≤ k) :
    Representable p emin ((2 : ℚ) ^ k) :=
  ⟨1, k, hk, by
    rw [abs_one]
    exact one_lt_pow₀ (by norm_num) (by omega), by simp⟩

theorem toFloat_representable (x : ℚ) : Representable 24 (-149) (toFloat x) := by
  rw [toFloat_eq]
  exact roundBinary_representable 24 (-149) (by norm_num) x

theorem toDouble_representable (x : ℚ) : Representable 53 (-1074) (toDouble x) := by
  rw [toDouble_eq]
  exact roundBinary_representable 53 (-1074) (by norm_num) x

theorem toFloat_of_representable (f : ℚ) (h : Representable 24 (-149) f) : toFloat f = f := by
  rw [toFloat_eq]
  have := roundBinary_of_representable (K := ℚ) 24 (-149) f h
  simpa using this

theorem toDouble_of_representable (f : ℚ) (h : Representable 53 (-1074) f) :
    toDouble f = f := by
  rw [toDouble_eq]
  have := roundBinary_of_representable (K := ℚ) 53 (-1074) f h
  simpa using this

theorem toFloat_mono (x y : ℚ) (h : x ≤ y) : toFloat x ≤ toFloat y := by
  rw [toFloat_eq, toFloat_eq]
  exact roundBinary_mono 24 (-149) (by norm_num) x y h

theorem toDouble_mono (x y : ℚ) (h : x ≤ y) : toDouble x ≤ toDouble y := by
  rw [toDouble_eq, toDouble_eq]
  exact roundBinary_mono 53 (-1074) (by norm_num) x y h

theorem toFloat_le_of_le (x f : ℚ) (hf : Representable 24 (-149) f) (h : x ≤ f) :
    toFloat x ≤ f := by
  rw [toFloat_eq]
  exact roundBinary_le_of_le 24 (-149) (by norm_num) x f hf (by simpa using h)

theorem le_toFloat_of_le (x f : ℚ) (hf : Representable 24 (-149) f) (h : f ≤ x) :
    f ≤ toFloat x := by
  rw [toFloat_eq]
  exact le_roundBinary_of_le 24 (-149) (by norm_num) x f hf (by simpa using h)

theorem toDouble_le_of_le (x f : ℚ) (hf : Representable 53 (-1074) f) (h : x ≤ f) :
    toDouble x ≤ f := by
  rw [toDouble_eq]
  exact roundBinary_le_of_le 53 (-1074) (by norm_num) x f hf (by simpa using h)

theorem le_toDouble_of_le (x f : ℚ) (hf : Representable 53 (-1074) f) (h : f ≤ x) :
    f ≤ toDouble x := by
  rw [toDouble_eq]
  exact le_roundBinary_of_le 53 (-1074) (by norm_num) x f hf (by simpa using h)

theorem toFloat_nearest (x f : ℚ) (hf : Representable 24 (-149) f) :
    |toFloat x - x| ≤ |f - x| := by
  rw [toFloat_eq]
  have := roundBinary_nearest (K := ℚ) 24 (-149) (by norm_num) x f hf
  simpa using this

theorem toDouble_nearest (x f : ℚ) (hf : Representable 53 (-1074) f) :
    |toDouble x - x| ≤ |f - x| := by
  rw [toDouble_eq]
  have := roundBinary_nearest (K := ℚ) 53 (-1074) (by norm_num) x f hf
  simpa using this

set_option exponentiation.threshold 2000 in
theorem toDouble_rel_error (x : ℚ) (hn : (1 : ℚ) / 2 ^ 1022 ≤ |x|) :
    |toDouble x - x| ≤ |x| / 2 ^ 53 := by
  rw [toDouble_eq]
  have := roundBinary_rel_error (K := ℚ) 53 (-1074) x (by
    have e : (-1074 : Int) + ((53 : Nat) : Int) - 1 = -1022 := by norm_num
    rw [e, zpow_neg, ← one_div]
    exact_mod_cast hn)
  simpa using this

theorem toFloat_rel_error (x : ℚ) (hn : (1 : ℚ) / 2 ^ 126 ≤ |x|) :
    |toFloat x - x| ≤ |x| / 2 ^ 24 := by
  rw [toFloat_eq]
  have := roundBinary_rel_error (K := ℚ) 24 (-149) x (by
    have e : (-149 : Int) + ((24 : Nat) : Int) - 1 = -126 := by norm_num
    rw [e, zpow_neg, ← one_div]
    exact_mod_cast hn)
  simpa using this

theorem toDouble_pos_bounds (x : ℚ) (hx : 0 < x) (hn : (1 : ℚ) / 2 ^ 1022 ≤ x) :
    x * (1 - 1 / 2 ^ 53) ≤ toDouble x ∧ toDouble x ≤ x * (1 + 1 / 2 ^ 53) := by
  have h := toDouble_rel_error x (by rwa [abs_of_pos hx])
  rw [abs_of_pos hx, abs_le] at h
  constructor <;> linarith [h.1, h.2]

theorem toFloat_pos_bounds (x : ℚ) (hx : 0 < x) (hn : (1 : ℚ) / 2 ^ 126 ≤ x) :
    x * (1 - 1 / 2 ^ 24) ≤ toFloat x ∧ toFloat x ≤ x * (1 + 1 / 2 ^ 24) := by
  have h := toFloat_rel_error x (by rwa [abs_of_pos hx])
  rw [abs_of_pos hx, abs_le] at h
  constructor <;> linarith [h.1, h.2]
theorem toFloat_abs_error (x : ℚ) : |toFloat x - x| ≤ |x| / 2 ^ 24 + 1 / 2 ^ 150 := by
  by_cases hn : (1 : ℚ) / 2 ^ 126 ≤ |x|
  · exact le_trans (toFloat_rel_error x hn) (by norm_num)
  · rw [not_le] at hn
    have hpos : (0 : ℚ) ≤ |x| / 2 ^ 24 := by positivity
    by_cases hx : x = 0
    · rw [hx, toFloat_of_representable 0 ⟨0, 0, by norm_num, by norm_num, by simp⟩]
      norm_num
    have hL : Int.log 2 |x| < -126 := by
      apply (Int.lt_zpow_iff_log_lt (b := 2) (by norm_num) (abs_pos.mpr hx)).mp
      rw [zpow_neg, ← one_div]
      exact_mod_cast hn
    have he : ulpExponent 24 (-149) x = -149 := by
      unfold ulpExponent
      exact max_eq_right (by push_cast; omega)
    have h := roundBinary_error (K := ℚ) 24 (-149) x
    rw [he] at h
    rw [toFloat_eq]
    have e : (2 : ℚ) ^ (-149 : Int) / 2 = 1 / 2 ^ 150 := by
      rw [zpow_neg, ← one_div]; norm_num
    rw [e] at h
    have h2 : |roundBinary 24 (-149) x - x| ≤ 1 / 2 ^ 150 := by simpa using h
    linarith

set_option exponentiation.threshold 2000 in
theorem toDouble_abs_error (x : ℚ) : |toDouble x - x| ≤ |x| / 2 ^ 53 + 1 / 2 ^ 1075 := by
  by_cases hn : (1 : ℚ) / 2 ^ 1022 ≤ |x|
  · exact le_trans (toDouble_rel_error x hn) (by norm_num)
  · rw [not_le] at hn
    have hpos : (0 : ℚ) ≤ |x| / 2 ^ 53 := by positivity
    by_cases hx : x = 0
    · rw [hx, toDouble_of_representable 0 ⟨0, 0, by norm_num, by norm_num, by simp⟩]
      norm_num
    have hL : Int.log 2 |x| < -1022 := by
      apply (Int.lt_zpow_iff_log_lt (b := 2) (by norm_num) (abs_pos.mpr hx)).mp
      rw [zpow_neg, ← one_div]
      exact_mod_cast hn
    have he : ulpExponent 53 (-1074) x = -1074 := by
      unfold ulpExponent
      exact max_eq_right (by push_cast; omega)
    have h := roundBinary_error (K := ℚ) 53 (-1074) x
    rw [he] at h
    rw [toDouble_eq]
    have e : (2 : ℚ) ^ (-1074 : Int) / 2 = 1 / 2 ^ 1075 := by
      rw [zpow_neg, ← one_div]; norm_num
    rw [e] at h
    have h2 : |roundBinary 53 (-1074) x - x| ≤ 1 / 2 ^ 1075 := by simpa using h
    linarith

/-- A multiple of the least positive `float` is rounded with a relative error of at most
`2^-24`: below the normal range it is a `float` itself. -/
theorem toFloat_grid_error (n : Int) : |toFloat ((n : ℚ) / 2 ^ 149) - (n : ℚ) / 2 ^ 149|
    ≤ |(n : ℚ) / 2 ^ 149| / 2 ^ 24 := by
  by_cases hn : (1 : ℚ) / 2 ^ 126 ≤ |(n : ℚ) / 2 ^ 149|
  · exact toFloat_rel_error _ hn
  · rw [not_le, abs_div, abs_of_pos (show (0 : ℚ) < 2 ^ 149 by positivity),
      div_lt_div_iff₀ (by positivity) (by positivity)] at hn
    have h1 : |(n : ℚ)| < 2 ^ 23 := by
      have e : (2 : ℚ) ^ 149 = 2 ^ 23 * 2 ^ 126 := by norm_num
      rw [e] at hn
      have h3 : |(n : ℚ)| * 2 ^ 126 < 2 ^ 23 * 2 ^ 126 := by linarith
      exact lt_of_mul_lt_mul_right h3 (by positivity)
    have h2 : |n| < 2 ^ 24 := by
      have : ((|n| : Int) : ℚ) < ((2 ^ 23 : Int) : ℚ) := by push_cast; exact h1
      have := Int.cast_lt.mp this
      omega
    have hr : Representable 24 (-149) ((n : ℚ) / 2 ^ 149) :=
      ⟨n, -149, le_refl _, h2, by rw [zpow_neg, div_eq_mul_inv]; norm_cast⟩
    rw [toFloat_of_representable _ hr, sub_self, abs_zero]
    positivity

theorem representable_grid (f : ℚ) (h : Representable 24 (-149) f) :
    ∃ n : Int, f = (n : ℚ) / 2 ^ 149 := by
  obtain ⟨M, k, hk, -, rfl⟩ := h
  refine ⟨M * 2 ^ (k + 149).toNat, ?_⟩
  have e : k = ((k + 149).toNat : Int) - 149 := by omega
  rw [eq_div_iff (by positivity)]
  push_cast
  conv_lhs => rw [e]
  rw [zpow_sub₀ (by norm_num), zpow_natCast]
  have : ((2 : ℚ) ^ (149 : Int)) = 2 ^ 149 := by norm_cast
  rw [this]
  field_simp

theorem toFloat_sub_error (f g : ℚ) (hf : Representable 24 (-149) f)
    (hg : Representable 24 (-149) g) : |toFloat (f - g) - (f - g)| ≤ |f - g| / 2 ^ 24 := by
  obtain ⟨n, hn⟩ := representable_grid f hf
  obtain ⟨m, hm⟩ := representable_grid g hg
  have e : f - g = ((n - m : Int) : ℚ) / 2 ^ 149 := by
    rw [hn, hm]; push_cast; ring
  rw [e]
  exact toFloat_grid_error _

/-! ## Lemmas: shuffler -/

theorem set_cons_perm {α : Type} (x b : α) :
    ∀ (l : List α) (j : Nat), l[j]? = some b → List.Perm (b :: l.set j x) (x :: l)
  | [], j, h => by simp at h
  | y :: l, 0, h => by
      simp at h
      subst h
      simpa using List.Perm.swap x y l
  | y :: l, j + 1, h => by
      simp at h
      have ih := set_cons_perm x b l j h
      simp only [List.set_cons_succ]
      exact (List.Perm.swap y b _).trans (((ih.cons y)).trans (List.Perm.swap x y l))

theorem swapAt_perm {α : Type} : ∀ (vec : List α) (i j : Nat), List.Perm (swapAt vec i j) vec := by
  intro vec
  induction vec with
  | nil => intro i j; simp [swapAt]
  | cons x l ih =>
    intro i j
    cases i with
    | zero =>
      cases j with
      | zero => simp [swapAt]
      | succ j =>
        simp only [swapAt, List.getElem?_cons_zero, List.getElem?_cons_succ]
        cases h : l[j]? with
        | none => simp
        | some b => simpa using set_cons_perm x b l j h
    | succ i =>
      cases j with
      | zero =>
        simp only [swapAt, List.getElem?_cons_zero, List.getElem?_cons_succ]
        cases h : l[i]? with
        | none => simp
        | some a => simpa using set_cons_perm x a l i h
      | succ j =>
        have := ih i j
        simp only [swapAt, List.getElem?_cons_succ] at this ⊢
        cases h1 : l[i]? with
        | none => simp
        | some a =>
          cases h2 : l[j]? with
          | none => simp
          | some b =>
            simp only [h1, h2] at this
            simpa using this

/-! ## Lemmas: text of a number and interval store -/

theorem digitsN_length (k n : Nat) : (digitsN k n).length = k := by
  induction k generalizing n with
  | zero => rfl
  | succ k ih => simp [digitsN, ih]

theorem digitsN_lt (k n d : Nat) (h : d ∈ digitsN k n) : d < 10 := by
  induction k generalizing n with
  | zero => simp [digitsN] at h
  | succ k ih =>
    simp only [digitsN, List.mem_append, List.mem_singleton] at h
    rcases h with h | h
    · exact ih _ h
    · omega

theorem natOfDigits_concat (l : List Nat) (d : Nat) :
    natOfDigits (l ++ [d]) = natOfDigits l * 10 + d := by
  simp [natOfDigits, List.foldl_append]

theorem natOfDigits_append (l₁ l₂ : List Nat) :
    natOfDigits (l₁ ++ l₂) = natOfDigits l₁ * 10 ^ l₂.length + natOfDigits l₂ := by
  induction l₂ using List.reverseRecOn with
  | nil => simp [natOfDigits]
  | append_singleton l d ih =>
    rw [← List.append_assoc, natOfDigits_concat, ih, natOfDigits_concat]
    simp only [List.length_append, List.length_singleton, pow_succ]
    ring

theorem natOfDigits_digitsN (k n : Nat) : natOfDigits (digitsN k n) = n % 10 ^ k := by
  induction k generalizing n with
  | zero => simp [digitsN, natOfDigits, Nat.mod_one]
  | succ k ih =>
    rw [digitsN, natOfDigits_concat, ih, pow_succ, mul_comm (10 ^ k) 10, Nat.mod_mul]
    ring

theorem natOfDigits_replicate_zero (l : List Nat) (z : Nat) :
    natOfDigits (l ++ List.replicate z 0) = natOfDigits l * 10 ^ z := by
  rw [natOfDigits_append]
  have : natOfDigits (List.replicate z 0) = 0 := by
    induction z with
    | zero => rfl
    | succ z ih =>
      rw [List.replicate_succ', natOfDigits_concat, ih]
  simp [this]

theorem digitChar_spec (d : Nat) (h : d < 10) :
    isDigit (digitChar d) = true ∧ digitValue (digitChar d) = d ∧ digitChar d ≠ ','
      ∧ isSpace (digitChar d) = false ∧ digitChar d ≠ '-' ∧ digitChar d ≠ '+'
      ∧ digitChar d ≠ '.' := by
  interval_cases d <;> decide

theorem stripZeros_spec (f : List Nat) :
    ∃ z, f = stripZeros f ++ List.replicate z 0 := by
  induction f with
  | nil => exact ⟨0, rfl⟩
  | cons d ds ih =>
    obtain ⟨z, hz⟩ := ih
    unfold stripZeros
    cases hs : stripZeros ds with
    | nil =>
      rw [hs] at hz
      simp only [List.nil_append] at hz
      by_cases hd : d = 0
      · refine ⟨z + 1, ?_⟩
        simp [hd, hz, List.replicate_succ]
      · refine ⟨z, ?_⟩
        simp [hd, ← hz]
    | cons r rs =>
      rw [hs] at hz
      refine ⟨z, ?_⟩
      simp only [List.cons_append] at hz ⊢
      rw [← hz]

theorem stripZeros_mem (f : List Nat) (d : Nat) (h : d ∈ stripZeros f) : d ∈ f := by
  obtain ⟨z, hz⟩ := stripZeros_spec f
  rw [hz]
  exact List.mem_append_left _ h

theorem takeWhile_append_stop (p : Char → Bool) (l rest : List Char) (hl : ∀ c ∈ l, p c = true)
    (hr : ∀ c ∈ rest.head?, p c = false) : (l ++ rest).takeWhile p = l := by
  induction l with
  | nil =>
    cases rest with
    | nil => rfl
    | cons c t => simp [List.takeWhile, hr c (by simp)]
  | cons a l ih =>
    rw [List.cons_append, List.takeWhile_cons, hl a (by simp), if_pos rfl,
      ih (fun c hc => hl c (by simp [hc]))]

theorem dropWhile_append_stop (p : Char → Bool) (l rest : List Char) (hl : ∀ c ∈ l, p c = true)
    (hr : ∀ c ∈ rest.head?, p c = false) : (l ++ rest).dropWhile p = rest := by
  induction l with
  | nil =>
    cases rest with
    | nil => rfl
    | cons c t => simp [List.dropWhile, hr c (by simp)]
  | cons a l ih =>
    rw [List.cons_append, List.dropWhile_cons, hl a (by simp), if_pos rfl,
      ih (fun c hc => hl c (by simp [hc]))]

theorem digits_map_isDigit (ds : List Nat) (h : ∀ d ∈ ds, d < 10) :
    ∀ c ∈ ds.map digitChar, isDigit c = true := by
  intro c hc
  obtain ⟨d, hd, rfl⟩ := List.mem_map.mp hc
  exact (digitChar_spec d (h d hd)).1

theorem digits_map_value (ds : List Nat) (h : ∀ d ∈ ds, d < 10) :
    (ds.map digitChar).map digitValue = ds := by
  induction ds with
  | nil => rfl
  | cons d ds ih =>
    simp only [List.map_cons]
    rw [(digitChar_spec d (h d (by simp))).2.1, ih (fun x hx => h x (by simp [hx]))]

theorem exponentDigits_spec (n : Nat) :
    natOfDigits (exponentDigits n) = n ∧ (∀ d ∈ exponentDigits n, d < 10) := by
  refine ⟨?_, fun d hd => digitsN_lt _ _ d hd⟩
  unfold exponentDigits
  rw [natOfDigits_digitsN]
  apply Nat.mod_eq_of_lt
  calc n < 10 ^ (Nat.log 10 n + 1) := Nat.lt_pow_succ_log_self (by norm_num) n
    _ ≤ 10 ^ (max 2 (Nat.log 10 n + 1)) := Nat.pow_le_pow_right (by norm_num) (le_max_right _ _)

theorem readSign_digits (ds : List Nat) (h : ∀ d ∈ ds, d < 10) (rest : List Char) :
    readSign (ds.map digitChar ++ rest) = (false, ds.map digitChar ++ rest) ∨ ds = [] := by
  cases ds with
  | nil => right; rfl
  | cons d ds =>
    left
    have hd := digitChar_spec d (h d (by simp))
    simp only [List.map_cons, List.cons_append]
    unfold readSign
    split
    · rename_i heq
      injection heq with h1 _
      exact absurd h1 hd.2.2.2.2.1
    · rename_i heq
      injection heq with h1 _
      exact absurd h1 hd.2.2.2.2.2.1
    · rfl

theorem readExponent_text (exponent : Option Int) :
    readExponent (exponentText exponent) = exponent.getD 0 := by
  cases exponent with
  | none => rfl
  | some X =>
    have hs := exponentDigits_spec X.natAbs
    have hne : exponentDigits X.natAbs ≠ [] := by
      intro h
      have := congrArg List.length h
      simp [exponentDigits, digitsN_length] at this
    have hsign : ∀ c : Char, readSign (c :: ((exponentDigits X.natAbs).map digitChar ++ []))
        = (decide (c = '-'), (exponentDigits X.natAbs).map digitChar) ∨ (c ≠ '-' ∧ c ≠ '+') := by
      intro c
      by_cases h1 : c = '-'
      · left; subst h1; simp [readSign]
      · by_cases h2 : c = '+'
        · left; subst h2; simp [readSign]
        · right; exact ⟨h1, h2⟩
    have htw : ((exponentDigits X.natAbs).map digitChar).takeWhile isDigit
        = (exponentDigits X.natAbs).map digitChar := by
      have := takeWhile_append_stop isDigit ((exponentDigits X.natAbs).map digitChar) []
        (digits_map_isDigit _ hs.2) (by simp)
      simpa using this
    simp only [exponentText, readExponent, true_or, if_true, Option.getD_some]
    by_cases hX : X < 0
    · simp only [hX, if_true]
      rcases hsign '-' with h | h
      · simp only [List.append_nil] at h
        rw [h]
        simp only [decide_True, if_true, htw, digits_map_value _ hs.2, hs.1]
        omega
      · exact absurd rfl h.1
    · simp only [hX, if_false]
      rcases hsign '+' with h | h
      · simp only [List.append_nil] at h
        rw [h]
        simp only [htw, digits_map_value _ hs.2, hs.1]
        simp
        omega
      · exact absurd rfl h.2

theorem exponentText_head (exponent : Option Int) :
    ∀ c ∈ (exponentText exponent).head?, isDigit c = false ∧ c ≠ '.' := by
  intro c hc
  cases exponent with
  | none => simp [exponentText] at hc
  | some X =>
    simp only [exponentText, List.head?_cons, Option.mem_def, Option.some.injEq] at hc
    subst hc
    decide

theorem readFraction_text (frac : List Nat) (hfd : ∀ d ∈ frac, d < 10) (exponent : Option Int) :
    readFraction ((if frac = [] then [] else '.' :: frac.map digitChar) ++ exponentText exponent)
      = (frac.map digitChar, exponentText exponent) := by
  by_cases hf : frac = []
  · subst hf
    simp only [if_true, List.nil_append, List.map_nil]
    cases hE : exponentText exponent with
    | nil => rfl
    | cons c t =>
      have := (exponentText_head exponent c (by simp [hE])).2
      unfold readFraction
      split
      · rename_i heq
        injection heq with h1 _
        exact absurd h1 this
      · rfl
  · simp only [hf, if_false, List.cons_append]
    have hE : ∀ c ∈ (exponentText exponent).head?, isDigit c = false :=
      fun c hc => (exponentText_head exponent c hc).1
    simp only [readFraction]
    rw [takeWhile_append_stop isDigit _ _ (digits_map_isDigit _ hfd) hE,
      dropWhile_append_stop isDigit _ _ (digits_map_isDigit _ hfd) hE]

theorem fractionText_head (frac : List Nat) (exponent : Option Int) :
    ∀ c ∈ ((if frac = [] then [] else '.' :: frac.map digitChar)
      ++ exponentText exponent).head?, isDigit c = false := by
  intro c hc
  by_cases hf : frac = []
  · simp only [hf, if_true, List.nil_append] at hc
    exact (exponentText_head exponent c hc).1
  · simp only [hf, if_false, List.cons_append, List.head?_cons, Option.mem_def,
      Option.some.injEq] at hc
    subst hc
    decide

theorem decimalValue_decimalText (negative : Bool) (ip frac : List Nat) (exponent : Option Int)
    (hip : ip ≠ []) (hipd : ∀ d ∈ ip, d < 10) (hfd : ∀ d ∈ frac, d < 10) :
    decimalValue (decimalText negative ip frac exponent)
      = some ((if negative then -1 else 1)
          * ((natOfDigits (ip ++ frac) : ℚ) / 10 ^ frac.length) * 10 ^ (exponent.getD 0)) := by
  have hsigned : readSign ((decimalText negative ip frac exponent).dropWhile isSpace)
      = (negative, ip.map digitChar
          ++ ((if frac = [] then [] else '.' :: frac.map digitChar) ++ exponentText exponent)) := by
    cases negative with
    | true =>
      simp only [decimalText, if_true, List.singleton_append]
      rw [List.dropWhile_cons]
      simp [isSpace, readSign]
    | false =>
      simp only [decimalText, List.nil_append]
      cases ip with
      | nil => exact absurd rfl hip
      | cons d ds =>
        have hd := digitChar_spec d (hipd d (by simp))
        have := readSign_digits (d :: ds) hipd
          ((if frac = [] then [] else '.' :: frac.map digitChar) ++ exponentText exponent)
        rcases this with h | h
        · rw [← h]
          congr 1
          simp only [List.map_cons, List.cons_append, Bool.false_eq_true, if_false,
            List.nil_append]
          rw [List.dropWhile_cons, hd.2.2.2.1]
          simp
        · simp at h
  unfold decimalValue
  simp only [hsigned]
  rw [takeWhile_append_stop isDigit _ _ (digits_map_isDigit _ hipd) (fractionText_head frac exponent),
    dropWhile_append_stop isDigit _ _ (digits_map_isDigit _ hipd) (fractionText_head frac exponent),
    readFraction_text frac hfd exponent]
  have hne : ¬ (ip.map digitChar = [] ∧ frac.map digitChar = []) := by
    intro h
    exact hip (List.map_eq_nil_iff.mp h.1)
  simp only [hne, if_false, readExponent_text, List.length_map]
  have hall : ∀ d ∈ ip ++ frac, d < 10 := by
    intro d hd
    rcases List.mem_append.mp hd with h | h
    · exact hipd d h
    · exact hfd d h
  rw [← List.map_append, digits_map_value _ hall]

theorem decimalExponent_spec (a : ℚ) (ha : 0 < a) :
    (10 : ℚ) ^ decimalExponent a ≤ a ∧ a < (10 : ℚ) ^ (decimalExponent a + 1) := by
  unfold decimalExponent
  by_cases h1 : 1 ≤ a
  · simp only [h1, if_true]
    have hn : ⌊a⌋₊ ≠ 0 := by
      have : 1 ≤ ⌊a⌋₊ := Nat.le_floor (by simpa using h1)
      omega
    have hlo : 10 ^ Nat.log 10 ⌊a⌋₊ ≤ ⌊a⌋₊ := Nat.pow_log_le_self 10 hn
    have hhi : ⌊a⌋₊ < 10 ^ (Nat.log 10 ⌊a⌋₊ + 1) := Nat.lt_pow_succ_log_self (by norm_num) _
    have hfl : (⌊a⌋₊ : ℚ) ≤ a := Nat.floor_le ha.le
    have hfl2 : a < (⌊a⌋₊ : ℚ) + 1 := Nat.lt_floor_add_one a
    constructor
    · rw [zpow_natCast]
      have : ((10 ^ Nat.log 10 ⌊a⌋₊ : ℕ) : ℚ) ≤ (⌊a⌋₊ : ℚ) := by exact_mod_cast hlo
      push_cast at this
      linarith
    · have : ((⌊a⌋₊ + 1 : ℕ) : ℚ) ≤ ((10 ^ (Nat.log 10 ⌊a⌋₊ + 1) : ℕ) : ℚ) := by
        exact_mod_cast hhi
      push_cast at this
      have e : ((Nat.log 10 ⌊a⌋₊ : ℤ) + 1) = ((Nat.log 10 ⌊a⌋₊ + 1 : ℕ) : ℤ) := by push_cast; rfl
      rw [e, zpow_natCast]
      linarith
  · simp only [h1, if_false]
    have h1 : a < 1 := lt_of_not_le h1
    have hinv : 1 < a⁻¹ := by
      rw [one_lt_inv₀ ha]
      exact h1
    have hc1 : a⁻¹ ≤ (⌈a⁻¹⌉₊ : ℚ) := Nat.le_ceil _
    have hc2 : (⌈a⁻¹⌉₊ : ℚ) < a⁻¹ + 1 := Nat.ceil_lt_add_one (by positivity)
    have hc : 1 < ⌈a⁻¹⌉₊ := by
      have : (1 : ℚ) < (⌈a⁻¹⌉₊ : ℚ) := lt_of_lt_of_le hinv hc1
      exact_mod_cast this
    have hlo : ⌈a⁻¹⌉₊ ≤ 10 ^ Nat.clog 10 ⌈a⁻¹⌉₊ := Nat.le_pow_clog (by norm_num) _
    have hhi : 10 ^ (Nat.clog 10 ⌈a⁻¹⌉₊).pred < ⌈a⁻¹⌉₊ := Nat.pow_pred_clog_lt_self (by norm_num) hc
    have hk : 0 < Nat.clog 10 ⌈a⁻¹⌉₊ := Nat.clog_pos (by norm_num) hc
    generalize Nat.clog 10 ⌈a⁻¹⌉₊ = k at hlo hhi hk
    generalize ⌈a⁻¹⌉₊ = c at hc1 hc2 hc hlo hhi
    have hlo' : (c : ℚ) ≤ (10 : ℚ) ^ k := by exact_mod_cast hlo
    obtain ⟨j, rfl⟩ : ∃ j, k = j + 1 := ⟨k - 1, by omega⟩
    simp only [Nat.pred_succ] at hhi
    have hhi' : ((10 : ℚ) ^ j) + 1 ≤ (c : ℚ) := by exact_mod_cast hhi
    have hpk : (0 : ℚ) < 10 ^ (j + 1) := by positivity
    have hpj : (0 : ℚ) < 10 ^ j := by positivity
    constructor
    · rw [zpow_neg, zpow_natCast]
      rw [inv_le_comm₀ hpk ha]
      linarith
    · have e : (-((j + 1 : ℕ) : ℤ) + 1) = -(j : ℤ) := by push_cast; ring
      rw [e, zpow_neg, zpow_natCast]
      rw [lt_inv_comm₀ ha hpj]
      linarith

theorem roundHalfEven_mono_int (q : ℚ) (lo hi : ℤ) (h1 : (lo : ℚ) ≤ q) (h2 : q < (hi : ℚ)) :
    lo ≤ roundHalfEven q ∧ roundHalfEven q ≤ hi := by
  have hf1 : lo ≤ ⌊q⌋ := Int.le_floor.mpr h1
  have hf2 : ⌊q⌋ < hi := Int.floor_lt.mpr h2
  unfold roundHalfEven
  simp only
  split_ifs <;> constructor <;> omega

theorem significand_spec (a : ℚ) (ha : 0 < a) :
    10 ^ 5 ≤ (significand a).1 ∧ (significand a).1 < 10 ^ 6
      ∧ |((significand a).1 : ℚ) * 10 ^ ((significand a).2 - 5) - a| ≤ a * (5 / 10 ^ 6) := by
  obtain ⟨hlo, hhi⟩ := decimalExponent_spec a ha
  have h10 : (10 : ℚ) ≠ 0 := by norm_num
  set e := decimalExponent a with he
  set t : ℚ := 10 ^ (e - 5) with ht
  have htpos : 0 < t := by positivity
  have e1 : (10 : ℚ) ^ (5 - e) = t⁻¹ := by
    rw [ht, ← zpow_neg]; congr 1; ring
  have e2 : (10 : ℚ) ^ e = 10 ^ 5 * t := by
    rw [ht, zpow_sub₀ h10]; norm_num; field_simp
  have e3 : (10 : ℚ) ^ (e + 1) = 10 ^ 6 * t := by
    rw [zpow_add_one₀ h10, e2]; ring
  have e4 : (10 : ℚ) ^ (e + 1 - 5) = 10 * t := by
    rw [ht, show e + 1 - 5 = (e - 5) + 1 by ring, zpow_add_one₀ h10]; ring
  rw [e2] at hlo
  rw [e3] at hhi
  have hs1 : ((10 ^ 5 : ℤ) : ℚ) ≤ a * t⁻¹ := by
    push_cast
    rw [le_mul_inv_iff₀ htpos]
    exact hlo
  have hs2 : a * t⁻¹ < ((10 ^ 6 : ℤ) : ℚ) := by
    push_cast
    rw [mul_inv_lt_iff₀ htpos]
    exact hhi
  obtain ⟨hr1, hr2⟩ := roundHalfEven_mono_int _ _ _ hs1 hs2
  have hr := roundHalfEven_spec (a * t⁻¹)
  unfold significand
  simp only [← he, e1]
  set r := roundHalfEven (a * t⁻¹) with hrdef
  have hrnat : ((r.toNat : ℕ) : ℤ) = r := Int.toNat_of_nonneg (by omega)
  have hrq : ((r.toNat : ℕ) : ℚ) = (r : ℚ) := by exact_mod_cast hrnat
  have hbound : |(r : ℚ) * t - a| ≤ a * (5 / 10 ^ 6) := by
    have : (r : ℚ) * t - a = ((r : ℚ) - a * t⁻¹) * t := by field_simp
    rw [this, abs_mul, abs_of_pos htpos]
    calc |(r : ℚ) - a * t⁻¹| * t ≤ 1 / 2 * t := by
          exact mul_le_mul_of_nonneg_right hr htpos.le
      _ ≤ a * (5 / 10 ^ 6) := by nlinarith
  by_cases hm : r.toNat = 10 ^ 6
  · simp only [hm, if_true, e4]
    refine ⟨le_refl _, by norm_num, ?_⟩
    have hr6 : (r : ℚ) = 10 ^ 6 := by rw [← hrq, hm]; norm_num
    rw [hr6] at hbound
    have : ((10 ^ 5 : ℕ) : ℚ) * (10 * t) = 10 ^ 6 * t := by push_cast; ring
    rw [this]
    exact hbound
  · simp only [hm, if_false]
    refine ⟨by omega, by omega, ?_⟩
    rw [hrq, ← ht]
    exact hbound

theorem stripZeros_value (p f : List Nat) :
    (natOfDigits (p ++ stripZeros f) : ℚ) / 10 ^ (stripZeros f).length
      = (natOfDigits (p ++ f) : ℚ) / 10 ^ f.length := by
  obtain ⟨z, hz⟩ := stripZeros_spec f
  have h1 : natOfDigits (p ++ f) = natOfDigits (p ++ stripZeros f) * 10 ^ z := by
    conv_lhs => rw [hz, ← List.append_assoc]
    exact natOfDigits_replicate_zero _ z
  have h2 : f.length = (stripZeros f).length + z := by
    conv_lhs => rw [hz]
    simp
  rw [h1, h2, pow_add]
  push_cast
  field_simp
  ring

theorem decimalValue_formatFloat (v : ℚ) :
    decimalValue (formatFloat v) = some (roundSix v) := by
  unfold formatFloat roundSix
  by_cases hv : v = 0
  · simp only [hv, if_true]
    have := decimalValue_decimalText false [0] [] none (by simp) (by simp) (by simp)
    simpa [decimalText, exponentText, natOfDigits, digitChar] using this
  · simp only [hv, if_false]
    obtain ⟨hm1, hm2, -⟩ := significand_spec |v| (abs_pos.mpr hv)
    generalize significand |v| = p at hm1 hm2
    obtain ⟨m, X⟩ := p
    simp only at hm1 hm2 ⊢
    have hdl : (digitsN 6 m).length = 6 := digitsN_length 6 m
    have hdd : ∀ d ∈ digitsN 6 m, d < 10 := fun d hd => digitsN_lt 6 m d hd
    have hdv : natOfDigits (digitsN 6 m) = m := by
      rw [natOfDigits_digitsN]; exact Nat.mod_eq_of_lt hm2
    have hsgn : (if decide (v < 0) = true then (-1 : ℚ) else 1) = (if v < 0 then -1 else 1) := by
      by_cases h : v < 0 <;> simp [h]
    have h10 : (10 : ℚ) ≠ 0 := by norm_num
    by_cases hA : 0 ≤ X ∧ X < 6
    · simp only [hA, and_self, if_true]
      obtain ⟨k, hk⟩ : ∃ k : ℕ, X = k := ⟨X.toNat, (Int.toNat_of_nonneg hA.1).symm⟩
      subst hk
      have hk6 : k < 6 := by omega
      simp only [Int.toNat_ofNat]
      rw [decimalValue_decimalText]
      · rw [stripZeros_value, List.take_append_drop, hdv, hsgn]
        simp only [Option.getD_none, zpow_zero, mul_one, List.length_drop, hdl]
        congr 1
        rw [mul_assoc]
        congr 1
        rw [div_eq_mul_inv]
        congr 1
        rw [← zpow_natCast, ← zpow_neg]
        congr 1
        omega
      · intro h
        have := congrArg List.length h
        simp [hdl] at this
      · exact fun d hd => hdd d (List.mem_of_mem_take hd)
      · exact fun d hd => hdd d (List.mem_of_mem_drop (stripZeros_mem _ d hd))
    · simp only [hA, if_false]
      by_cases hB : -4 ≤ X ∧ X < 0
      · simp only [hB, and_self, if_true]
        rw [decimalValue_decimalText]
        · rw [stripZeros_value, ← List.append_assoc, natOfDigits_append, hdv, hsgn]
          have hz : natOfDigits ([0] ++ List.replicate ((-X).toNat - 1) 0) = 0 := by
            have := natOfDigits_replicate_zero [0] ((-X).toNat - 1)
            rw [this]; simp [natOfDigits]
          rw [hz]
          simp only [Option.getD_none, zpow_zero, mul_one, List.length_append,
            List.length_replicate, hdl, zero_mul, zero_add]
          rw [mul_assoc]
          congr 1
          rw [div_eq_mul_inv]
          congr 1
          rw [← zpow_natCast, ← zpow_neg]
          congr 1
          congr 1
          omega
        · simp
        · simp
        · intro d hd
          have := stripZeros_mem _ d hd
          rcases List.mem_append.mp this with h | h
          · rw [List.eq_of_mem_replicate h]; norm_num
          · exact hdd d h
      · simp only [hB, if_false]
        rw [decimalValue_decimalText]
        · rw [stripZeros_value, List.take_append_drop, hdv, hsgn]
          simp only [Option.getD_some, List.length_drop, hdl]
          rw [mul_assoc, mul_assoc]
          congr 1
          rw [zpow_sub₀ h10]
          norm_num
          field_simp
        · intro h
          have := congrArg List.length h
          simp [hdl] at this
        · exact fun d hd => hdd d (List.mem_of_mem_take hd)
        · exact fun d hd => hdd d (List.mem_of_mem_drop (stripZeros_mem _ d hd))

theorem stod_formatFloat (v : ℚ) : stod (formatFloat v) = some (toDouble (roundSix v)) := by
  simp [stod, decimalValue_formatFloat]

theorem roundSix_close (v : ℚ) : |roundSix v - v| ≤ |v| * (5 / 10 ^ 6) := by
  unfold roundSix
  by_cases hv : v = 0
  · simp [hv]
  · simp only [hv, if_false]
    obtain ⟨-, -, h⟩ := significand_spec |v| (abs_pos.mpr hv)
    by_cases hn : v < 0
    · simp only [hn, if_true]
      rw [abs_of_neg hn] at h ⊢
      have : -1 * (((significand (-v)).1 : ℚ)) * 10 ^ ((significand (-v)).2 - 5) - v
          = -(((significand (-v)).1 : ℚ) * 10 ^ ((significand (-v)).2 - 5) - -v) := by ring
      rw [this, abs_neg]
      exact h
    · simp only [hn, if_false]
      rw [abs_of_pos (lt_of_le_of_ne (not_lt.mp hn) (Ne.symm hv))] at h ⊢
      rw [one_mul]
      exact h

theorem decimalText_spec (negative : Bool) (ip frac : List Nat) (exponent : Option Int)
    (hip : ip ≠ []) (hipd : ∀ d ∈ ip, d < 10) (hfd : ∀ d ∈ frac, d < 10) :
    decimalText negative ip frac exponent ≠ [] ∧ ',' ∉ decimalText negative ip frac exponent := by
  have hdig : ∀ ds : List Nat, (∀ d ∈ ds, d < 10) → ',' ∉ ds.map digitChar := by
    intro ds h hc
    obtain ⟨d, hd, he⟩ := List.mem_map.mp hc
    exact (digitChar_spec d (h d hd)).2.2.1 he
  constructor
  · intro h
    have := congrArg List.length h
    simp only [decimalText, List.length_append, List.length_map, List.length_nil] at this
    have : ip.length = 0 := by omega
    exact hip (List.length_eq_zero.mp this)
  · intro h
    simp only [decimalText, List.mem_append] at h
    rcases h with h | h | h | h
    · cases negative
      · simp at h
      · simp only [if_true, List.mem_singleton] at h
        exact absurd h (by decide)
    · exact hdig ip hipd h
    · by_cases hf : frac = []
      · simp [hf] at h
      · simp only [hf, if_false, List.mem_cons] at h
        rcases h with h | h
        · exact absurd h (by decide)
        · exact hdig frac hfd h
    · cases exponent with
      | none => simp [exponentText] at h
      | some X =>
        simp only [exponentText, List.mem_cons] at h
        rcases h with h | h | h
        · exact absurd h (by decide)
        · split_ifs at h
          · exact absurd h (by decide)
          · exact absurd h (by decide)
        · exact hdig _ (exponentDigits_spec _).2 h

theorem formatFloat_spec (v : ℚ) : formatFloat v ≠ [] ∧ ',' ∉ formatFloat v := by
  unfold formatFloat
  by_cases hv : v = 0
  · simp only [hv, if_true]
    decide
  · simp only [hv, if_false]
    generalize significand |v| = p
    obtain ⟨m, X⟩ := p
    simp only
    have hdl : (digitsN 6 m).length = 6 := digitsN_length 6 m
    have hdd : ∀ d ∈ digitsN 6 m, d < 10 := fun d hd => digitsN_lt 6 m d hd
    split_ifs with hA hB
    · apply decimalText_spec
      · intro h
        have := congrArg List.length h
        simp [hdl] at this
      · exact fun d hd => hdd d (List.mem_of_mem_take hd)
      · exact fun d hd => hdd d (List.mem_of_mem_drop (stripZeros_mem _ d hd))
    · apply decimalText_spec
      · simp
      · simp
      · intro d hd
        have := stripZeros_mem _ d hd
        rcases List.mem_append.mp this with h | h
        · rw [List.eq_of_mem_replicate h]; norm_num
        · exact hdd d h
    · apply decimalText_spec
      · intro h
        have := congrArg List.length h
        simp [hdl] at this
      · exact fun d hd => hdd d (List.mem_of_mem_take hd)
      · exact fun d hd => hdd d (List.mem_of_mem_drop (stripZeros_mem _ d hd))

theorem getline_token (tok rest : List Char) (h : ',' ∉ tok) :
    getline (tok ++ ',' :: rest) ',' = some (tok, rest) := by
  have hp : ∀ c ∈ tok, (fun c => c != ',') c = true := by
    intro c hc
    simp only [bne_iff_ne, ne_eq]
    rintro rfl
    exact h hc
  have hr : ∀ c ∈ (',' :: rest).head?, (fun c => c != ',') c = false := by
    intro c hc
    simp only [List.head?_cons, Option.mem_def, Option.some.injEq] at hc
    subst hc
    rfl
  unfold getline
  split
  · rename_i heq
    have := congrArg List.length heq
    simp at this
  · rw [takeWhile_append_stop _ _ _ hp hr, dropWhile_append_stop _ _ _ hp hr]
    rfl

theorem getline_last (tok : List Char) (h : ',' ∉ tok) (hne : tok ≠ []) :
    getline tok ',' = some (tok, []) := by
  have hp : ∀ c ∈ tok, (fun c => c != ',') c = true := by
    intro c hc
    simp only [bne_iff_ne, ne_eq]
    rintro rfl
    exact h hc
  have h1 := takeWhile_append_stop _ tok [] hp (by simp)
  have h2 := dropWhile_append_stop _ tok [] hp (by simp)
  rw [List.append_nil] at h1 h2
  unfold getline
  split
  · exact absurd rfl hne
  · rw [h1, h2]
    rfl

theorem intercalate_cons_cons (sep a b : List Char) (l : List (List Char)) :
    List.intercalate sep (a :: b :: l) = a ++ sep ++ List.intercalate sep (b :: l) := by
  simp [List.intercalate, List.intersperse]

theorem readLoop_joined (l : List ℚ) :
    ∀ (fuel : Nat) (acc : List ℚ), l.length < fuel →
      readLoop fuel (List.intercalate [','] (l.map formatFloat)) acc
        = some (acc ++ l.map reload) := by
  induction l with
  | nil =>
    intro fuel acc hf
    obtain ⟨f, rfl⟩ : ∃ f, fuel = f + 1 := ⟨fuel - 1, by simp at hf; omega⟩
    simp [List.intercalate, readLoop, getline]
  | cons v l ih =>
    intro fuel acc hf
    obtain ⟨f, rfl⟩ : ∃ f, fuel = f + 1 := ⟨fuel - 1, by omega⟩
    obtain ⟨hne, hc⟩ := formatFloat_spec v
    cases l with
    | nil =>
      have : List.intercalate [','] ([v].map formatFloat) = formatFloat v := by
        simp [List.intercalate, List.intersperse]
      rw [this, readLoop, getline_last _ hc hne]
      simp only [stod_formatFloat]
      obtain ⟨g, rfl⟩ : ∃ g, f = g + 1 := ⟨f - 1, by simp at hf; omega⟩
      simp [readLoop, getline, reload]
    | cons w l =>
      simp only [List.map_cons] at ih ⊢
      rw [intercalate_cons_cons, List.append_assoc, List.singleton_append, readLoop,
        getline_token _ _ hc]
      simp only [stod_formatFloat]
      rw [show toFloat (toDouble (roundSix v)) = reload v from rfl,
        ih f (acc ++ [reload v]) (by simp at hf ⊢; omega)]
      simp

theorem joined_length (l : List ℚ) :
    l.length ≤ (List.intercalate [','] (l.map formatFloat)).length := by
  induction l with
  | nil => simp
  | cons v l ih =>
    have hne : 0 < (formatFloat v).length := List.length_pos.mpr (formatFloat_spec v).1
    cases l with
    | nil =>
      have : List.intercalate [','] ([v].map formatFloat) = formatFloat v := by
        simp [List.intercalate, List.intersperse]
      rw [this]
      simpa using hne
    | cons w l =>
      simp only [List.map_cons] at ih ⊢
      rw [intercalate_cons_cons]
      simp only [List.length_append, List.length_cons, List.length_nil] at ih ⊢
      omega

theorem writeFrom_joined (l : List ℚ) :
    ∀ pre : List ℚ, writeFrom (pre ++ l) l.length pre.length
      = List.intercalate [','] (l.map formatFloat) := by
  induction l with
  | nil => intro pre; simp [writeFrom, List.intercalate]
  | cons v l ih =>
    intro pre
    have hget : (pre ++ v :: l).getD pre.length 0 = v := by
      rw [List.getD_eq_getElem?_getD, List.getElem?_append_right (le_refl _)]
      simp
    have ih' := ih (pre ++ [v])
    simp only [List.append_assoc, List.singleton_append, List.length_append,
      List.length_singleton] at ih'
    simp only [List.length_cons, writeFrom, hget, ih', List.length_append]
    cases l with
    | nil => simp [List.intercalate, List.intersperse]
    | cons w l =>
      have hlt : pre.length < pre.length + ((w :: l).length + 1) - 1 := by
        simp only [List.length_cons]; omega
      rw [if_pos hlt]
      simp only [List.map_cons, intercalate_cons_cons]

/-! ## Lemmas: recorder, playback loop, menu -/

theorem shuffleLoop_perm {α : Type} (gen : Nat → Nat) (remaining : Nat) :
    ∀ (target : Nat) (vec : List α), List.Perm (shuffleLoop gen remaining target vec) vec := by
  induction remaining with
  | zero => intro target vec; exact List.Perm.refl _
  | succ n ih =>
    intro target vec
    exact (ih (target + 1) _).trans (swapAt_perm vec target _)

theorem shuffle_perm {α : Type} (gen : Nat → Nat) (vec : List α) :
    List.Perm (shuffle gen vec) vec :=
  shuffleLoop_perm gen _ 1 vec

theorem foldl_recordPress (frequency : Int) (presses : List Int) :
    ∀ (t : Int) (log : List ℚ),
      presses.foldl (recordPress frequency)
          { recording := true, firstClickTime := t, clickDelays := log }
        = { recording := true, firstClickTime := (t :: presses).getLast (by simp),
            clickDelays := log ++ (List.zipWith (delayMs frequency) (t :: presses) presses).filter
              (fun d => decide (d ≤ 150)) } := by
  induction presses with
  | nil => intro t log; simp
  | cons c cs ih =>
    intro t log
    rw [List.foldl_cons]
    by_cases h : delayMs frequency t c ≤ 150
    · have : recordPress frequency { recording := true, firstClickTime := t, clickDelays := log } c
          = { recording := true, firstClickTime := c,
              clickDelays := log ++ [delayMs frequency t c] } := by
        simp [recordPress, h]
      rw [this, ih]
      simp [List.zipWith, List.filter, h, List.getLast_cons]
    · have : recordPress frequency { recording := true, firstClickTime := t, clickDelays := log } c
          = { recording := true, firstClickTime := c, clickDelays := log } := by
        simp [recordPress, h]
      rw [this, ih]
      simp [List.zipWith, List.filter, h, List.getLast_cons]

theorem recordLoop_eq (frequency : Int) (log : List ℚ) (presses : List Int) :
    (recordLoop frequency log presses).clickDelays
        = log ++ (List.zipWith (delayMs frequency) presses presses.tail).filter
            (fun d => decide (d ≤ 150))
      ∧ ∀ last ∈ presses.getLast?, (recordLoop frequency log presses).firstClickTime = last := by
  cases presses with
  | nil => simp [recordLoop]
  | cons t cs =>
    have h0 : recordPress frequency
        { recording := false, firstClickTime := 0, clickDelays := log } t
        = { recording := true, firstClickTime := t, clickDelays := log } := by
      simp [recordPress]
    simp only [recordLoop, List.foldl_cons, h0, foldl_recordPress, List.tail_cons]
    refine ⟨trivial, ?_⟩
    intro last hl
    rw [List.getLast?_eq_getLast _ (by simp)] at hl
    simpa using hl

theorem recordLoop_append (frequency : Int) (log : List ℚ) (presses : List Int) :
    (recordLoop frequency log presses).clickDelays
      = log ++ (recordLoop frequency [] presses).clickDelays := by
  rw [(recordLoop_eq frequency log presses).1, (recordLoop_eq frequency [] presses).1]
  simp

theorem writeRecordingFrom_joined (l : List ℚ) :
    ∀ pre : List ℚ, writeRecordingFrom (pre ++ l) l.length pre.length
      = List.intercalate [','] (l.map formatFloat) := by
  induction l with
  | nil => intro pre; simp [writeRecordingFrom, List.intercalate]
  | cons v l ih =>
    intro pre
    have hget : (pre ++ v :: l).getD pre.length 0 = v := by
      rw [List.getD_eq_getElem?_getD, List.getElem?_append_right (le_refl _)]
      simp
    have ih' := ih (pre ++ [v])
    simp only [List.append_assoc, List.singleton_append, List.length_append,
      List.length_singleton] at ih'
    simp only [List.length_cons, writeRecordingFrom, hget, ih', List.length_append]
    cases l with
    | nil => simp [List.intercalate, List.intersperse]
    | cons w l =>
      have hne : pre.length ≠ pre.length + ((w :: l).length + 1) - 1 := by
        simp only [List.length_cons]; omega
      rw [if_pos hne]
      simp only [List.map_cons, intercalate_cons_cons]

theorem playLoop_outer_stopped (intervals : List ℚ) (es : List Event) :
    ∀ s : PlayState, s.stopPlaying = true →
      playLoop intervals true s es = { s with returned := true } := by
  induction es with
  | nil => intro s hs; simp [playLoop, hs]
  | cons e es ih =>
    intro s hs
    cases e with
    | signal sig =>
      have h1 : signalHandler s.stopPlaying sig = true := by simp [signalHandler, hs]
      rw [playLoop, ih _ (by simpa using h1), h1, ← hs]
    | poll lb ls cv fg => simp [playLoop, hs]

theorem playLoop_inner_stopped (intervals : List ℚ) (pre : List Event) :
    ∀ (s : PlayState) (lb ls cv fg : Bool) (post : List Event), s.stopPlaying = true →
      (∀ e ∈ pre, e.keepsInner = true) → (lb && !ls && !cv) = false →
      (playLoop intervals false s (pre ++ Event.poll lb ls cv fg :: post)).returned = true
      ∧ (playLoop intervals false s (pre ++ Event.poll lb ls cv fg :: post)).stopPlaying = true
      ∧ cycles (playLoop intervals false s (pre ++ Event.poll lb ls cv fg :: post)).trace
          = cycles s.trace + pre.countP Event.startsCycle := by
  induction pre with
  | nil =>
    intro s lb ls cv fg post hs _ hidle
    simp only [List.nil_append, playLoop, Bool.false_and, hidle]
    rw [playLoop_outer_stopped intervals post s hs]
    simp [hs]
  | cons e pre ih =>
    intro s lb ls cv fg post hs hpre hidle
    have hrest : ∀ e ∈ pre, e.keepsInner = true := fun x hx => hpre x (by simp [hx])
    cases e with
    | signal sig =>
      have h1 : signalHandler s.stopPlaying sig = true := by simp [signalHandler, hs]
      simp only [List.cons_append, playLoop]
      have := ih { s with stopPlaying := signalHandler s.stopPlaying sig } lb ls cv fg post
        (by simpa using h1) hrest hidle
      simpa [List.countP_cons, Event.startsCycle] using this
    | poll a b c d =>
      have hk : (a && !b && !c) = true := by
        have := hpre (Event.poll a b c d) (by simp)
        simpa [Event.keepsInner] using this
      have step : ∀ rest, playLoop intervals false s (Event.poll a b c d :: rest)
          = playLoop intervals false (if d = true then clickCycle intervals s else s) rest := by
        intro rest
        rw [playLoop]
        simp [hk]
      rw [List.cons_append, step]
      cases d with
      | true =>
        have := ih (clickCycle intervals s) lb ls cv fg post (by simpa [clickCycle] using hs)
          hrest hidle
        rw [if_pos rfl]
        refine ⟨this.1, this.2.1, ?_⟩
        rw [this.2.2]
        simp [List.countP_cons, Event.startsCycle, hk, clickCycle, cycles, List.count_append]
        omega
      | false =>
        have := ih s lb ls cv fg post hs hrest hidle
        rw [if_neg (by simp)]
        refine ⟨this.1, this.2.1, ?_⟩
        rw [this.2.2]
        simp [List.countP_cons, Event.startsCycle, hk]

theorem playLoop_flag_stays (intervals : List ℚ) (es : List Event) :
    ∀ (atOuter : Bool) (s : PlayState), s.stopPlaying = true →
      (playLoop intervals atOuter s es).stopPlaying = true := by
  induction es with
  | nil => intro atOuter s hs; simp only [playLoop]; split_ifs <;> simp [hs]
  | cons e es ih =>
    intro atOuter s hs
    cases e with
    | signal sig =>
      rw [playLoop]
      exact ih _ _ (by simp [signalHandler, hs])
    | poll a b c d =>
      rw [playLoop]
      split_ifs
      · simp [hs]
      · exact ih _ _ (by simpa [clickCycle] using hs)
      · exact ih _ _ hs
      · exact ih _ _ hs

theorem playLoop_nonempty_calls (intervals : List ℚ) (hne : intervals ≠ []) (es : List Event) :
    ∀ (atOuter : Bool) (s : PlayState),
      (∀ a ∈ s.trace, a ≠ Action.shuffle [] ∧ ∀ bw, a ≠ Action.sampleFromKDE [] bw) →
      ∀ a ∈ (playLoop intervals atOuter s es).trace,
        a ≠ Action.shuffle [] ∧ ∀ bw, a ≠ Action.sampleFromKDE [] bw := by
  induction es with
  | nil => intro atOuter s hs; simp only [playLoop]; split_ifs <;> simpa using hs
  | cons e es ih =>
    intro atOuter s hs
    cases e with
    | signal sig =>
      rw [playLoop]
      exact ih _ _ (by simpa using hs)
    | poll a b c d =>
      rw [playLoop]
      split_ifs
      · simpa using hs
      · apply ih
        intro x hx
        simp only [clickCycle, List.mem_append, List.mem_cons, List.mem_singleton,
          List.not_mem_nil, or_false] at hx
        rcases hx with hx | hx | hx | hx
        · exact hs x hx
        · subst hx
          refine ⟨by simp, fun bw h => ?_⟩
          injection h with h1 _
          exact hne h1
        · subst hx; simp
        · subst hx; simp
      · exact ih _ _ hs
      · exact ih _ _ hs

theorem menuRound_cases (P : Program → Prop) (g : Globals) (r : Round)
    (hthrow : r.choice = 1 → readIntervalsFromFile r.file = none →
      P { globals := g, trace := [], status := Status.terminated })
    (hplay : ∀ intervals, r.choice = 1 → readIntervalsFromFile r.file = some intervals →
      intervals ≠ [] → (r.answer = 'Y' ∨ r.answer = 'y') →
      P { globals := { g with stopPlaying :=
              (playClicks r.gen intervals g.stopPlaying r.events).stopPlaying }
          trace := (playClicks r.gen intervals g.stopPlaying r.events).trace
          status := if (playClicks r.gen intervals g.stopPlaying r.events).returned
            then Status.running else Status.playing })
    (hdecline : ∀ intervals, r.choice = 1 → readIntervalsFromFile r.file = some intervals →
      intervals ≠ [] → ¬ (r.answer = 'Y' ∨ r.answer = 'y') →
      P { globals := g, trace := [Action.cout "File not selected for playback.\n"],
          status := Status.running })
    (hempty : r.choice = 1 → readIntervalsFromFile r.file = some [] →
      P { globals := g, trace := [Action.cerr "No intervals found in file.\n"],
          status := Status.running })
    (hrecord : r.choice = 2 → P (clickRecorder g r.frequency r.presses r.saveDialog r.saveOpens r.dialogError))
    (hexit : r.choice = 3 → P { globals := g, trace := [], status := Status.exited })
    (hother : r.choice ≠ 1 → r.choice ≠ 2 → r.choice ≠ 3 →
      P { globals := g, trace := [Action.cout "Invalid choice.\n"], status := Status.running }) :
    P (menuRound g r) := by
  unfold menuRound
  by_cases h1 : r.choice = 1
  · rw [if_pos h1]
    cases hread : readIntervalsFromFile r.file with
    | none => exact hthrow h1 hread
    | some intervals =>
      simp only
      cases intervals with
      | nil =>
        rw [if_neg (by simp)]
        exact hempty h1 hread
      | cons v l =>
        rw [if_pos (by simp)]
        by_cases hans : r.answer = 'Y' ∨ r.answer = 'y'
        · rw [if_pos hans]
          exact hplay _ h1 hread (by simp) hans
        · rw [if_neg hans]
          exact hdecline _ h1 hread (by simp) hans
  · rw [if_neg h1]
    by_cases h2 : r.choice = 2
    · rw [if_pos h2]
      exact hrecord h2
    · rw [if_neg h2]
      by_cases h3 : r.choice = 3
      · rw [if_pos h3]
        exact hexit h3
      · rw [if_neg h3]
        exact hother h1 h2 h3

theorem menuRound_flag_stays (g : Globals) (r : Round) (h : g.stopPlaying = true) :
    (menuRound g r).globals.stopPlaying = true := by
  apply menuRound_cases (fun p => p.globals.stopPlaying = true)
  · exact fun _ _ => h
  · intro intervals _ _ _ _
    exact playLoop_flag_stays _ _ _ _ h
  · exact fun _ _ _ _ _ => h
  · exact fun _ _ => h
  · exact fun _ => h
  · exact fun _ => h
  · exact fun _ _ _ => h

theorem main_flag_stays (rounds : List Round) :
    ∀ p : Program, p.globals.stopPlaying = true → (main p rounds).globals.stopPlaying = true := by
  induction rounds with
  | nil => intro p h; exact h
  | cons r rs ih =>
    intro p h
    rw [main]
    split_ifs
    · exact ih _ (menuRound_flag_stays p.globals r h)
    · exact h

theorem menuRound_nonempty_calls (g : Globals) (r : Round) :
    ∀ a ∈ (menuRound g r).trace,
      a ≠ Action.shuffle [] ∧ ∀ bw, a ≠ Action.sampleFromKDE [] bw := by
  apply menuRound_cases (fun p => ∀ a ∈ p.trace,
      a ≠ Action.shuffle [] ∧ ∀ bw, a ≠ Action.sampleFromKDE [] bw)
  · simp
  · intro intervals _ _ hne _
    have hsh : shuffle r.gen intervals ≠ [] := by
      intro h
      have := (shuffle_perm r.gen intervals).length_eq
      rw [h] at this
      exact hne (List.length_eq_zero.mp this.symm)
    apply playLoop_nonempty_calls _ hsh
    intro a ha
    simp only [List.mem_singleton] at ha
    subst ha
    refine ⟨fun h => ?_, by simp⟩
    injection h with h1
    exact hne h1
  · simp
  · simp
  · intro _
    simp only [clickRecorder]
    split_ifs <;> simp
  · simp
  · simp

theorem main_nonempty_calls (rounds : List Round) :
    ∀ p : Program,
      (∀ a ∈ p.trace, a ≠ Action.shuffle [] ∧ ∀ bw, a ≠ Action.sampleFromKDE [] bw) →
      ∀ a ∈ (main p rounds).trace,
        a ≠ Action.shuffle [] ∧ ∀ bw, a ≠ Action.sampleFromKDE [] bw := by
  induction rounds with
  | nil => intro p h; exact h
  | cons r rs ih =>
    intro p h
    rw [main]
    split_ifs
    · apply ih
      intro a ha
      rcases List.mem_append.mp ha with h1 | h1
      · exact h a h1
      · exact menuRound_nonempty_calls p.globals r a h1
    · exact h

theorem menuRound_log_grows (g : Globals) (r : Round) :
    ∃ more, (menuRound g r).globals.clickDelays = g.clickDelays ++ more := by
  apply menuRound_cases (fun p => ∃ more, p.globals.clickDelays = g.clickDelays ++ more)
  · exact fun _ _ => ⟨[], by simp⟩
  · exact fun _ _ _ _ _ => ⟨[], by simp⟩
  · exact fun _ _ _ _ _ => ⟨[], by simp⟩
  · exact fun _ _ => ⟨[], by simp⟩
  · exact fun _ => ⟨_, recordLoop_append _ _ _⟩
  · exact fun _ => ⟨[], by simp⟩
  · exact fun _ _ _ => ⟨[], by simp⟩

theorem main_log_grows (rounds : List Round) :
    ∀ p : Program, ∃ more, (main p rounds).globals.clickDelays = p.globals.clickDelays ++ more := by
  induction rounds with
  | nil => intro p; exact ⟨[], by simp [main]⟩
  | cons r rs ih =>
    intro p
    rw [main]
    split_ifs
    · obtain ⟨m1, h1⟩ := menuRound_log_grows p.globals r
      obtain ⟨m2, h2⟩ := ih ⟨(menuRound p.globals r).globals,
        p.trace ++ (menuRound p.globals r).trace, (menuRound p.globals r).status⟩
      refine ⟨m1 ++ m2, ?_⟩
      simp only at h2 ⊢
      rw [h2, h1, List.append_assoc]
    · exact ⟨[], (List.append_nil _).symm⟩

/-! ## Lemmas: density estimator and sampler -/

theorem roundBinary_eq_of_close {K : Type} [LinearOrderedField K] [FloorRing K]
    (p : Nat) (emin : Int) (x : K) (L M : Int)
    (h1 : (2 : K) ^ L ≤ x) (h2 : x < (2 : K) ^ (L + 1)) (he : emin ≤ L - ((p : Int) - 1))
    (hM : |x / 2 ^ (L - ((p : Int) - 1)) - ((M : Int) : K)| < 1 / 2) :
    roundBinary p emin x = (M : ℚ) * 2 ^ (L - ((p : Int) - 1)) := by
  have hx : 0 < x := lt_of_lt_of_le (zpow_two_pos L) h1
  have hlog : Int.log 2 |x| = L := by
    rw [abs_of_pos hx]
    apply le_antisymm
    · have := (Int.lt_zpow_iff_log_lt (b := 2) (by norm_num) hx).mp (by simpa using h2)
      omega
    · exact (Int.zpow_le_iff_le_log (b := 2) (by norm_num) hx).mp (by simpa using h1)
  have hue : ulpExponent p emin x = L - ((p : Int) - 1) := by
    unfold ulpExponent
    rw [hlog]
    exact max_eq_left he
  unfold roundBinary
  rw [hue]
  have hn := roundHalfEven_nearest (x / 2 ^ (L - ((p : Int) - 1))) M
  have hr : roundHalfEven (x / 2 ^ (L - ((p : Int) - 1))) = M := by
    have hlt : |((roundHalfEven (x / 2 ^ (L - ((p : Int) - 1))) : Int) : K) - ((M : Int) : K)|
        < 1 := by
      have ht := abs_sub_le ((roundHalfEven (x / 2 ^ (L - ((p : Int) - 1))) : Int) : K)
        (x / 2 ^ (L - ((p : Int) - 1))) ((M : Int) : K)
      rw [abs_sub_comm ((M : Int) : K)] at hn
      linarith
    have hlt' : |roundHalfEven (x / 2 ^ (L - ((p : Int) - 1))) - M| < 1 := by
      have : ((|roundHalfEven (x / 2 ^ (L - ((p : Int) - 1))) - M| : Int) : K) < ((1 : Int) : K) := by
        push_cast
        exact hlt
      exact_mod_cast this
    rw [abs_lt] at hlt'
    omega
  rw [hr]

theorem sqrtTwoPi_eq : sqrtTwoPi = 5644425081792447 / 2 ^ 51 := by
  have hq : toDouble (2 * toDouble 3.14159265359) = 3537118876014453 / 562949953421312 := by
    decide!
  unfold sqrtTwoPi sqrtDouble
  rw [hq]
  have h := roundBinary_eq_of_close (K := ℝ) 53 (-1074)
    (Real.sqrt ((3537118876014453 / 562949953421312 : ℚ) : ℝ)) 1 5644425081792447
    (by
      rw [zpow_one]
      apply Real.le_sqrt_of_sq_le
      push_cast
      norm_num)
    (by
      rw [Real.sqrt_lt' (by positivity)]
      push_cast
      norm_num)
    (by norm_num)
    (by
      have e : (1 : Int) - (((53 : Nat) : Int) - 1) = -51 := by norm_num
      rw [e, zpow_neg, div_inv_eq_mul, abs_lt]
      constructor
      · have : (5644425081792447 - 1 / 2 : ℝ) / 2 ^ (51 : Int)
            < Real.sqrt ((3537118876014453 / 562949953421312 : ℚ) : ℝ) := by
          rw [Real.lt_sqrt (by positivity)]
          push_cast
          norm_num
        rw [div_lt_iff₀ (by positivity)] at this
        push_cast
        linarith
      · have : Real.sqrt ((3537118876014453 / 562949953421312 : ℚ) : ℝ)
            < (5644425081792447 + 1 / 2 : ℝ) / 2 ^ (51 : Int) := by
          rw [Real.sqrt_lt' (by positivity)]
          push_cast
          norm_num
        rw [lt_div_iff₀ (by positivity)] at this
        push_cast
        linarith)
  rw [h]
  norm_num

theorem expDouble_zero : expDouble 0 = 1 := by
  unfold expDouble
  have h1 : Representable 53 (-1074) 1 := ⟨1, 0, by norm_num, by norm_num, by simp⟩
  have := roundBinary_of_representable (K := ℝ) 53 (-1074) 1 h1
  simpa using this

theorem expDouble_nonneg (t : ℚ) : 0 ≤ expDouble t := by
  unfold expDouble
  have h0 : Representable 53 (-1074) 0 := ⟨0, 0, by norm_num, by norm_num, by simp⟩
  exact le_roundBinary_of_le 53 (-1074) (by norm_num) _ 0 h0 (by
    simpa using (Real.exp_pos _).le)

theorem expDouble_le_one (t : ℚ) (ht : t ≤ 0) : expDouble t ≤ 1 := by
  unfold expDouble
  have h1 : Representable 53 (-1074) 1 := ⟨1, 0, by norm_num, by norm_num, by simp⟩
  exact roundBinary_le_of_le 53 (-1074) (by norm_num) _ 1 h1 (by
    have : Real.exp (t : ℝ) ≤ 1 := by
      rw [← Real.exp_zero]
      exact Real.exp_le_exp.mpr (by exact_mod_cast ht)
    simpa using this)

theorem expDouble_ge_half (t : ℚ) (ht : -(1 / 2) ≤ t) : 1 / 2 ≤ expDouble t := by
  unfold expDouble
  have h1 : Representable 53 (-1074) (1 / 2) := ⟨1, -1, by norm_num, by norm_num, by norm_num⟩
  exact le_roundBinary_of_le 53 (-1074) (by norm_num) _ (1 / 2) h1 (by
    have h2 := Real.add_one_le_exp (t : ℝ)
    have h3 : (((-(1 / 2) : ℚ) : ℚ) : ℝ) ≤ (t : ℝ) := by exact_mod_cast ht
    push_cast at h3
    push_cast
    linarith)
theorem representable_zero (p : Nat) (emin : Int) (he : emin ≤ 0) : Representable p emin 0 :=
  ⟨0, 0, he, by positivity, by simp⟩

theorem kernelArgument_nonpos (x sample bandwidth : ℚ) :
    kernelArgument x sample bandwidth ≤ 0 := by
  unfold kernelArgument
  have h0 := representable_zero 53 (-1074) (by norm_num)
  have h1 : 0 ≤ toDouble (toFloat (toFloat (x - sample) / bandwidth) ^ 2) :=
    le_toDouble_of_le _ 0 h0 (sq_nonneg _)
  exact toDouble_le_of_le _ 0 h0 (by nlinarith)

theorem kernelTerm_bounds (x sample bandwidth : ℚ) :
    0 ≤ expDouble (kernelArgument x sample bandwidth)
      ∧ expDouble (kernelArgument x sample bandwidth) ≤ 1 :=
  ⟨expDouble_nonneg _, expDouble_le_one _ (kernelArgument_nonpos x sample bandwidth)⟩

theorem representable_nat_le (n : Nat) (hn : n ≤ 2 ^ 24) :
    Representable 24 (-149) (n : ℚ) := by
  by_cases h : n < 2 ^ 24
  · have := representable_int 24 (-149) (n : Int) (by norm_num) (by
      rw [abs_of_nonneg (by positivity)]
      exact_mod_cast h)
    simpa using this
  · have : n = 2 ^ 24 := by omega
    rw [this]
    have := representable_zpow 24 (-149) 24 (by norm_num) (by norm_num)
    norm_num at this ⊢
    exact this

theorem accumulate_bounds (s e : ℚ) (k : Nat) (hs0 : 0 ≤ s) (hsk : s ≤ k) (hs : s ≤ 2 ^ 24)
    (he0 : 0 ≤ e) (he1 : e ≤ 1) :
    0 ≤ accumulate s e ∧ accumulate s e ≤ (k + 1 : Nat) ∧ accumulate s e ≤ 2 ^ 24 := by
  unfold accumulate
  have h0d := representable_zero 53 (-1074) (by norm_num)
  have h0f := representable_zero 24 (-149) (by norm_num)
  have hcap : toFloat (2 ^ 24 + 1) = 2 ^ 24 := by decide!
  have hrepd : Representable 53 (-1074) ((2 : ℚ) ^ 24 + 1) := by
    have := representable_int 53 (-1074) (2 ^ 24 + 1) (by norm_num) (by norm_num)
    norm_num at this ⊢
    exact this
  have h24 : toFloat (toDouble (s + e)) ≤ 2 ^ 24 := by
    rw [← hcap]
    apply toFloat_mono
    exact toDouble_le_of_le _ _ hrepd (by linarith)
  refine ⟨le_toFloat_of_le _ 0 h0f (le_toDouble_of_le _ 0 h0d (by linarith)), ?_, h24⟩
  by_cases hk : k + 1 ≤ 2 ^ 24
  · have hr := representable_nat_le (k + 1) hk
    apply toFloat_le_of_le _ _ hr
    apply toDouble_le_of_le _ _ (representable_float_double _ hr)
    push_cast
    linarith
  · have : ((2 : ℚ) ^ 24) ≤ ((k + 1 : Nat) : ℚ) := by
      have : 2 ^ 24 ≤ k + 1 := by omega
      exact_mod_cast this
    linarith

theorem foldl_accumulate_bounds (g : ℚ → ℚ) (hg : ∀ t, 0 ≤ g t ∧ g t ≤ 1) (samples : List ℚ) :
    ∀ (s : ℚ) (k : Nat), 0 ≤ s → s ≤ k → s ≤ 2 ^ 24 →
      0 ≤ samples.foldl (fun sum sample => accumulate sum (g sample)) s
        ∧ samples.foldl (fun sum sample => accumulate sum (g sample)) s
            ≤ (k + samples.length : Nat)
        ∧ samples.foldl (fun sum sample => accumulate sum (g sample)) s ≤ 2 ^ 24 := by
  induction samples with
  | nil => intro s k h0 hk h24; simpa using ⟨h0, hk, h24⟩
  | cons a l ih =>
    intro s k h0 hk h24
    obtain ⟨b0, bk, b24⟩ := accumulate_bounds s (g a) k h0 hk h24 (hg a).1 (hg a).2
    have := ih (accumulate s (g a)) (k + 1) b0 bk b24
    rw [List.foldl_cons, List.length_cons]
    have e : k + 1 + l.length = k + (l.length + 1) := by omega
    rw [e] at this
    exact this

set_option exponentiation.threshold 2000 in
theorem kernelDivisor_bounds (n : Nat) (b : ℚ) (hn : 1 ≤ n) (hb1 : 1 / 2 ^ 100 ≤ b) :
    (n : ℚ) * (5644425081792447 / 2 ^ 51) * b * (1 - 1 / 2 ^ 51) ≤ kernelDivisor n b
      ∧ kernelDivisor n b ≤ (n : ℚ) * (5644425081792447 / 2 ^ 51) * b * (1 + 1 / 2 ^ 51) := by
  unfold kernelDivisor
  rw [sqrtTwoPi_eq]
  have hnq : (1 : ℚ) ≤ (n : ℚ) := by exact_mod_cast hn
  have hbpos : 0 < b := lt_of_lt_of_le (by positivity) hb1
  generalize (n : ℚ) = N at hnq ⊢
  have h1 := toDouble_pos_bounds N (by linarith) (le_trans (by norm_num) hnq)
  have h1pos : (1 : ℚ) / 2 ≤ toDouble N := by nlinarith [h1.1]
  have h2 := toDouble_pos_bounds (toDouble N * (5644425081792447 / 2 ^ 51)) (by positivity)
    (le_trans (by norm_num) (by nlinarith : (1 : ℚ) ≤ toDouble N * (5644425081792447 / 2 ^ 51)))
  have h2pos : (1 : ℚ) ≤ toDouble (toDouble N * (5644425081792447 / 2 ^ 51)) := by
    nlinarith [h2.1]
  have h3 := toDouble_pos_bounds (toDouble (toDouble N * (5644425081792447 / 2 ^ 51)) * b)
    (by positivity)
    (by
      have : (1 : ℚ) / 2 ^ 100 ≤ toDouble (toDouble N * (5644425081792447 / 2 ^ 51)) * b := by
        nlinarith
      exact le_trans (by norm_num) this)
  set C : ℚ := 5644425081792447 / 2 ^ 51 with hC
  have hCpos : 0 < C := by positivity
  have hNpos : 0 < N := by linarith
  have hlow : N * C * b * (1 - 1 / 2 ^ 53) ^ 3
      ≤ toDouble (toDouble (toDouble N * C) * b) := by
    have a1 : N * C * (1 - 1 / 2 ^ 53) ≤ toDouble N * C := by nlinarith [h1.1]
    have a2 : N * C * (1 - 1 / 2 ^ 53) ^ 2 ≤ toDouble (toDouble N * C) := by
      have : toDouble N * C * (1 - 1 / 2 ^ 53) ≤ toDouble (toDouble N * C) := h2.1
      nlinarith
    have a3 : N * C * (1 - 1 / 2 ^ 53) ^ 2 * b ≤ toDouble (toDouble N * C) * b :=
      mul_le_mul_of_nonneg_right a2 hbpos.le
    have a4 : toDouble (toDouble N * C) * b * (1 - 1 / 2 ^ 53)
        ≤ toDouble (toDouble (toDouble N * C) * b) := h3.1
    nlinarith
  have hhigh : toDouble (toDouble (toDouble N * C) * b)
      ≤ N * C * b * (1 + 1 / 2 ^ 53) ^ 3 := by
    have a1 : toDouble N * C ≤ N * C * (1 + 1 / 2 ^ 53) := by nlinarith [h1.2]
    have a2 : toDouble (toDouble N * C) ≤ N * C * (1 + 1 / 2 ^ 53) ^ 2 := by
      have : toDouble (toDouble N * C) ≤ toDouble N * C * (1 + 1 / 2 ^ 53) := h2.2
      nlinarith
    have a3 : toDouble (toDouble N * C) * b ≤ N * C * (1 + 1 / 2 ^ 53) ^ 2 * b :=
      mul_le_mul_of_nonneg_right a2 hbpos.le
    have a4 : toDouble (toDouble (toDouble N * C) * b)
        ≤ toDouble (toDouble N * C) * b * (1 + 1 / 2 ^ 53) := h3.2
    nlinarith
  have hA : 0 < N * C * b := by positivity
  constructor
  · have : (1 : ℚ) - 1 / 2 ^ 51 ≤ (1 - 1 / 2 ^ 53) ^ 3 := by norm_num
    exact le_trans (mul_le_mul_of_nonneg_left this hA.le) hlow
  · have : (1 + 1 / 2 ^ 53 : ℚ) ^ 3 ≤ 1 + 1 / 2 ^ 51 := by norm_num
    exact le_trans hhigh (mul_le_mul_of_nonneg_left this hA.le)
set_option exponentiation.threshold 2000 in
theorem kde_le_peak (samples : List ℚ) (x b : ℚ) (hs : samples ≠ [])
    (hb1 : 1 / 2 ^ 100 ≤ b) (hb2 : b ≤ 2 ^ 100) :
    0 ≤ kernelDensityEstimation samples x b
      ∧ kernelDensityEstimation samples x b
        ≤ 1 / (5644425081792447 / 2 ^ 51 * b) * (1 + 1 / 2 ^ 23) := by
  have hn : 1 ≤ samples.length := List.length_pos.mpr hs
  have hnq : (1 : ℚ) ≤ (samples.length : ℚ) := by exact_mod_cast hn
  have hbpos : 0 < b := lt_of_lt_of_le (by positivity) hb1
  obtain ⟨hs0, hsn, -⟩ := foldl_accumulate_bounds
    (fun sample => expDouble (kernelArgument x sample b))
    (fun t => kernelTerm_bounds x t b) samples 0 0 (le_refl _) (by simp)
    (by positivity)
  obtain ⟨hD1, hD2⟩ := kernelDivisor_bounds samples.length b hn hb1
  unfold kernelDensityEstimation
  simp only [Nat.zero_add] at hsn
  generalize samples.foldl (fun sum sample =>
    accumulate sum (expDouble (kernelArgument x sample b))) 0 = s at hs0 hsn
  generalize kernelDivisor samples.length b = D at hD1 hD2
  generalize (samples.length : ℚ) = N at hnq hsn hD1 hD2
  set C : ℚ := 5644425081792447 / 2 ^ 51 with hC
  have hCpos : 0 < C := by positivity
  have hC1 : (2 : ℚ) ≤ C := by rw [hC]; norm_num
  have hC2 : C ≤ 3 := by rw [hC]; norm_num
  have hA : 0 < N * C * b := mul_pos (mul_pos (by linarith) hCpos) hbpos
  have h51 : (0 : ℚ) < 1 - 1 / 2 ^ 51 := by norm_num
  have hDpos : 0 < D := lt_of_lt_of_le (mul_pos hA h51) hD1
  set U : ℚ := 1 / (C * b) with hU
  have hUpos : 0 < U := by rw [hU]; exact one_div_pos.mpr (mul_pos hCpos hbpos)
  have hUlow : (1 : ℚ) / 2 ^ 102 ≤ U := by
    rw [hU, div_le_div_iff₀ (by norm_num) (mul_pos hCpos hbpos)]
    have : C * b ≤ 3 * 2 ^ 100 := by nlinarith
    linarith
  have h0d := representable_zero 53 (-1074) (by norm_num)
  have h0f := representable_zero 24 (-149) (by norm_num)
  have hq0 : 0 ≤ s / D := div_nonneg hs0 hDpos.le
  refine ⟨le_toFloat_of_le _ 0 h0f (le_toDouble_of_le _ 0 h0d hq0), ?_⟩
  have hY : s / D ≤ U / (1 - 1 / 2 ^ 51) := by
    rw [div_le_div_iff₀ hDpos (by norm_num)]
    have e1 : U * (N * C * b) = N := by
      rw [hU]; field_simp; ring
    have e2 : s * (1 - 1 / 2 ^ 51) ≤ N * (1 - 1 / 2 ^ 51) :=
      mul_le_mul_of_nonneg_right hsn (by norm_num)
    have e3 : U * (N * C * b * (1 - 1 / 2 ^ 51)) ≤ U * D :=
      mul_le_mul_of_nonneg_left hD1 hUpos.le
    have e4 : U * (N * C * b * (1 - 1 / 2 ^ 51)) = N * (1 - 1 / 2 ^ 51) := by
      rw [← mul_assoc, e1]
    linarith
  set Y : ℚ := U / (1 - 1 / 2 ^ 51) with hYdef
  have hYU : U ≤ Y := by
    rw [hYdef, le_div_iff₀ (by norm_num)]
    nlinarith
  have hYpos : 0 < Y := lt_of_lt_of_le hUpos hYU
  have hd := toDouble_pos_bounds Y hYpos (le_trans (by norm_num) (le_trans hUlow hYU))
  have h1 : toDouble (s / D) ≤ Y * (1 + 1 / 2 ^ 53) :=
    le_trans (toDouble_mono _ _ hY) hd.2
  have hZpos : 0 < Y * (1 + 1 / 2 ^ 53) := mul_pos hYpos (by norm_num)
  have hZlow : (1 : ℚ) / 2 ^ 126 ≤ Y * (1 + 1 / 2 ^ 53) := by
    have : Y ≤ Y * (1 + 1 / 2 ^ 53) := by nlinarith
    exact le_trans (by norm_num) (le_trans hUlow (le_trans hYU this))
  have hf := toFloat_pos_bounds _ hZpos hZlow
  have h2 : toFloat (toDouble (s / D)) ≤ Y * (1 + 1 / 2 ^ 53) * (1 + 1 / 2 ^ 24) :=
    le_trans (toFloat_mono _ _ h1) hf.2
  have hnum : (1 + 1 / 2 ^ 53 : ℚ) * (1 + 1 / 2 ^ 24) / (1 - 1 / 2 ^ 51) ≤ 1 + 1 / 2 ^ 23 := by
    norm_num
  have e5 : Y * (1 + 1 / 2 ^ 53) * (1 + 1 / 2 ^ 24)
      = U * ((1 + 1 / 2 ^ 53 : ℚ) * (1 + 1 / 2 ^ 24) / (1 - 1 / 2 ^ 51)) := by
    rw [hYdef]; ring
  rw [e5] at h2
  exact le_trans h2 (mul_le_mul_of_nonneg_left hnum hUpos.le)

theorem kde_lt_of_bandwidth_20 (samples : List ℚ) (x : ℚ) (hs : samples ≠ []) :
    kernelDensityEstimation samples x 20 < 2 / 100 := by
  have h := (kde_le_peak samples x 20 hs (by norm_num) (by norm_num)).2
  have : (1 : ℚ) / (5644425081792447 / 2 ^ 51 * 20) * (1 + 1 / 2 ^ 23) < 2 / 100 := by norm_num
  linarith

theorem sqrtTwoPi_ge : Real.sqrt (2 * Real.pi) ≤ ((5644425081792447 / 2 ^ 51 : ℚ) : ℝ) := by
  apply Real.sqrt_le_iff.mpr
  constructor
  · positivity
  · have := Real.pi_lt_d20
    push_cast
    norm_num at this ⊢
    linarith
theorem kde_single_zero : kernelDensityEstimation [0] 0 1 = 6693141 / 16777216 := by
  have h1 : kernelArgument 0 0 1 = 0 := by decide!
  have h2 : toFloat (toDouble (toFloat (toDouble (0 + 1))
      / toDouble (toDouble (toDouble 1 * (5644425081792447 / 2 ^ 51)) * 1)))
      = 6693141 / 16777216 := by decide!
  unfold kernelDensityEstimation kernelDivisor
  simp only [List.foldl_cons, List.foldl_nil, List.length_singleton, h1, expDouble_zero,
    sqrtTwoPi_eq, accumulate, Nat.cast_one]
  exact h2

theorem peak_lt_single_zero :
    1 / (1 * Real.sqrt (2 * Real.pi)) < ((6693141 / 16777216 : ℚ) : ℝ) := by
  have hpi := Real.pi_gt_d20
  have h1 : (16777216 / 6693141 : ℝ) < Real.sqrt (2 * Real.pi) := by
    rw [Real.lt_sqrt (by norm_num)]
    have : (16777216 / 6693141 : ℝ) ^ 2 < 2 * 3.14159265358979323846 := by norm_num
    linarith
  have h2 : (0 : ℝ) < 16777216 / 6693141 := by norm_num
  rw [one_mul, one_div_lt (lt_trans h2 h1) (by push_cast; norm_num)]
  push_cast
  have e : (1 : ℝ) / (6693141 / 16777216) = 16777216 / 6693141 := by norm_num
  rw [e]
  exact h1

theorem sqrtTwoPi_le :
    ((5644425081792447 / 2 ^ 51 : ℚ) : ℝ) ≤ Real.sqrt (2 * Real.pi) * (1 + 1 / 2 ^ 44) := by
  have hpi := Real.pi_gt_d20
  have h1 : ((5644425081792447 / 2 ^ 51 : ℝ) / (1 + 1 / 2 ^ 44)) ≤ Real.sqrt (2 * Real.pi) := by
    apply Real.le_sqrt_of_sq_le
    have : ((5644425081792447 / 2 ^ 51 : ℝ) / (1 + 1 / 2 ^ 44)) ^ 2
        ≤ 2 * 3.14159265358979323846 := by norm_num
    linarith
  rw [div_le_iff₀ (by norm_num)] at h1
  push_cast
  exact h1

theorem sample_mem (samples : List ℚ) (bandwidth : ℚ) (draws : List (ℚ × ℚ)) (x : ℚ)
    (h : sampleFromKDE samples bandwidth draws = some x) :
    ∃ front back u y, samples.head? = some front ∧ samples.getLast? = some back ∧ (u, y) ∈ draws ∧
      x = kdeCandidate front back u ∧ y < kernelDensityEstimation samples x bandwidth := by
  induction draws with
  | nil => simp [sampleFromKDE] at h
  | cons d rest ih =>
    obtain ⟨u, y⟩ := d
    unfold sampleFromKDE at h
    cases hf : samples.head? with
    | none => simp [hf] at h
    | some front =>
      cases hl : samples.getLast? with
      | none => simp [hf, hl] at h
      | some back =>
        simp only [hf, hl] at h
        split_ifs at h with hy
        · injection h with h
          exact ⟨front, back, u, y, rfl, rfl, by simp, h.symm, h ▸ hy⟩
        · obtain ⟨f, b, u', y', h1, h2, h3, h4, h5⟩ := ih h
          exact ⟨f, b, u', y', by rw [← hf]; exact h1, by rw [← hl]; exact h2, by simp [h3], h4, h5⟩

theorem kdeCandidate_mono (front back u v : ℚ)
    (h : u * toFloat (back - front) ≤ v * toFloat (back - front)) :
    kdeCandidate front back u ≤ kdeCandidate front back v := by
  unfold kdeCandidate
  apply toFloat_mono
  apply toDouble_mono
  have := toDouble_mono _ _ h
  linarith

theorem kdeCandidate_zero (front back : ℚ) (hf : Representable 24 (-149) front) :
    kdeCandidate front back 0 = front := by
  unfold kdeCandidate
  rw [zero_mul, toDouble_of_representable 0 (representable_zero _ _ (by norm_num)), zero_add,
    toDouble_of_representable front (representable_float_double front hf),
    toFloat_of_representable front hf]

theorem kdeCandidate_between (front back u : ℚ) (hf : Representable 24 (-149) front)
    (hu0 : 0 ≤ u) (hu1 : u ≤ 1) :
    (front ≤ kdeCandidate front back u ∧ kdeCandidate front back u ≤ kdeCandidate front back 1)
      ∨ (kdeCandidate front back 1 ≤ kdeCandidate front back u
        ∧ kdeCandidate front back u ≤ front) := by
  rcases le_total 0 (toFloat (back - front)) with hw | hw
  · left
    constructor
    · have h := kdeCandidate_mono front back 0 u (by nlinarith)
      rwa [kdeCandidate_zero front back hf] at h
    · exact kdeCandidate_mono front back u 1 (by nlinarith)
  · right
    constructor
    · exact kdeCandidate_mono front back 1 u (by nlinarith)
    · have h := kdeCandidate_mono front back u 0 (by nlinarith)
      rwa [kdeCandidate_zero front back hf] at h

theorem kdeCandidate_end_error (front back : ℚ) (hf : Representable 24 (-149) front)
    (hb : Representable 24 (-149) back) :
    |kdeCandidate front back 1 - back| ≤ |back - front| / 2 ^ 22 := by
  have hw := toFloat_sub_error back front hb hf
  have hbd := representable_float_double back hb
  unfold kdeCandidate
  rw [one_mul, toDouble_of_representable _ (representable_float_double _ (toFloat_representable _))]
  set w := toFloat (back - front) with hwdef
  have h1 := toDouble_nearest (w + front) back hbd
  have h2 := toFloat_nearest (toDouble (w + front)) back hb
  have e1 : back - (w + front) = -(w - (back - front)) := by ring
  rw [e1, abs_neg] at h1
  have h3 : |toDouble (w + front) - back| ≤ 2 * |w - (back - front)| := by
    have : toDouble (w + front) - back
        = (toDouble (w + front) - (w + front)) + (w - (back - front)) := by ring
    rw [this]
    exact le_trans (abs_add _ _) (by linarith)
  rw [abs_sub_comm back] at h2
  have h4 : |toFloat (toDouble (w + front)) - back| ≤ 2 * |toDouble (w + front) - back| := by
    have : toFloat (toDouble (w + front)) - back
        = (toFloat (toDouble (w + front)) - toDouble (w + front))
          + (toDouble (w + front) - back) := by ring
    rw [this]
    exact le_trans (abs_add _ _) (by linarith)
  have e2 : |back - front| / 2 ^ 22 = 4 * (|back - front| / 2 ^ 24) := by ring
  rw [e2]
  linarith

theorem foldl_accumulate_ge_half (g : ℚ → ℚ) (hg : ∀ t, 0 ≤ g t) (samples : List ℚ) :
    ∀ s : ℚ, 0 ≤ s → (1 / 2 ≤ s ∨ ∃ t ∈ samples, 1 / 2 ≤ g t) →
      1 / 2 ≤ samples.foldl (fun sum sample => accumulate sum (g sample)) s := by
  have hr : Representable 24 (-149) (1 / 2) :=
    ⟨1, -1, by norm_num, by norm_num, by rw [zpow_neg, zpow_one]; norm_num⟩
  have h0 : Representable 24 (-149) 0 := representable_zero _ _ (by norm_num)
  induction samples with
  | nil =>
    intro s _ h
    rcases h with h | ⟨t, ht, -⟩
    · simpa using h
    · simp at ht
  | cons a rest ih =>
    intro s hs h
    rw [List.foldl_cons]
    have hacc0 : 0 ≤ accumulate s (g a) :=
      le_toFloat_of_le _ 0 h0 (le_toDouble_of_le _ 0 (representable_float_double _ h0)
        (add_nonneg hs (hg a)))
    apply ih _ hacc0
    by_cases hnow : 1 / 2 ≤ s ∨ 1 / 2 ≤ g a
    · left
      have : 1 / 2 ≤ s + g a := by
        rcases hnow with h1 | h1
        · linarith [hg a]
        · linarith
      exact le_toFloat_of_le _ _ hr (le_toDouble_of_le _ _ (representable_float_double _ hr) this)
    · right
      rw [not_or] at hnow
      rcases h with h | ⟨t, ht, hth⟩
      · exact absurd h hnow.1
      · rcases List.mem_cons.mp ht with rfl | ht2
        · exact absurd hth hnow.2
        · exact ⟨t, ht2, hth⟩

theorem kde_ge_of_close (samples : List ℚ) (x b t : ℚ) (ht : t ∈ samples)
    (harg : -(1 / 2) ≤ kernelArgument x t b)
    (hD0 : 0 < kernelDivisor samples.length b)
    (hD : kernelDivisor samples.length b ≤ 2 ^ 20) :
    1 / 2 ^ 21 ≤ kernelDensityEstimation samples x b := by
  have hsum := foldl_accumulate_ge_half (fun sample => expDouble (kernelArgument x sample b))
    (fun t => expDouble_nonneg _) samples 0 (le_refl _)
    (Or.inr ⟨t, ht, expDouble_ge_half _ harg⟩)
  have hr : Representable 24 (-149) (1 / 2 ^ 21) :=
    ⟨1, -21, by norm_num, by norm_num, by rw [zpow_neg]; norm_num⟩
  unfold kernelDensityEstimation
  refine le_toFloat_of_le _ _ hr (le_toDouble_of_le _ _ (representable_float_double _ hr) ?_)
  rw [le_div_iff₀ hD0]
  calc 1 / 2 ^ 21 * kernelDivisor samples.length b ≤ 1 / 2 ^ 21 * 2 ^ 20 :=
        mul_le_mul_of_nonneg_left hD (by positivity)
    _ = 1 / 2 := by norm_num
    _ ≤ _ := hsum
theorem isFloat_representable (v : ℚ) (h : isFloat v) : Representable 24 (-149) v := by
  have := toFloat_representable v
  rwa [h.1] at this

theorem kde_pos_of_close (samples : List ℚ) (x b t : ℚ) (ht : t ∈ samples)
    (harg : -(1 / 2) ≤ kernelArgument x t b) (hb1 : 1 / 2 ^ 100 ≤ b)
    (hnb : (samples.length : ℚ) * b ≤ 2 ^ 18) :
    0 < kernelDensityEstimation samples x b := by
  have hn : 1 ≤ samples.length := List.length_pos.mpr (List.ne_nil_of_mem ht)
  have hnq : (1 : ℚ) ≤ (samples.length : ℚ) := by exact_mod_cast hn
  have hbpos : 0 < b := lt_of_lt_of_le (by positivity) hb1
  obtain ⟨hD1, hD2⟩ := kernelDivisor_bounds samples.length b hn hb1
  have hA : 0 < (samples.length : ℚ) * (5644425081792447 / 2 ^ 51) * b :=
    mul_pos (mul_pos (by linarith) (by norm_num)) hbpos
  have hD0 : 0 < kernelDivisor samples.length b :=
    lt_of_lt_of_le (mul_pos hA (by norm_num)) hD1
  have hD : kernelDivisor samples.length b ≤ 2 ^ 20 := by
    refine le_trans hD2 ?_
    have e : (samples.length : ℚ) * (5644425081792447 / 2 ^ 51) * b * (1 + 1 / 2 ^ 51)
        = (samples.length : ℚ) * b * (5644425081792447 / 2 ^ 51 * (1 + 1 / 2 ^ 51)) := by ring
    rw [e]
    calc (samples.length : ℚ) * b * (5644425081792447 / 2 ^ 51 * (1 + 1 / 2 ^ 51))
        ≤ 2 ^ 18 * (5644425081792447 / 2 ^ 51 * (1 + 1 / 2 ^ 51)) :=
          mul_le_mul_of_nonneg_right hnb (by norm_num)
      _ ≤ 2 ^ 20 := by norm_num
  exact lt_of_lt_of_le (by positivity) (kde_ge_of_close samples x b t ht harg hD0 hD)

/-! ## Lemmas: the delay of line 139 -/

set_option exponentiation.threshold 2000 in
theorem delayMs_accepts (frequency a b : Int) (hf : 0 < frequency) (hf63 : frequency < 2 ^ 63)
    (h : (b - a) * 1000 ≤ 150 * frequency) : delayMs frequency a b ≤ 150 := by
  unfold delayMs
  have hrep0 : Representable 53 (-1074) 0 := ⟨0, 0, by norm_num, by norm_num, by simp⟩
  have hfq : (1 : ℚ) ≤ (frequency : ℚ) := by exact_mod_cast hf
  have hfq63 : (frequency : ℚ) < 2 ^ 63 := by exact_mod_cast hf63
  have hd3 := toDouble_pos_bounds (frequency : ℚ) (by linarith)
    (le_trans (by norm_num) hfq)
  have hd3pos : 0 < toDouble (frequency : ℚ) := by nlinarith [hd3.1]
  have hmid : toFloat (150 + 1 / 2 ^ 17) = 150 := by decide!
  rw [← hmid]
  apply toFloat_mono
  by_cases hneg : b - a ≤ 0
  · have h1 : toDouble ((b - a : Int) : ℚ) ≤ 0 :=
      toDouble_le_of_le _ 0 hrep0 (by exact_mod_cast hneg)
    have h2 : toDouble (toDouble ((b - a : Int) : ℚ) * 1000) ≤ 0 :=
      toDouble_le_of_le _ 0 hrep0 (by nlinarith)
    have h3 : toDouble (toDouble (toDouble ((b - a : Int) : ℚ) * 1000)
        / toDouble (frequency : ℚ)) ≤ 0 :=
      toDouble_le_of_le _ 0 hrep0 (div_nonpos_of_nonpos_of_nonneg h2 hd3pos.le)
    linarith
  · have hpos : (1 : ℚ) ≤ ((b - a : Int) : ℚ) := by
      have : 1 ≤ b - a := by omega
      exact_mod_cast this
    have hq : ((b - a : Int) : ℚ) * 1000 ≤ 150 * (frequency : ℚ) := by exact_mod_cast h
    generalize ((b - a : Int) : ℚ) = D at hpos hq ⊢
    generalize (frequency : ℚ) = F at hfq hfq63 hd3 hd3pos hq ⊢
    have hd1 := toDouble_pos_bounds D (by linarith) (le_trans (by norm_num) hpos)
    have hd1pos : 0 < toDouble D := by nlinarith [hd1.1]
    have hd2 := toDouble_pos_bounds (toDouble D * 1000) (by positivity)
      (le_trans (by norm_num) (by nlinarith [hd1.1] : (1 : ℚ) ≤ toDouble D * 1000))
    have hd2pos : 0 < toDouble (toDouble D * 1000) := by nlinarith [hd2.1]
    have hquot : toDouble (toDouble D * 1000) / toDouble F
        ≤ 150 * ((1 + 1 / 2 ^ 53) ^ 2 / (1 - 1 / 2 ^ 53)) := by
      rw [div_le_iff₀ hd3pos]
      have e1 : toDouble (toDouble D * 1000) ≤ D * 1000 * (1 + 1 / 2 ^ 53) ^ 2 := by
        nlinarith [hd2.2, hd1.2]
      have e2 : 150 * ((1 + 1 / 2 ^ 53) ^ 2 / (1 - 1 / 2 ^ 53)) * (F * (1 - 1 / 2 ^ 53))
          = 150 * F * (1 + 1 / 2 ^ 53) ^ 2 := by
        field_simp
        ring
      have e3 : 150 * ((1 + 1 / 2 ^ 53) ^ 2 / (1 - 1 / 2 ^ 53)) * (F * (1 - 1 / 2 ^ 53))
          ≤ 150 * ((1 + 1 / 2 ^ 53) ^ 2 / (1 - 1 / 2 ^ 53)) * toDouble F :=
        mul_le_mul_of_nonneg_left hd3.1 (by positivity)
      have e4 : D * 1000 * (1 + 1 / 2 ^ 53) ^ 2 ≤ 150 * F * (1 + 1 / 2 ^ 53) ^ 2 :=
        mul_le_mul_of_nonneg_right hq (by positivity)
      linarith
    have hqpos : 0 < toDouble (toDouble D * 1000) / toDouble F := div_pos hd2pos hd3pos
    have hnormal : (1 : ℚ) / 2 ^ 1022 ≤ toDouble (toDouble D * 1000) / toDouble F := by
      rw [le_div_iff₀ hd3pos]
      have : toDouble F ≤ 2 ^ 64 := by nlinarith [hd3.2]
      have : (1 : ℚ) ≤ toDouble (toDouble D * 1000) := by nlinarith [hd2.1, hd1.1]
      have h3 : (1 : ℚ) / 2 ^ 1022 * toDouble F ≤ 1 / 2 ^ 1022 * 2 ^ 64 :=
        mul_le_mul_of_nonneg_left (by assumption) (by positivity)
      have h4 : (1 : ℚ) / 2 ^ 1022 * 2 ^ 64 ≤ 1 := by norm_num
      linarith
    have hd4 := toDouble_pos_bounds _ hqpos hnormal
    have hfin : 150 * ((1 + 1 / 2 ^ 53) ^ 2 / (1 - 1 / 2 ^ 53)) * (1 + 1 / 2 ^ 53)
        ≤ (150 : ℚ) + 1 / 2 ^ 17 := by norm_num
    have := mul_le_mul_of_nonneg_right hquot (by positivity : (0 : ℚ) ≤ 1 + 1 / 2 ^ 53)
    linarith [hd4.2]

set_option exponentiation.threshold 2000 in
theorem delayMs_rejects (frequency a b : Int) (hf : 0 < frequency) (hf63 : frequency < 2 ^ 63)
    (h : (150 + 1 / 2 ^ 16) * (frequency : ℚ) < ((b - a : Int) : ℚ) * 1000) :
    150 < delayMs frequency a b := by
  unfold delayMs
  have hfq : (1 : ℚ) ≤ (frequency : ℚ) := by exact_mod_cast hf
  have hfq63 : (frequency : ℚ) < 2 ^ 63 := by exact_mod_cast hf63
  have hd3 := toDouble_pos_bounds (frequency : ℚ) (by linarith)
    (le_trans (by norm_num) hfq)
  have hd3pos : 0 < toDouble (frequency : ℚ) := by nlinarith [hd3.1]
  have hmid : toFloat (150 + 1 / 2 ^ 17 + 1 / 2 ^ 40) = 150 + 1 / 2 ^ 16 := by decide!
  have hpos : (1 : ℚ) ≤ ((b - a : Int) : ℚ) := by
    have h0 : (0 : ℚ) < ((b - a : Int) : ℚ) := by nlinarith
    have : 0 < b - a := by exact_mod_cast h0
    have : 1 ≤ b - a := by omega
    exact_mod_cast this
  generalize ((b - a : Int) : ℚ) = D at hpos h ⊢
  generalize (frequency : ℚ) = F at hfq hfq63 hd3 hd3pos h ⊢
  have hd1 := toDouble_pos_bounds D (by linarith) (le_trans (by norm_num) hpos)
  have hd1pos : 0 < toDouble D := by nlinarith [hd1.1]
  have hd2 := toDouble_pos_bounds (toDouble D * 1000) (by positivity)
    (le_trans (by norm_num) (by nlinarith [hd1.1] : (1 : ℚ) ≤ toDouble D * 1000))
  have hd2pos : 0 < toDouble (toDouble D * 1000) := by nlinarith [hd2.1]
  have hquot : (150 + 1 / 2 ^ 16) * ((1 - 1 / 2 ^ 53) ^ 2 / (1 + 1 / 2 ^ 53))
      ≤ toDouble (toDouble D * 1000) / toDouble F := by
    rw [le_div_iff₀ hd3pos]
    have e1 : D * 1000 * (1 - 1 / 2 ^ 53) ^ 2 ≤ toDouble (toDouble D * 1000) := by
      nlinarith [hd2.1, hd1.1]
    have e2 : (150 + 1 / 2 ^ 16) * ((1 - 1 / 2 ^ 53) ^ 2 / (1 + 1 / 2 ^ 53))
          * (F * (1 + 1 / 2 ^ 53))
        = (150 + 1 / 2 ^ 16) * F * (1 - 1 / 2 ^ 53) ^ 2 := by
      field_simp
      ring
    have e3 : (150 + 1 / 2 ^ 16) * ((1 - 1 / 2 ^ 53) ^ 2 / (1 + 1 / 2 ^ 53)) * toDouble F
        ≤ (150 + 1 / 2 ^ 16) * ((1 - 1 / 2 ^ 53) ^ 2 / (1 + 1 / 2 ^ 53))
          * (F * (1 + 1 / 2 ^ 53)) :=
      mul_le_mul_of_nonneg_left hd3.2 (by positivity)
    have e4 : (150 + 1 / 2 ^ 16) * F * (1 - 1 / 2 ^ 53) ^ 2
        ≤ D * 1000 * (1 - 1 / 2 ^ 53) ^ 2 :=
      mul_le_mul_of_nonneg_right h.le (by positivity)
    linarith
  have hqpos : 0 < toDouble (toDouble D * 1000) / toDouble F := div_pos hd2pos hd3pos
  have hnormal : (1 : ℚ) / 2 ^ 1022 ≤ toDouble (toDouble D * 1000) / toDouble F := by
    rw [le_div_iff₀ hd3pos]
    have : toDouble F ≤ 2 ^ 64 := by nlinarith [hd3.2]
    have : (1 : ℚ) ≤ toDouble (toDouble D * 1000) := by nlinarith [hd2.1, hd1.1]
    have h3 : (1 : ℚ) / 2 ^ 1022 * toDouble F ≤ 1 / 2 ^ 1022 * 2 ^ 64 :=
      mul_le_mul_of_nonneg_left (by assumption) (by positivity)
    have h4 : (1 : ℚ) / 2 ^ 1022 * 2 ^ 64 ≤ 1 := by norm_num
    linarith
  have hd4 := toDouble_pos_bounds _ hqpos hnormal
  have hfin : (150 : ℚ) + 1 / 2 ^ 17 + 1 / 2 ^ 40
      ≤ (150 + 1 / 2 ^ 16) * ((1 - 1 / 2 ^ 53) ^ 2 / (1 + 1 / 2 ^ 53)) * (1 - 1 / 2 ^ 53) := by
    norm_num
  have hstep := mul_le_mul_of_nonneg_right hquot (by norm_num : (0 : ℚ) ≤ 1 - 1 / 2 ^ 53)
  have hge : (150 : ℚ) + 1 / 2 ^ 17 + 1 / 2 ^ 40
      ≤ toDouble (toDouble (toDouble D * 1000) / toDouble F) := by linarith [hd4.1]
  have := toFloat_mono _ _ hge
  rw [hmid] at this
  have h150 : (150 : ℚ) < 150 + 1 / 2 ^ 16 := by norm_num
  linarith
set_option exponentiation.threshold 2000 in
theorem delayMs_near (frequency a b : Int) (hf : 0 < frequency) (hf63 : frequency < 2 ^ 63)
    (hab : a ≤ b) :
    |delayMs frequency a b - ((b - a : Int) : ℚ) * 1000 / (frequency : ℚ)|
      ≤ ((b - a : Int) : ℚ) * 1000 / (frequency : ℚ) / 2 ^ 23 := by
  have hrep0 : Representable 53 (-1074) 0 := ⟨0, 0, by norm_num, by norm_num, by simp⟩
  have hrep0f : Representable 24 (-149) 0 := ⟨0, 0, by norm_num, by norm_num, by simp⟩
  rcases eq_or_lt_of_le hab with heq | hlt
  · have e : b - a = 0 := by omega
    unfold delayMs
    rw [e]
    simp [toDouble_of_representable 0 hrep0, toFloat_of_representable 0 hrep0f]
  unfold delayMs
  have hfq : (1 : ℚ) ≤ (frequency : ℚ) := by exact_mod_cast hf
  have hfq63 : (frequency : ℚ) < 2 ^ 63 := by exact_mod_cast hf63
  have hd3 := toDouble_pos_bounds (frequency : ℚ) (by linarith)
    (le_trans (by norm_num) hfq)
  have hd3pos : 0 < toDouble (frequency : ℚ) := by nlinarith [hd3.1]
  have hpos : (1 : ℚ) ≤ ((b - a : Int) : ℚ) := by
    have : 1 ≤ b - a := by omega
    exact_mod_cast this
  generalize ((b - a : Int) : ℚ) = D at hpos ⊢
  generalize (frequency : ℚ) = F at hfq hfq63 hd3 hd3pos ⊢
  have hFpos : 0 < F := by linarith
  have hd1 := toDouble_pos_bounds D (by linarith) (le_trans (by norm_num) hpos)
  have hd1pos : 0 < toDouble D := by nlinarith [hd1.1]
  have hd2 := toDouble_pos_bounds (toDouble D * 1000) (by positivity)
    (le_trans (by norm_num) (by nlinarith [hd1.1] : (1 : ℚ) ≤ toDouble D * 1000))
  have hd2pos : 0 < toDouble (toDouble D * 1000) := by nlinarith [hd2.1]
  set E : ℚ := D * 1000 / F with hE
  have hEpos : 0 < E := by rw [hE]; positivity
  have hEF : E * F = D * 1000 := by rw [hE]; field_simp
  have hup : toDouble (toDouble D * 1000) / toDouble F
      ≤ E * ((1 + 1 / 2 ^ 53) ^ 2 / (1 - 1 / 2 ^ 53)) := by
    rw [div_le_iff₀ hd3pos]
    have e1 : toDouble (toDouble D * 1000) ≤ D * 1000 * (1 + 1 / 2 ^ 53) ^ 2 := by
      nlinarith [hd2.2, hd1.2]
    have e2 : E * ((1 + 1 / 2 ^ 53) ^ 2 / (1 - 1 / 2 ^ 53)) * (F * (1 - 1 / 2 ^ 53))
        = D * 1000 * (1 + 1 / 2 ^ 53) ^ 2 := by
      rw [← hEF]; field_simp; ring
    have e3 : E * ((1 + 1 / 2 ^ 53) ^ 2 / (1 - 1 / 2 ^ 53)) * (F * (1 - 1 / 2 ^ 53))
        ≤ E * ((1 + 1 / 2 ^ 53) ^ 2 / (1 - 1 / 2 ^ 53)) * toDouble F :=
      mul_le_mul_of_nonneg_left hd3.1 (by positivity)
    linarith
  have hlo : E * ((1 - 1 / 2 ^ 53) ^ 2 / (1 + 1 / 2 ^ 53))
      ≤ toDouble (toDouble D * 1000) / toDouble F := by
    rw [le_div_iff₀ hd3pos]
    have e1 : D * 1000 * (1 - 1 / 2 ^ 53) ^ 2 ≤ toDouble (toDouble D * 1000) := by
      nlinarith [hd2.1, hd1.1]
    have e2 : E * ((1 - 1 / 2 ^ 53) ^ 2 / (1 + 1 / 2 ^ 53)) * (F * (1 + 1 / 2 ^ 53))
        = D * 1000 * (1 - 1 / 2 ^ 53) ^ 2 := by
      rw [← hEF]; field_simp; ring
    have e3 : E * ((1 - 1 / 2 ^ 53) ^ 2 / (1 + 1 / 2 ^ 53)) * toDouble F
        ≤ E * ((1 - 1 / 2 ^ 53) ^ 2 / (1 + 1 / 2 ^ 53)) * (F * (1 + 1 / 2 ^ 53)) :=
      mul_le_mul_of_nonneg_left hd3.2 (by positivity)
    linarith
  have hEbig : (1 : ℚ) / 2 ^ 60 ≤ E := by
    rw [hE, le_div_iff₀ hFpos]
    have h1 : (1 : ℚ) / 2 ^ 60 * F ≤ 1 / 2 ^ 60 * 2 ^ 63 :=
      mul_le_mul_of_nonneg_left hfq63.le (by positivity)
    have h2 : (1 : ℚ) / 2 ^ 60 * 2 ^ 63 = 8 := by norm_num
    linarith
  set q := toDouble (toDouble D * 1000) / toDouble F with hq
  have hqlow : (1 : ℚ) / 2 ^ 61 ≤ q := by
    have h1 : (1 : ℚ) / 2 ≤ (1 - 1 / 2 ^ 53) ^ 2 / (1 + 1 / 2 ^ 53) := by norm_num
    have h2 : E * (1 / 2) ≤ E * ((1 - 1 / 2 ^ 53) ^ 2 / (1 + 1 / 2 ^ 53)) :=
      mul_le_mul_of_nonneg_left h1 hEpos.le
    have h3 : (1 : ℚ) / 2 ^ 61 = 1 / 2 ^ 60 * (1 / 2) := by norm_num
    have h4 : (1 : ℚ) / 2 ^ 60 * (1 / 2) ≤ E * (1 / 2) :=
      mul_le_mul_of_nonneg_right hEbig (by norm_num)
    rw [h3]
    exact le_trans h4 (le_trans h2 hlo)
  have hqpos : 0 < q := lt_of_lt_of_le (by positivity) hqlow
  have hd4 := toDouble_pos_bounds q hqpos (le_trans (by norm_num) hqlow)
  have hq4low : (1 : ℚ) / 2 ^ 62 ≤ toDouble q := by
    have h1 : q * (1 / 2) ≤ q * (1 - 1 / 2 ^ 53) :=
      mul_le_mul_of_nonneg_left (by norm_num) hqpos.le
    have h3 : (1 : ℚ) / 2 ^ 62 = 1 / 2 ^ 61 * (1 / 2) := by norm_num
    have h4 : (1 : ℚ) / 2 ^ 61 * (1 / 2) ≤ q * (1 / 2) :=
      mul_le_mul_of_nonneg_right hqlow (by norm_num)
    rw [h3]
    exact le_trans h4 (le_trans h1 hd4.1)
  have hq4pos : 0 < toDouble q := lt_of_lt_of_le (by positivity) hq4low
  have hd5 := toFloat_pos_bounds (toDouble q) hq4pos (le_trans (by norm_num) hq4low)
  have hU : toFloat (toDouble q)
      ≤ E * ((1 + 1 / 2 ^ 53) ^ 2 / (1 - 1 / 2 ^ 53) * (1 + 1 / 2 ^ 53) * (1 + 1 / 2 ^ 24)) := by
    have h1 : toDouble q * (1 + 1 / 2 ^ 24)
        ≤ q * (1 + 1 / 2 ^ 53) * (1 + 1 / 2 ^ 24) :=
      mul_le_mul_of_nonneg_right hd4.2 (by norm_num)
    have h2 : q * ((1 + 1 / 2 ^ 53) * (1 + 1 / 2 ^ 24))
        ≤ E * ((1 + 1 / 2 ^ 53) ^ 2 / (1 - 1 / 2 ^ 53)) * ((1 + 1 / 2 ^ 53) * (1 + 1 / 2 ^ 24)) :=
      mul_le_mul_of_nonneg_right hup (by norm_num)
    linarith [hd5.2]
  have hL : E * ((1 - 1 / 2 ^ 53) ^ 2 / (1 + 1 / 2 ^ 53) * (1 - 1 / 2 ^ 53) * (1 - 1 / 2 ^ 24))
      ≤ toFloat (toDouble q) := by
    have h1 : q * (1 - 1 / 2 ^ 53) * (1 - 1 / 2 ^ 24)
        ≤ toDouble q * (1 - 1 / 2 ^ 24) :=
      mul_le_mul_of_nonneg_right hd4.1 (by norm_num)
    have h2 : E * ((1 - 1 / 2 ^ 53) ^ 2 / (1 + 1 / 2 ^ 53)) * ((1 - 1 / 2 ^ 53) * (1 - 1 / 2 ^ 24))
        ≤ q * ((1 - 1 / 2 ^ 53) * (1 - 1 / 2 ^ 24)) :=
      mul_le_mul_of_nonneg_right hlo (by norm_num)
    linarith [hd5.1]
  have hcU : (1 + 1 / 2 ^ 53 : ℚ) ^ 2 / (1 - 1 / 2 ^ 53) * (1 + 1 / 2 ^ 53) * (1 + 1 / 2 ^ 24)
      ≤ 1 + 1 / 2 ^ 23 := by norm_num
  have hcL : (1 : ℚ) - 1 / 2 ^ 23
      ≤ (1 - 1 / 2 ^ 53) ^ 2 / (1 + 1 / 2 ^ 53) * (1 - 1 / 2 ^ 53) * (1 - 1 / 2 ^ 24) := by
    norm_num
  have hU2 := le_trans hU (mul_le_mul_of_nonneg_left hcU hEpos.le)
  have hL2 := le_trans (mul_le_mul_of_nonneg_left hcL hEpos.le) hL
  rw [abs_le]
  constructor <;> linarith

/-! ## Lemmas: a value written and read back -/

theorem significand_half_unit (a : ℚ) (ha : 0 < a) :
    |((significand a).1 : ℚ) * 10 ^ ((significand a).2 - 5) - a|
      ≤ 10 ^ ((significand a).2 - 5) / 2 := by
  obtain ⟨hlo, hhi⟩ := decimalExponent_spec a ha
  have h10 : (10 : ℚ) ≠ 0 := by norm_num
  set e := decimalExponent a with he
  set t : ℚ := 10 ^ (e - 5) with ht
  have htpos : 0 < t := by positivity
  have e1 : (10 : ℚ) ^ (5 - e) = t⁻¹ := by
    rw [ht, ← zpow_neg]; congr 1; ring
  have e2 : (10 : ℚ) ^ e = 10 ^ 5 * t := by
    rw [ht, zpow_sub₀ h10]; norm_num; field_simp
  have e3 : (10 : ℚ) ^ (e + 1) = 10 ^ 6 * t := by
    rw [zpow_add_one₀ h10, e2]; ring
  have e4 : (10 : ℚ) ^ (e + 1 - 5) = 10 * t := by
    rw [ht, show e + 1 - 5 = (e - 5) + 1 by ring, zpow_add_one₀ h10]; ring
  rw [e2] at hlo
  rw [e3] at hhi
  have hs1 : ((10 ^ 5 : ℤ) : ℚ) ≤ a * t⁻¹ := by
    push_cast
    rw [le_mul_inv_iff₀ htpos]
    exact hlo
  have hs2 : a * t⁻¹ < ((10 ^ 6 : ℤ) : ℚ) := by
    push_cast
    rw [mul_inv_lt_iff₀ htpos]
    exact hhi
  obtain ⟨hr1, hr2⟩ := roundHalfEven_mono_int _ _ _ hs1 hs2
  have hr := roundHalfEven_spec (a * t⁻¹)
  unfold significand
  simp only [← he, e1]
  set r := roundHalfEven (a * t⁻¹) with hrdef
  have hrnat : ((r.toNat : ℕ) : ℤ) = r := Int.toNat_of_nonneg (by omega)
  have hrq : ((r.toNat : ℕ) : ℚ) = (r : ℚ) := by exact_mod_cast hrnat
  have hbound : |(r : ℚ) * t - a| ≤ t / 2 := by
    have : (r : ℚ) * t - a = ((r : ℚ) - a * t⁻¹) * t := by field_simp
    rw [this, abs_mul, abs_of_pos htpos]
    calc |(r : ℚ) - a * t⁻¹| * t ≤ 1 / 2 * t := by
          exact mul_le_mul_of_nonneg_right hr htpos.le
      _ = t / 2 := by ring
  by_cases hm : r.toNat = 10 ^ 6
  · simp only [hm, if_true, e4]
    have hr6 : (r : ℚ) = 10 ^ 6 := by rw [← hrq, hm]; norm_num
    rw [hr6] at hbound
    have : ((10 ^ 5 : ℕ) : ℚ) * (10 * t) = 10 ^ 6 * t := by push_cast; ring
    rw [this]
    refine le_trans hbound ?_
    linarith
  · simp only [hm, if_false]
    rw [hrq, ← ht]
    exact hbound

theorem roundSix_abs (v : ℚ) (hv : v ≠ 0) :
    |roundSix v| = ((significand |v|).1 : ℚ) * 10 ^ ((significand |v|).2 - 5) := by
  have hnn : (0 : ℚ) ≤ ((significand |v|).1 : ℚ) * 10 ^ ((significand |v|).2 - 5) := by
    positivity
  unfold roundSix
  simp only [hv, if_false]
  by_cases hn : v < 0
  · simp only [hn, if_true]
    rw [mul_assoc, neg_one_mul, abs_neg, abs_of_nonneg hnn]
  · simp only [hn, if_false]
    rw [mul_assoc, one_mul, abs_of_nonneg hnn]

theorem roundSix_le_maxFloat (v : ℚ) (h : |v| ≤ maxFloat) : |roundSix v| ≤ maxFloat := by
  by_cases hv : v = 0
  · rw [hv]
    have : roundSix 0 = 0 := by simp [roundSix]
    rw [this, abs_zero]
    unfold maxFloat
    norm_num
  have ha : 0 < |v| := abs_pos.mpr hv
  rw [roundSix_abs v hv]
  obtain ⟨hm1, hm2, hrel⟩ := significand_spec |v| ha
  have hhalf := significand_half_unit |v| ha
  generalize |v| = a at h ha hm1 hm2 hrel hhalf
  generalize significand a = p at hm1 hm2 hrel hhalf
  obtain ⟨m, X⟩ := p
  simp only at hm1 hm2 hrel hhalf ⊢
  have hmq1 : (10 : ℚ) ^ 5 ≤ (m : ℚ) := by exact_mod_cast hm1
  have hmq2 : (m : ℚ) < 10 ^ 6 := by exact_mod_cast hm2
  have h10 : (10 : ℚ) ≠ 0 := by norm_num
  have hu : (0 : ℚ) < 10 ^ (X - 5) := by positivity
  by_contra hcon
  rw [not_le] at hcon
  have hmax : maxFloat = 340282346638528859811704183484516925440 := by
    unfold maxFloat; norm_num
  rw [hmax] at h hcon
  have hr1 : (m : ℚ) * 10 ^ (X - 5) ≤ a + a * (5 / 10 ^ 6) := by
    have := (abs_le.mp hrel).2
    linarith
  have hX1 : X < 39 := by
    have h1 : (10 : ℚ) ^ X = 10 ^ 5 * 10 ^ (X - 5) := by
      rw [zpow_sub₀ h10]; norm_num; field_simp
    have h2 : (10 : ℚ) ^ X < 10 ^ (39 : Int) := by
      have h3 : (10 : ℚ) ^ 5 * 10 ^ (X - 5) ≤ (m : ℚ) * 10 ^ (X - 5) :=
        mul_le_mul_of_nonneg_right hmq1 hu.le
      have h4 : ((10 : ℚ) ^ (39 : Int)) = 10 ^ 39 := by norm_cast
      rw [h1, h4]
      nlinarith
    exact (zpow_lt_zpow_iff_right₀ (by norm_num : (1 : ℚ) < 10)).mp h2
  have hX2 : 38 ≤ X := by
    have h1 : (10 : ℚ) ^ (X + 1) = 10 ^ 6 * 10 ^ (X - 5) := by
      rw [zpow_sub₀ h10, zpow_add_one₀ h10]; norm_num; field_simp; ring
    have h2 : (10 : ℚ) ^ (38 : Int) < 10 ^ (X + 1) := by
      have h3 : (m : ℚ) * 10 ^ (X - 5) < 10 ^ 6 * 10 ^ (X - 5) :=
        mul_lt_mul_of_pos_right hmq2 hu
      have h4 : ((10 : ℚ) ^ (38 : Int)) = 10 ^ 38 := by norm_cast
      rw [h1, h4]
      linarith
    have := (zpow_lt_zpow_iff_right₀ (by norm_num : (1 : ℚ) < 10)).mp h2
    omega
  have hX : X = 38 := by omega
  subst hX
  have e33 : ((10 : ℚ) ^ ((38 : Int) - 5)) = 10 ^ 33 := by norm_num
  rw [e33] at hhalf hcon
  have hup : (m : ℚ) * 10 ^ 33 ≤ a + 10 ^ 33 / 2 := by
    have := (abs_le.mp hhalf).2
    linarith
  have hm3 : m < 340283 := by
    by_contra hge
    rw [not_lt] at hge
    have : (340283 : ℚ) ≤ (m : ℚ) := by exact_mod_cast hge
    nlinarith
  have hm4 : (m : ℚ) ≤ 340282 := by
    have : m ≤ 340282 := by omega
    exact_mod_cast this
  nlinarith

theorem representable_maxFloat : Representable 24 (-149) maxFloat :=
  ⟨2 ^ 24 - 1, 104, by norm_num, by norm_num, by unfold maxFloat; norm_num⟩

theorem representable_neg (p : Nat) (emin : Int) (f : ℚ) (h : Representable p emin f) :
    Representable p emin (-f) := by
  obtain ⟨M, k, hk, hM, rfl⟩ := h
  exact ⟨-M, k, hk, by rwa [abs_neg], by push_cast; ring⟩

theorem reload_isFloat (v : ℚ) (h : isFloat v) : isFloat (reload v) := by
  have hr := abs_le.mp (roundSix_le_maxFloat v h.2)
  have hmf := representable_maxFloat
  have hmn := representable_neg _ _ _ hmf
  unfold reload
  refine ⟨toFloat_of_representable _ (toFloat_representable _), abs_le.mpr ⟨?_, ?_⟩⟩
  · exact le_toFloat_of_le _ _ hmn
      (le_toDouble_of_le _ _ (representable_float_double _ hmn) hr.1)
  · exact toFloat_le_of_le _ _ hmf
      (toDouble_le_of_le _ _ (representable_float_double _ hmf) hr.2)

theorem reload_close (v : ℚ) (h : isFloat v) : |reload v - v| ≤ |v| * (2 / 10 ^ 5) := by
  have hrv := isFloat_representable v h
  have h1 := roundSix_close v
  have h2 := toDouble_nearest (roundSix v) v (representable_float_double v hrv)
  have h3 := toFloat_nearest (toDouble (roundSix v)) v hrv
  rw [abs_sub_comm v] at h2 h3
  unfold reload
  have h4 : |toDouble (roundSix v) - v| ≤ 2 * |roundSix v - v| := by
    have : toDouble (roundSix v) - v
        = (toDouble (roundSix v) - roundSix v) + (roundSix v - v) := by ring
    rw [this]
    exact le_trans (abs_add _ _) (by linarith)
  have h5 : |toFloat (toDouble (roundSix v)) - v| ≤ 2 * |toDouble (roundSix v) - v| := by
    have : toFloat (toDouble (roundSix v)) - v
        = (toFloat (toDouble (roundSix v)) - toDouble (roundSix v))
          + (toDouble (roundSix v) - v) := by ring
    rw [this]
    exact le_trans (abs_add _ _) (by linarith)
  linarith

theorem reload_close_normal (v : ℚ) (hn : 1 / 2 ^ 125 ≤ |v|) :
    |reload v - v| ≤ |v| * (51 / 10 ^ 7) := by
  have h1 := roundSix_close v
  set a := |v| with ha
  have hapos : 0 < a := lt_of_lt_of_le (by positivity) hn
  set r := roundSix v with hr
  have hr1 : |r| ≤ a * (1 + 5 / 10 ^ 6) := by
    have : |r| ≤ |r - v| + |v| := by
      have := abs_add (r - v) v
      simpa using this
    linarith
  have hr2 : a * (1 - 5 / 10 ^ 6) ≤ |r| := by
    have : |v| ≤ |v - r| + |r| := by
      have := abs_add (v - r) r
      simpa using this
    rw [abs_sub_comm v r] at this
    linarith
  have hrn : (1 : ℚ) / 2 ^ 126 ≤ |r| := by
    have h0 : (1 : ℚ) / 2 ^ 125 * (1 - 5 / 10 ^ 6) ≤ a * (1 - 5 / 10 ^ 6) :=
      mul_le_mul_of_nonneg_right hn (by norm_num)
    have h00 : (1 : ℚ) / 2 ^ 126 ≤ 1 / 2 ^ 125 * (1 - 5 / 10 ^ 6) := by norm_num
    linarith
  have hd := toDouble_rel_error r (le_trans (by norm_num) hrn)
  set d := toDouble r with hdd
  have hd1 : |d| ≤ |r| * (1 + 1 / 2 ^ 53) := by
    have : |d| ≤ |d - r| + |r| := by
      have := abs_add (d - r) r
      simpa using this
    linarith
  have hd2 : |r| * (1 - 1 / 2 ^ 53) ≤ |d| := by
    have : |r| ≤ |r - d| + |d| := by
      have := abs_add (r - d) d
      simpa using this
    rw [abs_sub_comm r d] at this
    linarith
  have hdn : (1 : ℚ) / 2 ^ 126 ≤ |d| := by
    have h0 : a * (1 - 5 / 10 ^ 6) * (1 - 1 / 2 ^ 53) ≤ |r| * (1 - 1 / 2 ^ 53) :=
      mul_le_mul_of_nonneg_right hr2 (by norm_num)
    have h01 : (1 : ℚ) / 2 ^ 125 * ((1 - 5 / 10 ^ 6) * (1 - 1 / 2 ^ 53))
        ≤ a * ((1 - 5 / 10 ^ 6) * (1 - 1 / 2 ^ 53)) :=
      mul_le_mul_of_nonneg_right hn (by norm_num)
    have h00 : (1 : ℚ) / 2 ^ 126 ≤ 1 / 2 ^ 125 * ((1 - 5 / 10 ^ 6) * (1 - 1 / 2 ^ 53)) := by
      norm_num
    linarith
  have hf := toFloat_rel_error d hdn
  have hsum : |toFloat d - v| ≤ |toFloat d - d| + |d - r| + |r - v| := by
    have e : toFloat d - v = (toFloat d - d) + (d - r) + (r - v) := by ring
    rw [e]
    exact le_trans (abs_add _ _) (add_le_add_right (abs_add _ _) _)
  have hb1 : |d - r| ≤ a * ((1 + 5 / 10 ^ 6) / 2 ^ 53) := by
    have : |r| / 2 ^ 53 ≤ a * (1 + 5 / 10 ^ 6) / 2 ^ 53 :=
      div_le_div_of_nonneg_right hr1 (by positivity)
    have e : a * ((1 + 5 / 10 ^ 6) / 2 ^ 53) = a * (1 + 5 / 10 ^ 6) / 2 ^ 53 := by ring
    linarith
  have hb2 : |toFloat d - d| ≤ a * ((1 + 5 / 10 ^ 6) * (1 + 1 / 2 ^ 53) / 2 ^ 24) := by
    have h0 : |r| * (1 + 1 / 2 ^ 53) ≤ a * (1 + 5 / 10 ^ 6) * (1 + 1 / 2 ^ 53) :=
      mul_le_mul_of_nonneg_right hr1 (by norm_num)
    have : |d| / 2 ^ 24 ≤ a * (1 + 5 / 10 ^ 6) * (1 + 1 / 2 ^ 53) / 2 ^ 24 :=
      div_le_div_of_nonneg_right (le_trans hd1 h0) (by positivity)
    have e : a * ((1 + 5 / 10 ^ 6) * (1 + 1 / 2 ^ 53) / 2 ^ 24)
        = a * (1 + 5 / 10 ^ 6) * (1 + 1 / 2 ^ 53) / 2 ^ 24 := by ring
    linarith
  have hc : (1 + 5 / 10 ^ 6 : ℚ) * (1 + 1 / 2 ^ 53) / 2 ^ 24 + (1 + 5 / 10 ^ 6) / 2 ^ 53
      + 5 / 10 ^ 6 ≤ 51 / 10 ^ 7 := by norm_num
  have hfin := mul_le_mul_of_nonneg_left hc hapos.le
  show |toFloat d - v| ≤ a * (51 / 10 ^ 7)
  linarith

/-! ## Lemmas: the error of the density estimator -/

theorem representable_kernelArgument (q : ℚ) (hq : Representable 24 (-149) q) :
    Representable 53 (-1074) (q ^ 2) ∧ Representable 53 (-1074) (-(1 / 2) * q ^ 2) := by
  obtain ⟨M, k, hk, hM, rfl⟩ := hq
  have hM2 : |M ^ 2| < 2 ^ 53 := by
    rw [abs_pow]
    have h0 : (0 : Int) ≤ |M| := abs_nonneg M
    have : |M| ^ 2 < (2 ^ 24) ^ 2 := by nlinarith
    calc |M| ^ 2 < (2 ^ 24) ^ 2 := this
      _ ≤ 2 ^ 53 := by norm_num
  constructor
  · refine ⟨M ^ 2, 2 * k, by omega, hM2, ?_⟩
    push_cast
    rw [mul_pow, ← zpow_natCast ((2 : ℚ) ^ k) 2, ← zpow_mul]
    congr 2
    push_cast
    ring
  · refine ⟨-(M ^ 2), 2 * k - 1, by omega, by rwa [abs_neg], ?_⟩
    push_cast
    rw [mul_pow, ← zpow_natCast ((2 : ℚ) ^ k) 2, ← zpow_mul, zpow_sub₀ (by norm_num), zpow_one]
    have : k * ((2 : Nat) : Int) = 2 * k := by push_cast; ring
    rw [this]
    ring

theorem kernelArgument_eq (x sample bandwidth : ℚ) :
    kernelArgument x sample bandwidth
      = -(1 / 2) * toFloat (toFloat (x - sample) / bandwidth) ^ 2 := by
  unfold kernelArgument
  obtain ⟨h1, h2⟩ := representable_kernelArgument _
    (toFloat_representable (toFloat (x - sample) / bandwidth))
  rw [toDouble_of_representable _ h1, toDouble_of_representable _ h2]

theorem expDouble_error (t : ℚ) (ht : t ≤ 0) :
    |((expDouble t : ℚ) : ℝ) - Real.exp (t : ℝ)| ≤ 1 / 2 ^ 53 := by
  have hpos := Real.exp_pos (t : ℝ)
  have hle : Real.exp (t : ℝ) ≤ 1 := by
    rw [← Real.exp_zero]
    exact Real.exp_le_exp.mpr (by exact_mod_cast ht)
  have hlog : Int.log 2 |Real.exp (t : ℝ)| ≤ 0 := by
    have h : Int.log 2 |Real.exp (t : ℝ)| < 1 := by
      apply (Int.lt_zpow_iff_log_lt (b := 2) (by norm_num) (abs_pos.mpr hpos.ne')).mp
      rw [abs_of_pos hpos]
      norm_num
      linarith
    omega
  have he : ulpExponent 53 (-1074) (Real.exp (t : ℝ)) ≤ -52 := by
    unfold ulpExponent
    apply max_le
    · push_cast; omega
    · norm_num
  unfold expDouble
  refine le_trans (roundBinary_error 53 (-1074) (Real.exp (t : ℝ))) ?_
  have h2 : (2 : ℝ) ^ ulpExponent 53 (-1074) (Real.exp (t : ℝ)) ≤ 2 ^ (-52 : Int) :=
    zpow_two_le _ _ he
  have e : (2 : ℝ) ^ (-52 : Int) = 1 / 2 ^ 52 := by
    rw [zpow_neg, ← one_div]; norm_cast
  rw [e] at h2
  have e2 : (1 : ℝ) / 2 ^ 53 = 1 / 2 ^ 52 / 2 := by norm_num
  rw [e2]
  exact div_le_div_of_nonneg_right h2 (by norm_num)

theorem exp_neg_sub_exp_neg (A B : ℝ) (hAB : A ≤ B) :
    |Real.exp (-A) - Real.exp (-B)| ≤ (B - A) * Real.exp (-A) := by
  have h1 : Real.exp (-B) ≤ Real.exp (-A) := Real.exp_le_exp.mpr (by linarith)
  rw [abs_of_nonneg (by linarith)]
  have h2 : 1 - (B - A) ≤ Real.exp (-(B - A)) := by
    have := Real.add_one_le_exp (-(B - A))
    linarith
  have h3 : Real.exp (-B) = Real.exp (-A) * Real.exp (-(B - A)) := by
    rw [← Real.exp_add]; congr 1; ring
  have hA := Real.exp_pos (-A)
  rw [h3]
  nlinarith

theorem mul_exp_neg_le (W : ℝ) : W * Real.exp (-W) ≤ 3679 / 10000 := by
  have h1 : W ≤ Real.exp (W - 1) := by
    have := Real.add_one_le_exp (W - 1)
    linarith
  have h2 : Real.exp (W - 1) * Real.exp (-W) = Real.exp (-1) := by
    rw [← Real.exp_add]; congr 1; ring
  have h3 : Real.exp (-1) ≤ 3679 / 10000 := by
    rw [Real.exp_neg, inv_le_comm₀ (Real.exp_pos 1) (by norm_num)]
    have := Real.exp_one_gt_d9
    have e : (3679 / 10000 : ℝ)⁻¹ ≤ 2.7182818283 := by norm_num
    linarith
  have hW := Real.exp_pos (-W)
  calc W * Real.exp (-W) ≤ Real.exp (W - 1) * Real.exp (-W) :=
        mul_le_mul_of_nonneg_right h1 hW.le
    _ = Real.exp (-1) := h2
    _ ≤ 3679 / 10000 := h3
theorem exp_neg_sub_exp_neg_abs (A B W : ℝ) (hA : W ≤ A) (hB : W ≤ B) :
    |Real.exp (-A) - Real.exp (-B)| ≤ |A - B| * Real.exp (-W) := by
  rcases le_total A B with h | h
  · have h1 := exp_neg_sub_exp_neg A B h
    have h2 : Real.exp (-A) ≤ Real.exp (-W) := Real.exp_le_exp.mpr (by linarith)
    rw [abs_sub_comm A B, abs_of_nonneg (by linarith : 0 ≤ B - A)]
    exact le_trans h1 (mul_le_mul_of_nonneg_left h2 (by linarith))
  · have h1 := exp_neg_sub_exp_neg B A h
    have h2 : Real.exp (-B) ≤ Real.exp (-W) := Real.exp_le_exp.mpr (by linarith)
    rw [abs_sub_comm, abs_of_nonneg (by linarith : 0 ≤ A - B)]
    exact le_trans h1 (mul_le_mul_of_nonneg_left h2 (by linarith))

theorem gauss_close (q z : ℝ) (h : |q - z| ≤ |z| / 2 ^ 22) :
    |Real.exp (-(1 / 2) * q ^ 2) - Real.exp (-(1 / 2) * z ^ 2)| ≤ 3 / 2 ^ 24 := by
  set ε : ℝ := 1 / 2 ^ 22 with hε
  have hz0 : 0 ≤ |z| := abs_nonneg z
  have h' : |q - z| ≤ |z| * ε := by rw [hε]; linarith [h, show |z| / 2 ^ 22 = |z| * (1 / 2 ^ 22) by ring]
  have hq1 : |z| * (1 - ε) ≤ |q| := by
    have : |z| ≤ |z - q| + |q| := by
      have := abs_add (z - q) q
      simpa using this
    rw [abs_sub_comm z q] at this
    linarith
  have hq2 : |q + z| ≤ |z| * (2 + ε) := by
    have : |q + z| ≤ |q - z| + |2 * z| := by
      have := abs_add (q - z) (2 * z)
      have e : q - z + 2 * z = q + z := by ring
      rwa [e] at this
    rw [abs_mul, abs_of_pos (by norm_num : (0 : ℝ) < 2)] at this
    linarith
  have hε1 : (0 : ℝ) ≤ 1 - ε := by rw [hε]; norm_num
  set W : ℝ := z ^ 2 * (1 - ε) ^ 2 / 2 with hW
  have hWA : W ≤ 1 / 2 * q ^ 2 := by
    have h1 : (|z| * (1 - ε)) ^ 2 ≤ |q| ^ 2 :=
      pow_le_pow_left₀ (mul_nonneg hz0 hε1) hq1 2
    rw [sq_abs, mul_pow, sq_abs] at h1
    have h2 := div_le_div_of_nonneg_right h1 (by norm_num : (0 : ℝ) ≤ 2)
    calc W = z ^ 2 * (1 - ε) ^ 2 / 2 := hW
      _ ≤ q ^ 2 / 2 := h2
      _ = 1 / 2 * q ^ 2 := by ring
  have hWB : W ≤ 1 / 2 * z ^ 2 := by
    have h1 : (1 - ε) ^ 2 ≤ 1 := by rw [hε]; norm_num
    have h2 : z ^ 2 * (1 - ε) ^ 2 ≤ z ^ 2 * 1 :=
      mul_le_mul_of_nonneg_left h1 (sq_nonneg z)
    have h3 := div_le_div_of_nonneg_right h2 (by norm_num : (0 : ℝ) ≤ 2)
    calc W = z ^ 2 * (1 - ε) ^ 2 / 2 := hW
      _ ≤ z ^ 2 * 1 / 2 := h3
      _ = 1 / 2 * z ^ 2 := by ring
  have hmain := exp_neg_sub_exp_neg_abs (1 / 2 * q ^ 2) (1 / 2 * z ^ 2) W hWA hWB
  have e1 : -(1 / 2 * q ^ 2) = -(1 / 2) * q ^ 2 := by ring
  have e2 : -(1 / 2 * z ^ 2) = -(1 / 2) * z ^ 2 := by ring
  rw [e1, e2] at hmain
  refine le_trans hmain ?_
  have hAB : |1 / 2 * q ^ 2 - 1 / 2 * z ^ 2| ≤ z ^ 2 * (ε * (2 + ε)) / 2 := by
    have e : 1 / 2 * q ^ 2 - 1 / 2 * z ^ 2 = (q - z) * (q + z) / 2 := by ring
    rw [e, abs_div, abs_mul, abs_of_pos (by norm_num : (0 : ℝ) < 2)]
    have h3 : |q - z| * |q + z| ≤ |z| * ε * (|z| * (2 + ε)) :=
      mul_le_mul h' hq2 (abs_nonneg _) (mul_nonneg hz0 (by rw [hε]; norm_num))
    have e3 : |z| * ε * (|z| * (2 + ε)) = z ^ 2 * (ε * (2 + ε)) := by
      rw [← sq_abs z]; ring
    rw [e3] at h3
    exact div_le_div_of_nonneg_right h3 (by norm_num)
  have hexp := Real.exp_pos (-W)
  have hWexp := mul_exp_neg_le W
  have e4 : z ^ 2 * (ε * (2 + ε)) / 2 = W * (ε * (2 + ε) / (1 - ε) ^ 2) := by
    rw [hW, hε]
    field_simp
    ring
  have hc : (0 : ℝ) ≤ ε * (2 + ε) / (1 - ε) ^ 2 := by rw [hε]; norm_num
  calc |1 / 2 * q ^ 2 - 1 / 2 * z ^ 2| * Real.exp (-W)
      ≤ z ^ 2 * (ε * (2 + ε)) / 2 * Real.exp (-W) :=
        mul_le_mul_of_nonneg_right hAB hexp.le
    _ = W * Real.exp (-W) * (ε * (2 + ε) / (1 - ε) ^ 2) := by rw [e4]; ring
    _ ≤ 3679 / 10000 * (ε * (2 + ε) / (1 - ε) ^ 2) :=
        mul_le_mul_of_nonneg_right hWexp hc
    _ ≤ 3 / 2 ^ 24 := by rw [hε]; norm_num

theorem gauss_close_tiny (q z : ℝ) (hq : |q| ≤ 1 / 2 ^ 125) (hz : |z| ≤ 1 / 2 ^ 125) :
    |Real.exp (-(1 / 2) * q ^ 2) - Real.exp (-(1 / 2) * z ^ 2)| ≤ 3 / 2 ^ 24 := by
  have hmain := exp_neg_sub_exp_neg_abs (1 / 2 * q ^ 2) (1 / 2 * z ^ 2) 0
    (by positivity) (by positivity)
  have e1 : -(1 / 2 * q ^ 2) = -(1 / 2) * q ^ 2 := by ring
  have e2 : -(1 / 2 * z ^ 2) = -(1 / 2) * z ^ 2 := by ring
  rw [e1, e2, neg_zero, Real.exp_zero, mul_one] at hmain
  refine le_trans hmain ?_
  have hq2 : q ^ 2 ≤ (1 / 2 ^ 125) ^ 2 := by
    rw [← sq_abs q]
    exact pow_le_pow_left₀ (abs_nonneg q) hq 2
  have hz2 : z ^ 2 ≤ (1 / 2 ^ 125) ^ 2 := by
    rw [← sq_abs z]
    exact pow_le_pow_left₀ (abs_nonneg z) hz 2
  have hq0 := sq_nonneg q
  have hz0 := sq_nonneg z
  have hs : ((1 : ℝ) / 2 ^ 125) ^ 2 ≤ 3 / 2 ^ 24 := by norm_num
  rw [abs_le]
  constructor <;> linarith
theorem kernelTerm_error (x s b : ℚ) (hx : Representable 24 (-149) x)
    (hs : Representable 24 (-149) s) :
    |((expDouble (kernelArgument x s b) : ℚ) : ℝ)
        - Real.exp (-0.5 * (((x : ℝ) - (s : ℝ)) / (b : ℝ)) ^ 2)| ≤ 1 / 2 ^ 22 := by
  have hd := toFloat_sub_error x s hx hs
  set d := toFloat (x - s) with hdd
  set z : ℚ := (x - s) / b with hz
  have hzz : |d / b - z| ≤ |z| / 2 ^ 24 := by
    have e : d / b - z = (d - (x - s)) / b := by rw [hz]; ring
    rw [e, abs_div, hz, abs_div, div_div, mul_comm |b|, ← div_div]
    exact div_le_div_of_nonneg_right hd (abs_nonneg b)
  have hz' : |d / b| ≤ |z| + |z| / 2 ^ 24 := by
    have : |d / b| ≤ |d / b - z| + |z| := by
      have := abs_add (d / b - z) z
      simpa using this
    linarith
  have harg : ((kernelArgument x s b : ℚ) : ℝ)
      = -(1 / 2) * ((toFloat (d / b) : ℚ) : ℝ) ^ 2 := by
    rw [kernelArgument_eq]
    push_cast
    ring
  have hargle : kernelArgument x s b ≤ 0 := kernelArgument_nonpos x s b
  have h1 := expDouble_error (kernelArgument x s b) hargle
  rw [harg] at h1
  have ez : (-0.5 : ℝ) * (((x : ℝ) - (s : ℝ)) / (b : ℝ)) ^ 2 = -(1 / 2) * ((z : ℚ) : ℝ) ^ 2 := by
    rw [hz]; push_cast; norm_num
  rw [ez]
  have h2 : |Real.exp (-(1 / 2) * ((toFloat (d / b) : ℚ) : ℝ) ^ 2)
      - Real.exp (-(1 / 2) * ((z : ℚ) : ℝ) ^ 2)| ≤ 3 / 2 ^ 24 := by
    by_cases hn : (1 : ℚ) / 2 ^ 126 ≤ |d / b|
    · have hq := toFloat_rel_error (d / b) hn
      have hqz : |toFloat (d / b) - z| ≤ |z| / 2 ^ 22 := by
        have h3 : |toFloat (d / b) - z| ≤ |toFloat (d / b) - d / b| + |d / b - z| := by
          have := abs_add (toFloat (d / b) - d / b) (d / b - z)
          simpa using this
        have h4 : |d / b| / 2 ^ 24 ≤ (|z| + |z| / 2 ^ 24) / 2 ^ 24 :=
          div_le_div_of_nonneg_right hz' (by positivity)
        have h5 : (|z| + |z| / 2 ^ 24) / 2 ^ 24 + |z| / 2 ^ 24 ≤ |z| / 2 ^ 22 := by
          have := abs_nonneg z
          have e : (|z| + |z| / 2 ^ 24) / 2 ^ 24 + |z| / 2 ^ 24
              = |z| * ((1 + 1 / 2 ^ 24) / 2 ^ 24 + 1 / 2 ^ 24) := by ring
          have e2 : |z| / 2 ^ 22 = |z| * (1 / 2 ^ 22) := by ring
          rw [e, e2]
          exact mul_le_mul_of_nonneg_left (by norm_num) this
        linarith
      apply gauss_close
      have : ((|toFloat (d / b) - z| : ℚ) : ℝ) ≤ ((|z| / 2 ^ 22 : ℚ) : ℝ) := by
        exact_mod_cast hqz
      push_cast at this
      exact this
    · rw [not_le] at hn
      have hr : Representable 24 (-149) (1 / 2 ^ 126) :=
        ⟨1, -126, by norm_num, by norm_num, by rw [zpow_neg]; norm_num⟩
      have hb := abs_lt.mp hn
      have hq1 : toFloat (d / b) ≤ 1 / 2 ^ 126 := toFloat_le_of_le _ _ hr hb.2.le
      have hq2 : -(1 / 2 ^ 126) ≤ toFloat (d / b) :=
        le_toFloat_of_le _ _ (representable_neg _ _ _ hr) hb.1.le
      have hqa : |toFloat (d / b)| ≤ 1 / 2 ^ 125 := by
        rw [abs_le]
        constructor
        · have : (-(1 / 2 ^ 125) : ℚ) ≤ -(1 / 2 ^ 126) := by norm_num
          linarith
        · have : (1 / 2 ^ 126 : ℚ) ≤ 1 / 2 ^ 125 := by norm_num
          linarith
      have hza : |z| ≤ 1 / 2 ^ 125 := by
        have h3 : |z| ≤ |z - d / b| + |d / b| := by
          have := abs_add (z - d / b) (d / b)
          simpa using this
        rw [abs_sub_comm z] at h3
        have h4 : |z| * (1 - 1 / 2 ^ 24) ≤ 1 / 2 ^ 126 := by
          have e : |z| * (1 - 1 / 2 ^ 24) = |z| - |z| / 2 ^ 24 := by ring
          rw [e]
          linarith
        by_contra hcon
        rw [not_le] at hcon
        have h5 : (1 : ℚ) / 2 ^ 125 * (1 - 1 / 2 ^ 24) < |z| * (1 - 1 / 2 ^ 24) :=
          mul_lt_mul_of_pos_right hcon (by norm_num)
        have h6 : (1 : ℚ) / 2 ^ 126 ≤ 1 / 2 ^ 125 * (1 - 1 / 2 ^ 24) := by norm_num
        linarith
      apply gauss_close_tiny
      · have : ((|toFloat (d / b)| : ℚ) : ℝ) ≤ ((1 / 2 ^ 125 : ℚ) : ℝ) := by
          exact_mod_cast hqa
        push_cast at this
        exact this
      · have : ((|z| : ℚ) : ℝ) ≤ ((1 / 2 ^ 125 : ℚ) : ℝ) := by exact_mod_cast hza
        push_cast at this
        exact this
  have h3 : |((expDouble (kernelArgument x s b) : ℚ) : ℝ)
      - Real.exp (-(1 / 2) * ((z : ℚ) : ℝ) ^ 2)|
      ≤ |((expDouble (kernelArgument x s b) : ℚ) : ℝ)
          - Real.exp (-(1 / 2) * ((toFloat (d / b) : ℚ) : ℝ) ^ 2)|
        + |Real.exp (-(1 / 2) * ((toFloat (d / b) : ℚ) : ℝ) ^ 2)
          - Real.exp (-(1 / 2) * ((z : ℚ) : ℝ) ^ 2)| := by
    have := abs_add (((expDouble (kernelArgument x s b) : ℚ) : ℝ)
        - Real.exp (-(1 / 2) * ((toFloat (d / b) : ℚ) : ℝ) ^ 2))
      (Real.exp (-(1 / 2) * ((toFloat (d / b) : ℚ) : ℝ) ^ 2)
        - Real.exp (-(1 / 2) * ((z : ℚ) : ℝ) ^ 2))
    simpa using this
  have hc : (1 : ℝ) / 2 ^ 53 + 3 / 2 ^ 24 ≤ 1 / 2 ^ 22 := by norm_num
  linarith
set_option exponentiation.threshold 2000 in
theorem accumulate_error (s t : ℚ) (K : Nat) (hK1 : 1 ≤ K) (hK : K ≤ 2 ^ 24)
    (h0 : 0 ≤ s + t) (hle : s + t ≤ K) :
    |accumulate s t - (s + t)| ≤ (K : ℚ) * (1 / 2 ^ 24 + 1 / 2 ^ 52) := by
  unfold accumulate
  have hKq : (1 : ℚ) ≤ (K : ℚ) := by exact_mod_cast hK1
  have hr := representable_nat_le K hK
  have h0d := representable_zero 53 (-1074) (by norm_num)
  have hw0 : 0 ≤ toDouble (s + t) := le_toDouble_of_le _ 0 h0d h0
  have hwK : toDouble (s + t) ≤ K :=
    toDouble_le_of_le _ _ (representable_float_double _ hr) hle
  have h1 := toDouble_abs_error (s + t)
  have h2 := toFloat_abs_error (toDouble (s + t))
  rw [abs_of_nonneg h0] at h1
  rw [abs_of_nonneg hw0] at h2
  have h3 : |toFloat (toDouble (s + t)) - (s + t)|
      ≤ |toFloat (toDouble (s + t)) - toDouble (s + t)| + |toDouble (s + t) - (s + t)| := by
    have := abs_add (toFloat (toDouble (s + t)) - toDouble (s + t))
      (toDouble (s + t) - (s + t))
    simpa using this
  have h4 : (s + t) / 2 ^ 53 ≤ (K : ℚ) / 2 ^ 53 :=
    div_le_div_of_nonneg_right hle (by positivity)
  have h5 : toDouble (s + t) / 2 ^ 24 ≤ (K : ℚ) / 2 ^ 24 :=
    div_le_div_of_nonneg_right hwK (by positivity)
  have h6 : (1 : ℚ) / 2 ^ 1075 + 1 / 2 ^ 150 ≤ 1 / 2 ^ 53 := by norm_num
  have h7 : (1 : ℚ) / 2 ^ 53 ≤ (K : ℚ) / 2 ^ 53 :=
    div_le_div_of_nonneg_right hKq (by positivity)
  have e : (K : ℚ) * (1 / 2 ^ 24 + 1 / 2 ^ 52)
      = (K : ℚ) / 2 ^ 24 + (K : ℚ) / 2 ^ 53 + (K : ℚ) / 2 ^ 53 := by ring
  rw [e]
  linarith

theorem foldl_accumulate_error (g : ℚ → ℚ) (hg : ∀ t, 0 ≤ g t ∧ g t ≤ 1) (samples : List ℚ) :
    ∀ (s : ℚ) (k : Nat), 0 ≤ s → s ≤ k → k + samples.length ≤ 2 ^ 24 →
      |samples.foldl (fun sum sample => accumulate sum (g sample)) s
          - (s + (samples.map g).sum)|
        ≤ (1 / 2 ^ 24 + 1 / 2 ^ 52)
          * ((samples.length : ℚ) * (k : ℚ)
            + (samples.length : ℚ) * ((samples.length : ℚ) + 1) / 2) := by
  induction samples with
  | nil => intro s k _ _ _; simp
  | cons a l ih =>
    intro s k h0 hk hlen
    rw [List.length_cons] at hlen
    have hs24 : s ≤ 2 ^ 24 := by
      have : (k : ℚ) ≤ 2 ^ 24 := by
        have : k ≤ 2 ^ 24 := by omega
        exact_mod_cast this
      linarith
    obtain ⟨b0, bk, -⟩ := accumulate_bounds s (g a) k h0 hk hs24 (hg a).1 (hg a).2
    have hstep := accumulate_error s (g a) (k + 1) (by omega) (by omega)
      (add_nonneg h0 (hg a).1) (by push_cast; linarith [(hg a).2])
    have hrec := ih (accumulate s (g a)) (k + 1) b0 bk (by omega)
    rw [List.foldl_cons, List.map_cons, List.sum_cons, List.length_cons]
    have htri : |l.foldl (fun sum sample => accumulate sum (g sample)) (accumulate s (g a))
          - (s + (g a + (l.map g).sum))|
        ≤ |l.foldl (fun sum sample => accumulate sum (g sample)) (accumulate s (g a))
            - (accumulate s (g a) + (l.map g).sum)|
          + |accumulate s (g a) - (s + g a)| := by
      have := abs_add (l.foldl (fun sum sample => accumulate sum (g sample))
          (accumulate s (g a)) - (accumulate s (g a) + (l.map g).sum))
        (accumulate s (g a) - (s + g a))
      have e : l.foldl (fun sum sample => accumulate sum (g sample)) (accumulate s (g a))
            - (accumulate s (g a) + (l.map g).sum) + (accumulate s (g a) - (s + g a))
          = l.foldl (fun sum sample => accumulate sum (g sample)) (accumulate s (g a))
            - (s + (g a + (l.map g).sum)) := by ring
      rwa [e] at this
    refine le_trans htri ?_
    have e2 : (1 / 2 ^ 24 + 1 / 2 ^ 52 : ℚ)
          * (((l.length + 1 : Nat) : ℚ) * (k : ℚ)
            + ((l.length + 1 : Nat) : ℚ) * (((l.length + 1 : Nat) : ℚ) + 1) / 2)
        = (1 / 2 ^ 24 + 1 / 2 ^ 52)
            * ((l.length : ℚ) * ((k + 1 : Nat) : ℚ)
              + (l.length : ℚ) * ((l.length : ℚ) + 1) / 2)
          + ((k + 1 : Nat) : ℚ) * (1 / 2 ^ 24 + 1 / 2 ^ 52) := by
      push_cast
      ring
    rw [e2]
    exact add_le_add hrec hstep

theorem sum_map_error (f : ℚ → ℚ) (g : ℚ → ℝ) (c : ℝ) (samples : List ℚ)
    (h : ∀ s ∈ samples, |((f s : ℚ) : ℝ) - g s| ≤ c) :
    |(((samples.map f).sum : ℚ) : ℝ) - (samples.map g).sum| ≤ (samples.length : ℝ) * c := by
  induction samples with
  | nil => simp
  | cons a l ih =>
    have h1 := h a (List.mem_cons_self a l)
    have h2 := ih (fun s hs => h s (List.mem_cons_of_mem a hs))
    rw [List.map_cons, List.sum_cons, List.map_cons, List.sum_cons, List.length_cons,
      Rat.cast_add, Nat.cast_add, Nat.cast_one]
    have e : ((f a : ℚ) : ℝ) + (((l.map f).sum : ℚ) : ℝ) - (g a + (l.map g).sum)
        = (((f a : ℚ) : ℝ) - g a) + ((((l.map f).sum : ℚ) : ℝ) - (l.map g).sum) := by ring
    rw [e]
    refine le_trans (abs_add _ _) ?_
    linarith
theorem density_error_arith (S G D N P n K : ℝ) (hN : 0 < N) (hP : P = n / N)
    (hn2 : n ≤ 2 ^ 24) (hS0 : 0 ≤ S) (hSn : S ≤ n)
    (hSG : |S - G| ≤ (1 / 2 ^ 24 + 1 / 2 ^ 52) * (n * (n + 1) / 2) + n * (1 / 2 ^ 22))
    (hD1 : N * (1 - 1 / 2 ^ 51) ≤ D) (hD2 : D ≤ N * (1 + 1 / 2 ^ 43))
    (hK : |K - S / D| ≤ S / D * (1 / 2 ^ 24 + 1 / 2 ^ 52) + 1 / 2 ^ 149)
    (hPlow : 1 / 2 ^ 102 ≤ P) :
    |K - G / N| ≤ (n + 16) / 2 ^ 25 * P := by
  have hP0 : 0 < P := lt_of_lt_of_le (by positivity) hPlow
  have hSN0 : 0 ≤ S / N := div_nonneg hS0 hN.le
  have hSN : S / N ≤ P := by
    rw [hP]
    exact div_le_div_of_nonneg_right hSn hN.le
  have hDlo : 0 < N * (1 - 1 / 2 ^ 51) := mul_pos hN (by norm_num)
  have hDpos : 0 < D := lt_of_lt_of_le hDlo hD1
  have hQ1 : S / D ≤ S / N * (1 + 1 / 2 ^ 50) := by
    have h1 : S / D ≤ S / (N * (1 - 1 / 2 ^ 51)) :=
      div_le_div_of_nonneg_left hS0 hDlo hD1
    have h2 : S / (N * (1 - 1 / 2 ^ 51)) = S / N * (1 / (1 - 1 / 2 ^ 51)) := by
      field_simp
    have h3 : (1 : ℝ) / (1 - 1 / 2 ^ 51) ≤ 1 + 1 / 2 ^ 50 := by norm_num
    rw [h2] at h1
    exact le_trans h1 (mul_le_mul_of_nonneg_left h3 hSN0)
  have hQ2 : S / N * (1 - 1 / 2 ^ 43) ≤ S / D := by
    have h1 : S / (N * (1 + 1 / 2 ^ 43)) ≤ S / D :=
      div_le_div_of_nonneg_left hS0 hDpos hD2
    have h2 : S / (N * (1 + 1 / 2 ^ 43)) = S / N * (1 / (1 + 1 / 2 ^ 43)) := by
      field_simp
    have h3 : (1 : ℝ) - 1 / 2 ^ 43 ≤ 1 / (1 + 1 / 2 ^ 43) := by norm_num
    rw [h2] at h1
    exact le_trans (mul_le_mul_of_nonneg_left h3 hSN0) h1
  have hA : |S / D - S / N| ≤ P * (1 / 2 ^ 43) := by
    have h1 : S / N * (1 / 2 ^ 43) ≤ P * (1 / 2 ^ 43) :=
      mul_le_mul_of_nonneg_right hSN (by norm_num)
    have h2 : S / N * (1 / 2 ^ 50) ≤ S / N * (1 / 2 ^ 43) :=
      mul_le_mul_of_nonneg_left (by norm_num) hSN0
    rw [abs_le]
    constructor <;> linarith
  have hB : |S / N - G / N| ≤ P * ((1 / 2 ^ 24 + 1 / 2 ^ 52) * ((n + 1) / 2) + 1 / 2 ^ 22) := by
    have e : S / N - G / N = (S - G) / N := by ring
    rw [e, abs_div, abs_of_pos hN]
    have h1 := div_le_div_of_nonneg_right hSG hN.le
    have e2 : ((1 / 2 ^ 24 + 1 / 2 ^ 52) * (n * (n + 1) / 2) + n * (1 / 2 ^ 22)) / N
        = n / N * ((1 / 2 ^ 24 + 1 / 2 ^ 52) * ((n + 1) / 2) + 1 / 2 ^ 22) := by
      field_simp
      ring
    rw [e2, ← hP] at h1
    exact h1
  have hC : |K - S / D| ≤ P * ((1 + 1 / 2 ^ 50) * (1 / 2 ^ 24 + 1 / 2 ^ 52) + 1 / 2 ^ 47) := by
    have h1 : S / D ≤ P * (1 + 1 / 2 ^ 50) :=
      le_trans hQ1 (mul_le_mul_of_nonneg_right hSN (by norm_num))
    have h2 : S / D * (1 / 2 ^ 24 + 1 / 2 ^ 52)
        ≤ P * (1 + 1 / 2 ^ 50) * (1 / 2 ^ 24 + 1 / 2 ^ 52) :=
      mul_le_mul_of_nonneg_right h1 (by norm_num)
    have h3 : (1 : ℝ) / 2 ^ 149 ≤ P * (1 / 2 ^ 47) := by
      have h4 : (1 : ℝ) / 2 ^ 102 * (1 / 2 ^ 47) ≤ P * (1 / 2 ^ 47) :=
        mul_le_mul_of_nonneg_right hPlow (by norm_num)
      have h5 : (1 : ℝ) / 2 ^ 149 = 1 / 2 ^ 102 * (1 / 2 ^ 47) := by norm_num
      linarith
    have e : P * ((1 + 1 / 2 ^ 50) * (1 / 2 ^ 24 + 1 / 2 ^ 52) + 1 / 2 ^ 47)
        = P * (1 + 1 / 2 ^ 50) * (1 / 2 ^ 24 + 1 / 2 ^ 52) + P * (1 / 2 ^ 47) := by ring
    rw [e]
    linarith
  have htri : |K - G / N| ≤ |K - S / D| + |S / D - S / N| + |S / N - G / N| := by
    have e : K - G / N = (K - S / D) + (S / D - S / N) + (S / N - G / N) := by ring
    rw [e]
    exact le_trans (abs_add _ _) (add_le_add_right (abs_add _ _) _)
  have hcoef : ((1 + 1 / 2 ^ 50) * (1 / 2 ^ 24 + 1 / 2 ^ 52) + 1 / 2 ^ 47) + 1 / 2 ^ 43
      + ((1 / 2 ^ 24 + 1 / 2 ^ 52) * ((n + 1) / 2) + 1 / 2 ^ 22) ≤ (n + 16) / 2 ^ 25 := by
    have e : ((1 + 1 / 2 ^ 50) * (1 / 2 ^ 24 + 1 / 2 ^ 52) + 1 / 2 ^ 47) + 1 / 2 ^ 43
        + ((1 / 2 ^ 24 + 1 / 2 ^ 52) * ((n + 1) / 2) + 1 / 2 ^ 22)
        = n * ((1 / 2 ^ 24 + 1 / 2 ^ 52) / 2)
          + (((1 + 1 / 2 ^ 50) * (1 / 2 ^ 24 + 1 / 2 ^ 52) + 1 / 2 ^ 47) + 1 / 2 ^ 43
            + ((1 / 2 ^ 24 + 1 / 2 ^ 52) / 2 + 1 / 2 ^ 22)) := by ring
    have e2 : (n + 16) / 2 ^ 25 = n * (1 / 2 ^ 25) + 16 / 2 ^ 25 := by ring
    rw [e, e2]
    have h1 : n * ((1 / 2 ^ 24 + 1 / 2 ^ 52) / 2) = n * (1 / 2 ^ 25) + n * (1 / 2 ^ 53) := by
      ring
    have h2 : n * (1 / 2 ^ 53) ≤ 2 ^ 24 * (1 / 2 ^ 53) :=
      mul_le_mul_of_nonneg_right hn2 (by norm_num)
    have h3 : (2 : ℝ) ^ 24 * (1 / 2 ^ 53)
        + (((1 + 1 / 2 ^ 50) * (1 / 2 ^ 24 + 1 / 2 ^ 52) + 1 / 2 ^ 47) + 1 / 2 ^ 43
            + ((1 / 2 ^ 24 + 1 / 2 ^ 52) / 2 + 1 / 2 ^ 22)) ≤ 16 / 2 ^ 25 := by norm_num
    linarith
  have hfin := mul_le_mul_of_nonneg_left hcoef hP0.le
  have e3 : (n + 16) / 2 ^ 25 * P = P * ((n + 16) / 2 ^ 25) := by ring
  rw [e3]
  have e4 : P * (((1 + 1 / 2 ^ 50) * (1 / 2 ^ 24 + 1 / 2 ^ 52) + 1 / 2 ^ 47) + 1 / 2 ^ 43
      + ((1 / 2 ^ 24 + 1 / 2 ^ 52) * ((n + 1) / 2) + 1 / 2 ^ 22))
      = P * ((1 + 1 / 2 ^ 50) * (1 / 2 ^ 24 + 1 / 2 ^ 52) + 1 / 2 ^ 47) + P * (1 / 2 ^ 43)
        + P * ((1 / 2 ^ 24 + 1 / 2 ^ 52) * ((n + 1) / 2) + 1 / 2 ^ 22) := by ring
  rw [e4] at hfin
  linarith
set_option exponentiation.threshold 2000 in
theorem result_rounding_error (Q : ℚ) (hQ : 0 ≤ Q) :
    |toFloat (toDouble Q) - Q| ≤ Q * (1 / 2 ^ 24 + 1 / 2 ^ 52) + 1 / 2 ^ 149 := by
  have h0d := representable_zero 53 (-1074) (by norm_num)
  have hw0 : 0 ≤ toDouble Q := le_toDouble_of_le _ 0 h0d hQ
  have h1 := toDouble_abs_error Q
  have h2 := toFloat_abs_error (toDouble Q)
  rw [abs_of_nonneg hQ] at h1
  rw [abs_of_nonneg hw0] at h2
  have h3 : |toFloat (toDouble Q) - Q|
      ≤ |toFloat (toDouble Q) - toDouble Q| + |toDouble Q - Q| := by
    have := abs_add (toFloat (toDouble Q) - toDouble Q) (toDouble Q - Q)
    simpa using this
  have h4 : toDouble Q ≤ Q + (Q / 2 ^ 53 + 1 / 2 ^ 1075) := by
    have := (abs_le.mp h1).2
    linarith
  have h5 : toDouble Q / 2 ^ 24 ≤ (Q + (Q / 2 ^ 53 + 1 / 2 ^ 1075)) / 2 ^ 24 :=
    div_le_div_of_nonneg_right h4 (by positivity)
  have h6 : (Q + (Q / 2 ^ 53 + 1 / 2 ^ 1075)) / 2 ^ 24 + 1 / 2 ^ 150 + (Q / 2 ^ 53 + 1 / 2 ^ 1075)
      = Q * (1 / 2 ^ 24 + 1 / 2 ^ 77 + 1 / 2 ^ 53)
        + (1 / 2 ^ 1075 / 2 ^ 24 + 1 / 2 ^ 150 + 1 / 2 ^ 1075) := by ring
  have h7 : Q * (1 / 2 ^ 24 + 1 / 2 ^ 77 + 1 / 2 ^ 53) ≤ Q * (1 / 2 ^ 24 + 1 / 2 ^ 52) :=
    mul_le_mul_of_nonneg_left (by norm_num) hQ
  have h8 : (1 : ℚ) / 2 ^ 1075 / 2 ^ 24 + 1 / 2 ^ 150 + 1 / 2 ^ 1075 ≤ 1 / 2 ^ 149 := by
    norm_num
  linarith

theorem kde_near_spec (samples : List ℚ) (x b : ℚ) (hs : samples ≠ [])
    (hn : samples.length ≤ 2 ^ 24) (hfs : ∀ s ∈ samples, Representable 24 (-149) s)
    (hfx : Representable 24 (-149) x) (hb1 : 1 / 2 ^ 100 ≤ b) (hb2 : b ≤ 2 ^ 100) :
    |((kernelDensityEstimation samples x b : ℚ) : ℝ) - specDensity samples x b|
      ≤ ((samples.length : ℝ) + 16) / 2 ^ 25 * (1 / ((b : ℝ) * Real.sqrt (2 * Real.pi))) := by
  have hn1 : 1 ≤ samples.length := List.length_pos.mpr hs
  have hbpos : 0 < b := lt_of_lt_of_le (by positivity) hb1
  have hbR : (0 : ℝ) < (b : ℝ) := by exact_mod_cast hbpos
  have hbR2 : (b : ℝ) ≤ 2 ^ 100 := by exact_mod_cast hb2
  have hnR1 : (1 : ℝ) ≤ (samples.length : ℝ) := by exact_mod_cast hn1
  have hnR2 : (samples.length : ℝ) ≤ 2 ^ 24 := by exact_mod_cast hn
  have hσ : (0 : ℝ) < Real.sqrt (2 * Real.pi) :=
    Real.sqrt_pos.mpr (by have := Real.pi_pos; linarith)
  have hC1 := sqrtTwoPi_ge
  have hC2 := sqrtTwoPi_le
  obtain ⟨hS0, hSn, -⟩ := foldl_accumulate_bounds
    (fun sample => expDouble (kernelArgument x sample b))
    (fun t => kernelTerm_bounds x t b) samples 0 0 (le_refl _) (by simp) (by positivity)
  have hacc := foldl_accumulate_error (fun sample => expDouble (kernelArgument x sample b))
    (fun t => kernelTerm_bounds x t b) samples 0 0 (le_refl _) (by simp) (by simpa using hn)
  have hspec : specDensity samples x b
      = 1 / ((samples.length : ℝ) * (b : ℝ) * Real.sqrt (2 * Real.pi))
        * (samples.map (fun (s : ℚ) => Real.exp (-0.5 * (((x : ℝ) - (s : ℝ)) / (b : ℝ)) ^ 2))).sum :=
    rfl
  rw [hspec]
  generalize hG : (samples.map
    (fun (s : ℚ) => Real.exp (-0.5 * (((x : ℝ) - (s : ℝ)) / (b : ℝ)) ^ 2))).sum = G
  have hsum : |(((samples.map (fun sample => expDouble (kernelArgument x sample b))).sum : ℚ) : ℝ)
      - G| ≤ (samples.length : ℝ) * (1 / 2 ^ 22) := by
    rw [← hG]
    exact sum_map_error (fun sample => expDouble (kernelArgument x sample b))
      (fun (s : ℚ) => Real.exp (-0.5 * (((x : ℝ) - (s : ℝ)) / (b : ℝ)) ^ 2)) (1 / 2 ^ 22) samples
      (fun s hs => kernelTerm_error x s b hfx (hfs s hs))
  have hσ3 : Real.sqrt (2 * Real.pi) ≤ 3 := by
    refine le_trans hC1 ?_
    push_cast
    norm_num
  obtain ⟨hD1, hD2⟩ := kernelDivisor_bounds samples.length b hn1 hb1
  simp only [Nat.zero_add] at hSn
  simp only [Nat.cast_zero, mul_zero, zero_add] at hacc
  unfold kernelDensityEstimation
  generalize samples.foldl (fun sum sample =>
    accumulate sum (expDouble (kernelArgument x sample b))) 0 = S at hS0 hSn hacc
  generalize kernelDivisor samples.length b = D at hD1 hD2
  generalize (samples.map (fun sample => expDouble (kernelArgument x sample b))).sum = T
    at hacc hsum
  have hDpos : 0 < D := by
    refine lt_of_lt_of_le ?_ hD1
    have : (0 : ℚ) < (samples.length : ℚ) := by exact_mod_cast hn1
    exact mul_pos (mul_pos (mul_pos this (by norm_num)) hbpos) (by norm_num)
  have hK := result_rounding_error (S / D) (div_nonneg hS0 hDpos.le)
  have hKR : |((toFloat (toDouble (S / D)) : ℚ) : ℝ) - (S : ℝ) / (D : ℝ)|
      ≤ (S : ℝ) / (D : ℝ) * (1 / 2 ^ 24 + 1 / 2 ^ 52) + 1 / 2 ^ 149 := by
    have : ((|toFloat (toDouble (S / D)) - S / D| : ℚ) : ℝ)
        ≤ ((S / D * (1 / 2 ^ 24 + 1 / 2 ^ 52) + 1 / 2 ^ 149 : ℚ) : ℝ) := by
      exact_mod_cast hK
    push_cast at this
    exact this
  have haccR : |(S : ℝ) - (T : ℝ)|
      ≤ (1 / 2 ^ 24 + 1 / 2 ^ 52)
        * ((samples.length : ℝ) * ((samples.length : ℝ) + 1) / 2) := by
    have : ((|S - T| : ℚ) : ℝ)
        ≤ (((1 / 2 ^ 24 + 1 / 2 ^ 52)
          * ((samples.length : ℚ) * ((samples.length : ℚ) + 1) / 2) : ℚ) : ℝ) := by
      exact_mod_cast hacc
    push_cast at this
    exact this
  have hSG : |(S : ℝ) - G|
      ≤ (1 / 2 ^ 24 + 1 / 2 ^ 52)
          * ((samples.length : ℝ) * ((samples.length : ℝ) + 1) / 2)
        + (samples.length : ℝ) * (1 / 2 ^ 22) := by
    have e : (S : ℝ) - G = ((S : ℝ) - (T : ℝ)) + ((T : ℝ) - G) := by ring
    rw [e]
    exact le_trans (abs_add _ _) (add_le_add haccR hsum)
  have hS0R : (0 : ℝ) ≤ (S : ℝ) := by exact_mod_cast hS0
  have hSnR : (S : ℝ) ≤ (samples.length : ℝ) := by exact_mod_cast hSn
  have hD1R : (samples.length : ℝ) * ((5644425081792447 / 2 ^ 51 : ℚ) : ℝ) * (b : ℝ)
      * (1 - 1 / 2 ^ 51) ≤ (D : ℝ) := by
    have : (((samples.length : ℚ) * (5644425081792447 / 2 ^ 51) * b * (1 - 1 / 2 ^ 51) : ℚ) : ℝ)
        ≤ (D : ℝ) := by exact_mod_cast hD1
    push_cast at this ⊢
    exact this
  have hD2R : (D : ℝ) ≤ (samples.length : ℝ) * ((5644425081792447 / 2 ^ 51 : ℚ) : ℝ) * (b : ℝ)
      * (1 + 1 / 2 ^ 51) := by
    have : (D : ℝ)
        ≤ (((samples.length : ℚ) * (5644425081792447 / 2 ^ 51) * b * (1 + 1 / 2 ^ 51) : ℚ) : ℝ) := by
      exact_mod_cast hD2
    push_cast at this ⊢
    exact this
  generalize ((5644425081792447 / 2 ^ 51 : ℚ) : ℝ) = C at hC1 hC2 hD1R hD2R
  generalize (samples.length : ℝ) = n at hnR1 hnR2 hSG hSnR hD1R hD2R ⊢
  generalize (S : ℝ) = SR at hKR hSG hS0R hSnR
  generalize (D : ℝ) = DR at hKR hD1R hD2R
  generalize (b : ℝ) = bR at hbR hbR2 hD1R hD2R ⊢
  generalize Real.sqrt (2 * Real.pi) = σ at hσ hC1 hC2 hσ3 ⊢
  have hNpos : 0 < n * bR * σ := mul_pos (mul_pos (by linarith) hbR) hσ
  have hnb : 0 ≤ n * bR := mul_nonneg (by linarith) hbR.le
  have e1 : 1 / (n * bR * σ) * G = G / (n * bR * σ) := by ring
  have e2 : 1 / (bR * σ) = n / (n * bR * σ) := by
    field_simp
    ring
  rw [e1]
  refine density_error_arith SR G DR (n * bR * σ) (1 / (bR * σ)) n
    ((toFloat (toDouble (S / D)) : ℚ) : ℝ) hNpos e2 hnR2 hS0R hSnR hSG ?_ ?_ hKR ?_
  · refine le_trans ?_ hD1R
    have h1 : n * bR * σ ≤ n * bR * C := mul_le_mul_of_nonneg_left hC1 hnb
    have e : n * C * bR * (1 - 1 / 2 ^ 51) = n * bR * C * (1 - 1 / 2 ^ 51) := by ring
    rw [e]
    exact mul_le_mul_of_nonneg_right h1 (by norm_num)
  · refine le_trans hD2R ?_
    have h1 : n * bR * C ≤ n * bR * (σ * (1 + 1 / 2 ^ 44)) := mul_le_mul_of_nonneg_left hC2 hnb
    have e : n * C * bR * (1 + 1 / 2 ^ 51) = n * bR * C * (1 + 1 / 2 ^ 51) := by ring
    rw [e]
    have h2 : n * bR * C * (1 + 1 / 2 ^ 51)
        ≤ n * bR * (σ * (1 + 1 / 2 ^ 44)) * (1 + 1 / 2 ^ 51) :=
      mul_le_mul_of_nonneg_right h1 (by norm_num)
    have e3 : n * bR * (σ * (1 + 1 / 2 ^ 44)) * (1 + 1 / 2 ^ 51)
        = n * bR * σ * ((1 + 1 / 2 ^ 44) * (1 + 1 / 2 ^ 51)) := by ring
    rw [e3] at h2
    exact le_trans h2 (mul_le_mul_of_nonneg_left (by norm_num) hNpos.le)
  · rw [div_le_div_iff₀ (by positivity) (mul_pos hbR hσ)]
    have h1 : bR * σ ≤ 2 ^ 100 * 3 :=
      mul_le_mul hbR2 hσ3 hσ.le (by positivity)
    have h2 : (2 : ℝ) ^ 100 * 3 ≤ 2 ^ 102 := by norm_num
    linarith
theorem accumulate_one (k : Nat) (hk : k ≤ 2 ^ 24) :
    accumulate (k : ℚ) 1 = ((min (k + 1) (2 ^ 24) : Nat) : ℚ) := by
  unfold accumulate
  by_cases h : k + 1 ≤ 2 ^ 24
  · have hr := representable_nat_le (k + 1) h
    rw [Nat.min_eq_left h]
    have e : (k : ℚ) + 1 = ((k + 1 : Nat) : ℚ) := by push_cast; ring
    rw [e, toDouble_of_representable _ (representable_float_double _ hr),
      toFloat_of_representable _ hr]
  · have hk2 : k = 2 ^ 24 := by omega
    have hcap : toFloat (2 ^ 24 + 1) = 2 ^ 24 := by decide!
    have hrepd : Representable 53 (-1074) ((2 : ℚ) ^ 24 + 1) := by
      have := representable_int 53 (-1074) (2 ^ 24 + 1) (by norm_num) (by norm_num)
      norm_num at this ⊢
      exact this
    rw [Nat.min_eq_right (by omega), hk2]
    have e1 : (((2 ^ 24 : Nat) : ℚ)) = 2 ^ 24 := by norm_cast
    rw [e1, toDouble_of_representable _ hrepd, hcap]

theorem foldl_accumulate_ones (g : ℚ → ℚ) (a : ℚ) (ha : g a = 1) (n : Nat) :
    ∀ k : Nat, k ≤ 2 ^ 24 →
      (List.replicate n a).foldl (fun sum sample => accumulate sum (g sample)) (k : ℚ)
        = ((min (k + n) (2 ^ 24) : Nat) : ℚ) := by
  induction n with
  | zero =>
    intro k hk
    rw [List.replicate_zero, List.foldl_nil, Nat.add_zero, Nat.min_eq_left hk]
  | succ n ih =>
    intro k hk
    rw [List.replicate_succ, List.foldl_cons, ha, accumulate_one k hk,
      ih (min (k + 1) (2 ^ 24)) (Nat.min_le_right _ _)]
    congr 1
    simp only [Nat.min_def]
    split_ifs <;> omega

theorem kde_saturated :
    kernelDensityEstimation (List.replicate (2 ^ 25) 0) 0 20 = 10709025 / 1073741824 := by
  have h1 : expDouble (kernelArgument 0 0 20) = 1 := by
    have : kernelArgument 0 0 20 = 0 := by decide!
    rw [this, expDouble_zero]
  have h2 := foldl_accumulate_ones (fun sample => expDouble (kernelArgument 0 sample 20)) 0 h1
    (2 ^ 25) 0 (by norm_num)
  have h3 : toFloat (toDouble ((2 : ℚ) ^ 24
      / toDouble (toDouble (toDouble (2 ^ 25) * (5644425081792447 / 2 ^ 51)) * 20)))
      = 10709025 / 1073741824 := by decide!
  unfold kernelDensityEstimation kernelDivisor
  rw [List.length_replicate, sqrtTwoPi_eq]
  simp only [Nat.cast_zero] at h2
  rw [h2]
  have e : ((min (0 + 2 ^ 25) (2 ^ 24) : Nat) : ℚ) = 2 ^ 24 := by norm_num
  rw [e]
  push_cast
  exact h3

theorem specDensity_replicate_zero :
    specDensity (List.replicate (2 ^ 25) 0) 0 20 = 1 / (20 * Real.sqrt (2 * Real.pi)) := by
  have hσ : (0 : ℝ) < Real.sqrt (2 * Real.pi) :=
    Real.sqrt_pos.mpr (by have := Real.pi_pos; linarith)
  unfold specDensity
  rw [List.map_replicate, List.sum_replicate, List.length_replicate]
  simp only [Rat.cast_zero, sub_zero, zero_div, ne_eq, OfNat.ofNat_ne_zero, not_false_eq_true,
    zero_pow, mul_zero, Real.exp_zero, nsmul_eq_mul, mul_one]
  push_cast
  field_simp
  ring

/-! ## Shuffler: permutation (C3) -/

/-- C3: for every vector and every outcome of the random engine, `shuffle` leaves a permutation
of the vector: the multiset of values, and with it the length, is the one before the call. -/
theorem shuffle_is_permutation {α : Type} (gen : Nat → Nat) (vec : List α) :
    List.Perm (shuffle gen vec) vec
      ∧ (↑(shuffle gen vec) : Multiset α) = ↑vec
      ∧ (shuffle gen vec).length = vec.length :=
  ⟨shuffle_perm gen vec, Multiset.coe_eq_coe.mpr (shuffle_perm gen vec),
    (shuffle_perm gen vec).length_eq⟩

/-! ## Recorder: the deltas that are logged (C4) -/

/-- C4, refuted: with a counter of 10^9 ticks a second and two presses 150000001 ticks apart
the delta is 150.000001 ms, above the ceiling of 150 ms; line 139 converts it to the `float`
150, the test of line 140 accepts it, and the log receives 150. -/
theorem recordLoop_logs_delta_above_ceiling :
    (recordLoop 1000000000 [] [0, 150000001]).clickDelays = [150]
      ∧ (150 : ℚ) < ((150000001 - 0 : Int) : ℚ) * 1000 / ((1000000000 : Int) : ℚ) := by
  constructor
  · decide!
  · norm_num

/-- C4, amended: for a counter whose frequency is positive (and a `LONGLONG`, so below 2^63)
and every sequence of press timestamps of one recorder session, the values appended to the log
are the deltas of consecutive timestamps as line 139 computes them, in milliseconds in `double`
and then converted to `float`, those whose `float` value does not exceed 150, in their order;
the previous timestamp is updated at every press, accepted or not, so that it ends as the last
timestamp.  Every delta of at most 150 ms is appended, every delta above `150 + 2^-16` ms is
discarded, and for timestamps in order the value computed differs from the exact delta by at
most `2^-23` of it.  For the deltas 50, 200, 90 ms the log appended is 50, 90. -/
theorem recordLoop_appends_accepted_float_deltas (frequency : Int) (log : List ℚ)
    (presses : List Int) (hf : 0 < frequency) (hf63 : frequency < 2 ^ 63) :
    (recordLoop frequency log presses).clickDelays
        = log ++ (List.zipWith (delayMs frequency) presses presses.tail).filter
            (fun d => decide (d ≤ 150))
      ∧ (∀ last ∈ presses.getLast?, (recordLoop frequency log presses).firstClickTime = last)
      ∧ (∀ a b : Int, (b - a) * 1000 ≤ 150 * frequency → delayMs frequency a b ≤ 150)
      ∧ (∀ a b : Int, (150 + 1 / 2 ^ 16) * (frequency : ℚ) < ((b - a : Int) : ℚ) * 1000 →
          150 < delayMs frequency a b)
      ∧ (∀ a b : Int, a ≤ b →
          |delayMs frequency a b - ((b - a : Int) : ℚ) * 1000 / (frequency : ℚ)|
            ≤ ((b - a : Int) : ℚ) * 1000 / (frequency : ℚ) / 2 ^ 23)
      ∧ (recordLoop 1000 [] [0, 50, 250, 340]).clickDelays = [50, 90] :=
  ⟨(recordLoop_eq frequency log presses).1, (recordLoop_eq frequency log presses).2,
    fun a b h => delayMs_accepts frequency a b hf hf63 h,
    fun a b h => delayMs_rejects frequency a b hf hf63 h,
    fun a b h => delayMs_near frequency a b hf hf63 h, by decide!⟩

/-- C4, an instance: a counter of ten million ticks a second and presses 50 ms, 200 ms and 90 ms
apart, recorded on top of a log that holds 7. -/
theorem recordLoop_appends_accepted_float_deltas_witness :
    (0 : Int) < 10000000 ∧ (10000000 : Int) < 2 ^ 63
      ∧ (recordLoop 10000000 [7] [0, 500000, 2500000, 3400000]).clickDelays = [7, 50, 90] :=
  ⟨by decide, by decide, by
    rw [(recordLoop_appends_accepted_float_deltas 10000000 [7] [0, 500000, 2500000, 3400000]
      (by decide) (by decide)).1]
    decide!⟩

/-! ## Playback loop: cancellation (C5, C10) -/

/-- C5, refuted: with the trigger predicate holding throughout, one click cycle has been
performed when `SIGINT` sets the flag, and two more cycles are begun after that before the loop
is left at the first evaluation of the predicate that fails. -/
theorem playClicks_cycles_after_flag_set :
    (playClicks (fun _ => 0) [100] false
        [Event.poll true false false true, Event.signal SIGINT]).stopPlaying = true
      ∧ cycles (playClicks (fun _ => 0) [100] false
        [Event.poll true false false true, Event.signal SIGINT]).trace = 1
      ∧ cycles (playClicks (fun _ => 0) [100] false
        [Event.poll true false false true, Event.signal SIGINT,
          Event.poll true false false true, Event.poll true false false true,
          Event.poll false false false true]).trace = 3
      ∧ (playClicks (fun _ => 0) [100] false
        [Event.poll true false false true, Event.signal SIGINT,
          Event.poll true false false true, Event.poll true false false true,
          Event.poll false false false true]).returned = true := by
  decide!

/-- C5, amended: with the flag set while control is in the inner loop, the loop is left at the
first evaluation of the trigger predicate that fails, with the flag still set; until then a
click cycle is begun at every evaluation that holds with the target window in the foreground,
and none after it.  With the flag set when the test of the outer loop is reached, the loop is
left at once, without any further click cycle. -/
theorem playLoop_stops_at_first_idle_poll (intervals : List ℚ) (s : PlayState)
    (pre post : List Event) (lbutton lshift cursorVisible foreground : Bool)
    (hflag : s.stopPlaying = true) (hpre : ∀ e ∈ pre, e.keepsInner = true)
    (hidle : (lbutton && !lshift && !cursorVisible) = false) :
    (playLoop intervals false s
        (pre ++ Event.poll lbutton lshift cursorVisible foreground :: post)).returned = true
      ∧ (playLoop intervals false s
        (pre ++ Event.poll lbutton lshift cursorVisible foreground :: post)).stopPlaying = true
      ∧ cycles (playLoop intervals false s
        (pre ++ Event.poll lbutton lshift cursorVisible foreground :: post)).trace
          = cycles s.trace + pre.countP Event.startsCycle
      ∧ ∀ es, playLoop intervals true s es = { s with returned := true } := by
  obtain ⟨h1, h2, h3⟩ :=
    playLoop_inner_stopped intervals pre s lbutton lshift cursorVisible foreground post hflag
      hpre hidle
  exact ⟨h1, h2, h3, fun es => playLoop_outer_stopped intervals es s hflag⟩

/-- C5, amended, an instance: flag set, two evaluations that start a cycle, then one that
fails. -/
theorem playLoop_stops_at_first_idle_poll_witness :
    cycles (playLoop [100] false { stopPlaying := true, trace := [], returned := false }
        ([Event.poll true false false true, Event.poll true false false true]
          ++ Event.poll false false false true :: [Event.poll true false false true])).trace
      = 0 + 2 :=
  (playLoop_stops_at_first_idle_poll [100]
    { stopPlaying := true, trace := [], returned := false }
    [Event.poll true false false true, Event.poll true false false true]
    [Event.poll true false false true] false false false true rfl (by decide) rfl).2.2.1

/-- C10: the flag `stopPlaying` is never reset.  Once it is set, it is set after every sequence
of menu passes and after every signal, and every call of `playClicks`, for every sample set and
every sequence of events, returns with the flag set after the call of `shuffle` alone, with no
click cycle. -/
theorem stopPlaying_is_never_reset (p : Program) (rounds : List Round)
    (h : p.globals.stopPlaying = true) :
    (main p rounds).globals.stopPlaying = true
      ∧ (∀ sig, signalHandler true sig = true)
      ∧ ∀ (gen : Nat → Nat) (intervals : List ℚ) (events : List Event),
          playClicks gen intervals true events
              = { stopPlaying := true, trace := [Action.shuffle intervals], returned := true }
            ∧ cycles (playClicks gen intervals true events).trace = 0 := by
  refine ⟨main_flag_stays rounds p h, fun sig => by simp [signalHandler], ?_⟩
  intro gen intervals events
  have : playClicks gen intervals true events
      = { stopPlaying := true, trace := [Action.shuffle intervals], returned := true } := by
    unfold playClicks
    rw [playLoop_outer_stopped _ _ _ rfl]
  rw [this]
  exact ⟨rfl, by simp [cycles]⟩

/-- C10, an instance: a playback is cancelled by `SIGINT`; in the playback chosen next the
trigger predicate holds three times and the flag is still set at its end. -/
theorem stopPlaying_is_never_reset_witness :
    (main start [playerRound (some ['1', '0', '0'])
        [Event.poll true false false true, Event.signal SIGINT,
          Event.poll false false false true]]).globals.stopPlaying = true
      ∧ (main (main start [playerRound (some ['1', '0', '0'])
        [Event.poll true false false true, Event.signal SIGINT,
          Event.poll false false false true]])
        [playerRound (some ['1', '0', '0'])
          [Event.poll true false false true, Event.poll true false false true,
            Event.poll true false false true]]).globals.stopPlaying = true :=
  ⟨by decide!, (stopPlaying_is_never_reset _ _ (by decide!)).1⟩

/-! ## Density estimator: agreement with the specified density (C1) -/

/-- C1, refuted: the function computes in `float` and `double` and adds the kernel terms up in
a `float`.  For 2^25 samples 0, the point 0 and bandwidth 20 every term is 1, the accumulator
stops growing at 2^24, and the function returns 10709025 / 2^30, less than 0.51 times the
specified density.  Already for the single sample 0, the point 0 and bandwidth 1 the value
returned, the `float` 6693141 / 2^24, is not the real number that the formula gives. -/
theorem kernelDensityEstimation_ne_specDensity :
    kernelDensityEstimation (List.replicate (2 ^ 25) 0) 0 20 = 10709025 / 1073741824
      ∧ ((kernelDensityEstimation (List.replicate (2 ^ 25) 0) 0 20 : ℚ) : ℝ)
          < 51 / 100 * specDensity (List.replicate (2 ^ 25) 0) 0 20
      ∧ ((kernelDensityEstimation [0] 0 1 : ℚ) : ℝ) ≠ specDensity [0] 0 1 := by
  refine ⟨kde_saturated, ?_, ?_⟩
  · rw [kde_saturated, specDensity_replicate_zero]
    have hσ : (0 : ℝ) < Real.sqrt (2 * Real.pi) :=
      Real.sqrt_pos.mpr (by have := Real.pi_pos; linarith)
    have hC := sqrtTwoPi_ge
    have h1 : (1 : ℝ) / (20 * ((5644425081792447 / 2 ^ 51 : ℚ) : ℝ))
        ≤ 1 / (20 * Real.sqrt (2 * Real.pi)) :=
      one_div_le_one_div_of_le (by positivity) (by linarith)
    have h2 : ((10709025 / 1073741824 : ℚ) : ℝ)
        < 51 / 100 * (1 / (20 * ((5644425081792447 / 2 ^ 51 : ℚ) : ℝ))) := by
      push_cast
      norm_num
    have h3 := mul_le_mul_of_nonneg_left h1 (by norm_num : (0 : ℝ) ≤ 51 / 100)
    linarith
  · have hspec : specDensity [0] 0 1 = 1 / (1 * Real.sqrt (2 * Real.pi)) := by
      unfold specDensity
      simp
    rw [kde_single_zero, hspec]
    exact ne_of_gt peak_lt_single_zero

/-- C1, amended: for every non-empty sequence of at most 2^24 `float` samples, every `float`
bandwidth `b` between `2^-100` and `2^100` and every `float` point `x`,
`kernelDensityEstimation(S, x, b)` agrees with the Gaussian-kernel density estimate
`(1 / (n * b * sqrt(2π))) * Σᵢ exp(-0.5 * ((x - S[i]) / b)^2)` up to the rounding of its
`float` and `double` operations: the two differ by at most `(n + 16) / 2^25` times the peak
value `1 / (b * sqrt(2π))`.  The literal 3.14159265359 that the code has for π is within this
tolerance. -/
theorem kernelDensityEstimation_near_specDensity (samples : List ℚ) (x bandwidth : ℚ)
    (hs : samples ≠ []) (hn : samples.length ≤ 2 ^ 24) (hfs : ∀ s ∈ samples, isFloat s)
    (hfx : isFloat x) (_hfb : isFloat bandwidth) (hb1 : 1 / 2 ^ 100 ≤ bandwidth)
    (hb2 : bandwidth ≤ 2 ^ 100) :
    |((kernelDensityEstimation samples x bandwidth : ℚ) : ℝ) - specDensity samples x bandwidth|
      ≤ ((samples.length : ℝ) + 16) / 2 ^ 25
        * (1 / ((bandwidth : ℝ) * Real.sqrt (2 * Real.pi))) :=
  kde_near_spec samples x bandwidth hs hn (fun s h => isFloat_representable s (hfs s h))
    (isFloat_representable x hfx) hb1 hb2

/-- C1, an instance: the single sample 0, the point 0, bandwidth 1, where the function
returns 6693141 / 2^24. -/
theorem kernelDensityEstimation_near_specDensity_witness :
    isFloat 0 ∧ isFloat 1
      ∧ |((6693141 / 16777216 : ℚ) : ℝ) - specDensity [0] 0 1|
        ≤ (((1 : Nat) : ℝ) + 16) / 2 ^ 25 * (1 / (((1 : ℚ) : ℝ) * Real.sqrt (2 * Real.pi))) := by
  have h0 : isFloat 0 := ⟨by decide!, by decide!⟩
  have h1 : isFloat 1 := ⟨by decide!, by decide!⟩
  have h := kernelDensityEstimation_near_specDensity [0] 0 1 (by simp) (by simp)
    (by
      intro s hs
      simp only [List.mem_singleton] at hs
      rw [hs]
      exact h0)
    h0 h1 (by norm_num) (by norm_num)
  rw [kde_single_zero] at h
  exact ⟨h0, h1, h⟩

/-! ## Sampler: the range of the value returned (C2) -/

/-- C2, refuted: for the samples -1048576, 0.1875 and bandwidth 20 the width
`samples.back() - samples.front()` is 1048576.1875, which line 45 rounds to the `float`
1048576.25; with the draws `u = 1 - 2^-30`, `y = 0` the candidate 255/1024 is accepted and
returned, and it is above the greatest sample. -/
theorem sampleFromKDE_leaves_sample_range :
    sampleFromKDE [-1048576, 3 / 16] 20 [(1 - 1 / 2 ^ 30, 0)] = some (255 / 1024)
      ∧ ([-1048576, 3 / 16] : List ℚ).maximum_of_length_pos (by simp) < 255 / 1024
      ∧ (0 : ℚ) ≤ 1 - 1 / 2 ^ 30 ∧ (1 - 1 / 2 ^ 30 : ℚ) ≤ 1
      ∧ isFloat (-1048576) ∧ isFloat (3 / 16) := by
  have hc : kdeCandidate (-1048576) (3 / 16) (1 - 1 / 2 ^ 30) = 255 / 1024 := by decide!
  have harg : -(1 / 2) ≤ kernelArgument (255 / 1024) (3 / 16) 20 := by decide!
  have hpos := kde_pos_of_close [-1048576, 3 / 16] (255 / 1024) 20 (3 / 16) (by simp) harg
    (by norm_num) (by norm_num)
  refine ⟨?_, ?_, by norm_num, by norm_num, ⟨by decide!, by decide!⟩, ⟨by decide!, by decide!⟩⟩
  · simp only [sampleFromKDE, List.head?_cons, List.getLast?_cons_cons, List.getLast?_singleton,
      hc, if_pos hpos]
  · have h : ([-1048576, 3 / 16] : List ℚ).maximum_of_length_pos (by simp) = 3 / 16 := by
      decide!
    rw [h]
    norm_num

/-- C2, amended: for every non-empty sequence of `float` samples whose width does not overflow,
in whatever order, every bandwidth `b > 0` and all draws with `u` in `[0, 1]`, a value that
`sampleFromKDE` returns lies between the least and the greatest sample up to the rounding of the
width `samples.back() - samples.front()` and of the candidate: it is at least
`min(S) - (max(S) - min(S)) / 2^22` and at most `max(S) + (max(S) - min(S)) / 2^22`. -/
theorem sampleFromKDE_near_sample_range (samples : List ℚ) (bandwidth : ℚ)
    (draws : List (ℚ × ℚ)) (x : ℚ) (hs : samples ≠ []) (hfl : ∀ s ∈ samples, isFloat s)
    (_hw : samples.maximum_of_length_pos (List.length_pos.mpr hs)
      - samples.minimum_of_length_pos (List.length_pos.mpr hs) ≤ maxFloat)
    (_hb : 0 < bandwidth) (hu : ∀ d ∈ draws, 0 ≤ d.1 ∧ d.1 ≤ 1)
    (hx : sampleFromKDE samples bandwidth draws = some x) :
    samples.minimum_of_length_pos (List.length_pos.mpr hs)
        - (samples.maximum_of_length_pos (List.length_pos.mpr hs)
          - samples.minimum_of_length_pos (List.length_pos.mpr hs)) / 2 ^ 22 ≤ x
      ∧ x ≤ samples.maximum_of_length_pos (List.length_pos.mpr hs)
        + (samples.maximum_of_length_pos (List.length_pos.mpr hs)
          - samples.minimum_of_length_pos (List.length_pos.mpr hs)) / 2 ^ 22 := by
  obtain ⟨front, back, u, y, hf, hl, hmem, hxe, -⟩ := sample_mem samples bandwidth draws x hx
  obtain ⟨hu0, hu1⟩ := hu (u, y) hmem
  simp only at hu0 hu1
  have hfm : front ∈ samples := List.mem_of_mem_head? hf
  have hbm : back ∈ samples := List.mem_of_mem_getLast? hl
  have hw := List.length_pos.mpr hs
  have h1 := List.minimum_of_length_pos_le_of_mem hfm hw
  have h2 := List.minimum_of_length_pos_le_of_mem hbm hw
  have h3 := List.le_maximum_of_length_pos_of_mem hfm hw
  have h4 := List.le_maximum_of_length_pos_of_mem hbm hw
  have hrf := isFloat_representable front (hfl front hfm)
  have hrb := isFloat_representable back (hfl back hbm)
  have hbetween := kdeCandidate_between front back u hrf hu0 hu1
  have hend := kdeCandidate_end_error front back hrf hrb
  generalize samples.minimum_of_length_pos hw = lo at h1 h2 ⊢
  generalize samples.maximum_of_length_pos hw = hi at h3 h4 ⊢
  have hwidth : |back - front| ≤ hi - lo := by
    rw [abs_le]; constructor <;> linarith
  have hE : |kdeCandidate front back 1 - back| ≤ (hi - lo) / 2 ^ 22 :=
    le_trans hend (div_le_div_of_nonneg_right hwidth (by positivity))
  rw [abs_le] at hE
  have hnn : 0 ≤ (hi - lo) / 2 ^ 22 := by
    have : 0 ≤ hi - lo := le_trans (abs_nonneg _) hwidth
    positivity
  rw [hxe]
  rcases hbetween with ⟨ha, hb⟩ | ⟨ha, hb⟩
  · constructor <;> linarith [hE.1, hE.2]
  · constructor <;> linarith [hE.1, hE.2]

/-- C2, an instance: samples 3, 1 (the greatest first), bandwidth 1, draws `u = 1/2`, `y = 0`:
the candidate 2 is returned. -/
theorem sampleFromKDE_near_sample_range_witness :
    sampleFromKDE [3, 1] 1 [(1 / 2, 0)] = some 2
      ∧ ([3, 1] : List ℚ).minimum_of_length_pos (by simp)
          - (([3, 1] : List ℚ).maximum_of_length_pos (by simp)
            - ([3, 1] : List ℚ).minimum_of_length_pos (by simp)) / 2 ^ 22 ≤ 2
      ∧ 2 ≤ ([3, 1] : List ℚ).maximum_of_length_pos (by simp)
          + (([3, 1] : List ℚ).maximum_of_length_pos (by simp)
            - ([3, 1] : List ℚ).minimum_of_length_pos (by simp)) / 2 ^ 22 := by
  have hc : kdeCandidate 3 1 (1 / 2) = 2 := by decide!
  have harg : -(1 / 2) ≤ kernelArgument 2 3 1 := by decide!
  have hpos := kde_pos_of_close [3, 1] 2 1 3 (by simp) harg (by norm_num) (by norm_num)
  have hret : sampleFromKDE [3, 1] 1 [(1 / 2, 0)] = some 2 := by
    simp only [sampleFromKDE, List.head?_cons, List.getLast?_cons_cons,
      List.getLast?_singleton, hc, if_pos hpos]
  exact ⟨hret, sampleFromKDE_near_sample_range [3, 1] 1 [(1 / 2, 0)] 2 (by simp)
    (by
      intro s hs
      simp only [List.mem_cons, List.mem_singleton, List.not_mem_nil, or_false] at hs
      rcases hs with rfl | rfl
      · exact ⟨by decide!, by decide!⟩
      · exact ⟨by decide!, by decide!⟩)
    (by decide!) (by norm_num)
    (by intro d hd; simp only [List.mem_singleton] at hd; subst hd; norm_num) hret⟩

/-! ## Density estimator: the peak bound (C9) -/

/-- C9, refuted: for the single sample 0, the point 0 and bandwidth 1 the function returns the
`float` 6693141 / 2^24, the rounding of `1 / sqrt(2 * 3.14159265359)` upwards, which is above
`1 / (1 * sqrt(2π))`. -/
theorem kernelDensityEstimation_exceeds_peak :
    kernelDensityEstimation [0] 0 1 = 6693141 / 16777216
      ∧ ¬ (((kernelDensityEstimation [0] 0 1 : ℚ) : ℝ) ≤ 1 / (1 * Real.sqrt (2 * Real.pi))) := by
  refine ⟨kde_single_zero, ?_⟩
  rw [kde_single_zero, not_le]
  exact peak_lt_single_zero

/-- C9, amended: for every non-empty sample sequence, every bandwidth `b` between `2^-100` and
`2^100` and every point, `kernelDensityEstimation` is at most `1 / (b * sqrt(2π))` increased by
one part in `2^23`, the room that the rounding of its result to `float` takes; with the bandwidth
20 of `playClicks` it is below 0.02 everywhere, so that `sampleFromKDE` returns a candidate only
at a draw `y` below 0.02, whatever the samples are. -/
theorem kernelDensityEstimation_le_rounded_peak (samples : List ℚ) (x bandwidth : ℚ)
    (hs : samples ≠ []) (hb1 : 1 / 2 ^ 100 ≤ bandwidth) (hb2 : bandwidth ≤ 2 ^ 100) :
    ((kernelDensityEstimation samples x bandwidth : ℚ) : ℝ)
        ≤ 1 / ((bandwidth : ℝ) * Real.sqrt (2 * Real.pi)) * (1 + 1 / 2 ^ 23)
      ∧ kernelDensityEstimation samples x 20 < 2 / 100
      ∧ ∀ (draws : List (ℚ × ℚ)) (r : ℚ), sampleFromKDE samples 20 draws = some r →
          ∃ d ∈ draws, d.2 < kernelDensityEstimation samples r 20 ∧ d.2 < 2 / 100 := by
  refine ⟨?_, kde_lt_of_bandwidth_20 samples x hs, ?_⟩
  · have hbpos : 0 < bandwidth := lt_of_lt_of_le (by positivity) hb1
    have hbR : (0 : ℝ) < (bandwidth : ℝ) := by exact_mod_cast hbpos
    have h := (kde_le_peak samples x bandwidth hs hb1 hb2).2
    have hR : ((kernelDensityEstimation samples x bandwidth : ℚ) : ℝ)
        ≤ ((1 / (5644425081792447 / 2 ^ 51 * bandwidth) * (1 + 1 / 2 ^ 23) : ℚ) : ℝ) := by
      exact_mod_cast h
    refine le_trans hR ?_
    have hsq : (0 : ℝ) < Real.sqrt (2 * Real.pi) :=
      Real.sqrt_pos.mpr (by have := Real.pi_pos; linarith)
    have hge := sqrtTwoPi_ge
    push_cast at hge ⊢
    apply mul_le_mul_of_nonneg_right _ (by norm_num)
    apply one_div_le_one_div_of_le (mul_pos hbR hsq)
    rw [mul_comm]
    exact mul_le_mul_of_nonneg_right hge hbR.le
  · intro draws r hr
    obtain ⟨front, back, u, y, -, -, hmem, -, hy⟩ := sample_mem samples 20 draws r hr
    exact ⟨(u, y), hmem, hy, lt_trans hy (kde_lt_of_bandwidth_20 samples r hs)⟩

/-- C9, an instance: the single sample 0, the point 0, bandwidth 1, where the value returned,
6693141 / 2^24, is within the bound. -/
theorem kernelDensityEstimation_le_rounded_peak_witness :
    ([0] : List ℚ) ≠ [] ∧ (1 : ℚ) / 2 ^ 100 ≤ 1 ∧ (1 : ℚ) ≤ 2 ^ 100
      ∧ ((6693141 / 16777216 : ℚ) : ℝ)
        ≤ 1 / (((1 : ℚ) : ℝ) * Real.sqrt (2 * Real.pi)) * (1 + 1 / 2 ^ 23)
      ∧ kernelDensityEstimation [0] 0 20 < 2 / 100 := by
  have h := kernelDensityEstimation_le_rounded_peak [0] 0 1 (by simp) (by norm_num)
    (by norm_num)
  refine ⟨by simp, by norm_num, by norm_num, ?_, h.2.1⟩
  have h1 := h.1
  rwa [kde_single_zero] at h1

/-! ## Interval store: saving and reloading (C6) -/

/-- C6: for every sequence of `float` values, the text that `saveClickDelaysToFile` writes is
the texts of the values joined by single commas, with no comma after the last, and
`readIntervalsFromFile` parses it into a sequence of the same length and order in which every
value is a `float` again, equal to the saved one within the precision of the text: it is the six
significant digits written, read as a `double` and converted to `float`, and it differs from the
saved value by at most 2 parts in 10^5 of it, by at most 5.1 parts in a million when the saved
value is a normal `float` of magnitude `2^-125` or more.  For 12.5, 30, 7.25 the text is
`12.5,30,7.25` and reloading gives 12.5, 30, 7.25. -/
theorem save_then_read_roundtrip (x : List ℚ) (hx : ∀ v ∈ x, isFloat v) :
    saveClickDelaysToFile x = List.intercalate [','] (x.map formatFloat)
      ∧ (∀ v ∈ x, formatFloat v ≠ [] ∧ ',' ∉ formatFloat v)
      ∧ readIntervalsFromFile (some (saveClickDelaysToFile x)) = some (x.map reload)
      ∧ List.Forall₂ (fun y v => isFloat y ∧ |y - v| ≤ |v| * (2 / 10 ^ 5)
          ∧ (1 / 2 ^ 125 ≤ |v| → |y - v| ≤ |v| * (51 / 10 ^ 7))) (x.map reload) x
      ∧ saveClickDelaysToFile [12.5, 30.0, 7.25]
          = ['1', '2', '.', '5', ',', '3', '0', ',', '7', '.', '2', '5']
      ∧ readIntervalsFromFile (some (saveClickDelaysToFile [12.5, 30.0, 7.25]))
          = some [12.5, 30.0, 7.25] := by
  have hsave : saveClickDelaysToFile x = List.intercalate [','] (x.map formatFloat) := by
    have := writeFrom_joined x []
    simpa [saveClickDelaysToFile] using this
  refine ⟨hsave, fun v _ => formatFloat_spec v, ?_, ?_, by decide!, by decide!⟩
  · rw [hsave, readIntervalsFromFile]
    have := readLoop_joined x ((List.intercalate [','] (x.map formatFloat)).length + 1) []
      (Nat.lt_succ_of_le (joined_length x))
    simpa using this
  · rw [List.forall₂_map_left_iff]
    exact List.forall₂_same.mpr (fun v hv =>
      ⟨reload_isFloat v (hx v hv), reload_close v (hx v hv), reload_close_normal v⟩)

/-- C6, an instance: the `float` nearest to 0.1 and the `float` `1 + 42 * 2^-23`.  The text is
`0.1,1.00001`; the first value is read back as it was, the second as `1 + 84 * 2^-23`. -/
theorem save_then_read_roundtrip_witness :
    (∀ v ∈ [(13421773 / 134217728 : ℚ), 8388650 / 8388608], isFloat v)
      ∧ saveClickDelaysToFile [13421773 / 134217728, 8388650 / 8388608]
          = ['0', '.', '1', ',', '1', '.', '0', '0', '0', '0', '1']
      ∧ readIntervalsFromFile
          (some (saveClickDelaysToFile [13421773 / 134217728, 8388650 / 8388608]))
          = some [13421773 / 134217728, 8388692 / 8388608] := by
  have hfl : ∀ v ∈ [(13421773 / 134217728 : ℚ), 8388650 / 8388608], isFloat v := by
    intro v hv
    simp only [List.mem_cons, List.mem_singleton, List.not_mem_nil, or_false] at hv
    rcases hv with rfl | rfl
    · exact ⟨by decide!, by decide!⟩
    · exact ⟨by decide!, by decide!⟩
  have h := save_then_read_roundtrip [13421773 / 134217728, 8388650 / 8388608] hfl
  refine ⟨hfl, by decide!, ?_⟩
  rw [h.2.2.1]
  decide!

/-! ## Recorder log across sessions (C7) -/

/-- C7, refuted: after a first recorder session that accepts the delta 50, a second session
that accepts only the delta 90 writes `50,90`, not the text `90` of its own deltas. -/
theorem second_session_writes_first_session_deltas :
    (main start [recorderRound [0, 50], recorderRound [0, 90]]).trace
        = [Action.fileWrite ['5', '0'], Action.cout "Recording saved.",
            Action.fileWrite ['5', '0', ',', '9', '0'], Action.cout "Recording saved."]
      ∧ (recordLoop 1000 [] [0, 90]).clickDelays = [90]
      ∧ writeRecording [90] = ['9', '0'] := by
  decide!

/-- C7, amended: the log is a global that no operation clears.  A recorder session starts from
the log as the earlier sessions of the run left it, and what it writes at its end is that log
followed by the deltas accepted during the session, joined by commas; the log after any sequence
of menu passes starts with the log before it.  Only from the empty log, as in the first session
of a run, the data written are the deltas of the session alone. -/
theorem clickRecorder_writes_whole_log (g : Globals) (frequency : Int) (presses : List Int) :
    clickRecorder g frequency presses true true 0
        = { globals := { g with clickDelays :=
                g.clickDelays ++ (recordLoop frequency [] presses).clickDelays }
            trace := [Action.fileWrite (List.intercalate [',']
                ((g.clickDelays ++ (recordLoop frequency [] presses).clickDelays).map formatFloat)),
              Action.cout "Recording saved."]
            status := Status.running }
      ∧ (∀ (p : Program) (rounds : List Round),
          ∃ more, (main p rounds).globals.clickDelays = p.globals.clickDelays ++ more)
      ∧ (clickRecorder start.globals frequency presses true true 0).trace
          = [Action.fileWrite (List.intercalate [',']
                ((recordLoop frequency [] presses).clickDelays.map formatFloat)),
              Action.cout "Recording saved."] := by
  have hw : ∀ l : List ℚ, writeRecording l = List.intercalate [','] (l.map formatFloat) := by
    intro l
    have := writeRecordingFrom_joined l []
    simpa [writeRecording] using this
  refine ⟨?_, fun p rounds => main_log_grows rounds p, ?_⟩
  · simp only [clickRecorder, if_true, hw, recordLoop_append frequency g.clickDelays presses]
  · simp only [clickRecorder, if_true, hw, start]

/-! ## Empty sample set (C8) -/

/-- C8: `readIntervalsFromFile` returns the empty sequence for a file that cannot be opened
and for a file without content; when the sequence loaded is empty the player branch of the menu
reports it and does nothing else; and in no run of the menu `shuffle` or `sampleFromKDE` (and
with it `kernelDensityEstimation`, which only `sampleFromKDE` calls) is called on an empty
sample set. -/
theorem empty_sample_set_is_never_played (g : Globals) (r : Round) (rounds : List Round)
    (hchoice : r.choice = 1) (hempty : readIntervalsFromFile r.file = some []) :
    readIntervalsFromFile none = some []
      ∧ readIntervalsFromFile (some []) = some []
      ∧ menuRound g r
          = { globals := g, trace := [Action.cerr "No intervals found in file.\n"],
              status := Status.running }
      ∧ ∀ a ∈ (main start rounds).trace,
          a ≠ Action.shuffle [] ∧ ∀ bw, a ≠ Action.sampleFromKDE [] bw := by
  refine ⟨rfl, rfl, ?_, main_nonempty_calls rounds start (by simp [start])⟩
  simp [menuRound, hchoice, hempty]

/-- C8, an instance: the player is chosen for a file without content, and then for a file that
cannot be opened. -/
theorem empty_sample_set_is_never_played_witness :
    (main start [playerRound (some []) [Event.poll true false false true],
        playerRound none [Event.poll true false false true]]).trace
      = [Action.cerr "No intervals found in file.\n", Action.cerr "No intervals found in file.\n"]
    ∧ menuRound start.globals (playerRound (some []) [Event.poll true false false true])
      = { globals := start.globals, trace := [Action.cerr "No intervals found in file.\n"],
          status := Status.running } :=
  ⟨by decide!, (empty_sample_set_is_never_played start.globals
    (playerRound (some []) [Event.poll true false false true]) [] rfl rfl).2.2.1⟩

end ClickPlayer
